import Mathlib

/-!
# LSM-Tree-in-Golang: a shallow embedding and its verified properties

The development follows the layers of the repository:

* byte strings, `bytes.Compare`, little-endian integer fields
  (`encoding/binary`);
* the write-ahead log (`wal/wal.go`);
* the skip list (`memtable/skiplist.go`), as a heap of nodes addressed by
  index, with `nil` as `none`;
* the memtable (`memtable/memtable.go`);
* the SSTable writer and reader (`sstable/sstable.go`, `sstable/reader.go`),
  over the exact bytes of the file;
* the engine (`engine/lsm.go`).

Conventions of the embedding.

* A Go function that can panic (index out of range, nil dereference) or whose
  loop is run here with a step budget returns `Except Fault _`.
* A Go `error` result is an `Option IOErr` next to the returned state.
* `rand.Float64() < P` is an input: the list of coin flips handed to `Put`.
* A file is its bytes. One `Read` of a file is one `read(2)` of at most 2^30
  bytes (`binary.Read` and `Write` transfer in full); a seek to a position
  within the file succeeds and one to a negative position fails, while the
  outcome of a seek past the end of the file depends on the file system and is
  left open (`Fault.env`).
* File names come from the nanosecond clock; every created file is taken to be
  a new file, and a reader keeps the bytes of the file it opened. The directory
  and the file names are modelled in `Store`, where the readings of the clock
  are inputs.
-/

namespace Lsm

/-! ## Bytes -/

/-- One byte. -/
abbrev Byte := Fin 256

/-- A Go byte slice, by content. -/
abbrev Bytes := List Byte

/-- Go `bytes.Compare`: lexicographic comparison of byte strings, as -1, 0, 1. -/
def bytesCompare : Bytes → Bytes → Int
  | [], [] => 0
  | [], _ :: _ => -1
  | _ :: _, [] => 1
  | a :: as, b :: bs =>
    if a < b then -1 else if b < a then 1 else bytesCompare as bs

/-- Go `bytes.Equal`. -/
def bytesEqual (a b : Bytes) : Bool := decide (a = b)

/-- The byte `byte(v)` of a Go conversion: the low eight bits. -/
def toByte (v : Nat) : Byte := Fin.ofNat v

/-- Go `binary.LittleEndian.PutUint32`. -/
def putUint32 (v : Nat) : Bytes :=
  [toByte v, toByte (v / 2 ^ 8), toByte (v / 2 ^ 16), toByte (v / 2 ^ 24)]

/-- Go `binary.LittleEndian.PutUint64`. -/
def putUint64 (v : Nat) : Bytes :=
  [toByte v, toByte (v / 2 ^ 8), toByte (v / 2 ^ 16), toByte (v / 2 ^ 24),
   toByte (v / 2 ^ 32), toByte (v / 2 ^ 40), toByte (v / 2 ^ 48), toByte (v / 2 ^ 56)]

/-- Little-endian value of a byte string (`binary.LittleEndian.Uint32` on four
bytes, `Uint64` on eight). -/
def leValue : Bytes → Nat
  | [] => 0
  | b :: bs => b.val + 256 * leValue bs

/-- Go `uint32(n)` of a non-negative `int`. -/
def asUint32 (n : Nat) : Nat := n % 2 ^ 32

/-- Go `uint64(n)` of an `int64`. -/
def asUint64 (n : Int) : Nat := (n % 2 ^ 64).toNat

/-- Go `int64(n)` of a `uint64`. -/
def asInt64 (n : Nat) : Int :=
  if n % 2 ^ 64 < 2 ^ 63 then ((n % 2 ^ 64 : Nat) : Int) else ((n % 2 ^ 64 : Nat) : Int) - 2 ^ 64

/-- The tombstone sentinel `[]byte("TOMBSTONE_MARKER")`. -/
def tombstoneMarker : Bytes :=
  [84, 79, 77, 66, 83, 84, 79, 78, 69, 95, 77, 65, 82, 75, 69, 82]

/-! ## Failures -/

/-- What stops a Go function short of returning a result that this embedding
determines: a run-time panic, the step budget of a loop of the embedding
running out, or a system call whose outcome depends on the file system the
directory is on (`env`). -/
inductive Fault where
  | panic
  | fuel
  | env
  deriving DecidableEq, Repr

/-- Go `error` values of the file layer. -/
inductive IOErr where
  | eof
  | unexpectedEOF
  | seek
  | device
  deriving DecidableEq, Repr

instance instDecidableEqExcept {ε α : Type} [DecidableEq ε] [DecidableEq α] :
    DecidableEq (Except ε α) := fun a b =>
  match a, b with
  | .ok x, .ok y => if h : x = y then isTrue (by rw [h]) else isFalse (fun h1 => h (by cases h1; rfl))
  | .error x, .error y =>
    if h : x = y then isTrue (by rw [h]) else isFalse (fun h1 => h (by cases h1; rfl))
  | .ok _, .error _ => isFalse (fun h => by cases h)
  | .error _, .ok _ => isFalse (fun h => by cases h)

/-! ## Write-ahead log (`wal/wal.go`) -/

/-- The step of `WAL.Write` at which the device reports an error. -/
inductive WalFault where
  | header
  | key
  | value
  | sync
  deriving DecidableEq, Repr

/-- `WAL`: the log file, by content. -/
structure WAL where
  file : Bytes
  deriving DecidableEq, Repr

/-- `wal.New` on a path that holds no file. -/
def WAL.New : WAL := ⟨[]⟩

/-- `WAL.Write`: header, key, value, then `Sync`; the first failing step
returns the error and leaves what was written before it. -/
def WAL.Write (w : WAL) (key value : Bytes) (fault : Option WalFault) : WAL × Option IOErr :=
  let header := putUint32 (asUint32 key.length) ++ putUint32 (asUint32 value.length)
  match fault with
  | some WalFault.header => (w, some IOErr.device)
  | some WalFault.key => (⟨w.file ++ header⟩, some IOErr.device)
  | some WalFault.value => (⟨w.file ++ header ++ key⟩, some IOErr.device)
  | some WalFault.sync => (⟨w.file ++ header ++ key ++ value⟩, some IOErr.device)
  | none => (⟨w.file ++ header ++ key ++ value⟩, none)

/-! ## Skip list (`memtable/skiplist.go`) -/

/-- `MaxLevel`. -/
def MaxLevel : Nat := 12

/-- `Node`: `next[i]` is `none` for a nil pointer, `some p` for the node at
address `p` of the heap. -/
structure Node where
  key : Bytes
  value : Bytes
  next : List (Option Nat)
  deriving DecidableEq, Repr

/-- `SkipList`: the nodes allocated so far (the head first), the address of the
head, and the current highest level. -/
structure SkipList where
  heap : List Node
  head : Nat
  level : Nat
  deriving DecidableEq, Repr

/-- `NewSkipList`. -/
def NewSkipList : SkipList :=
  ⟨[⟨[], [], List.replicate MaxLevel none⟩], 0, 0⟩

/-- `randomLevel`: `flips` are the successive outcomes of `rand.Float64() < P`. -/
def randomLevel : List Bool → Nat → Nat
  | true :: rest, lvl => if lvl < MaxLevel - 1 then randomLevel rest (lvl + 1) else lvl
  | _, lvl => lvl

/-- Dereference of a node pointer. -/
def deref (heap : List Node) (p : Nat) : Except Fault Node :=
  match heap[p]? with
  | some nd => .ok nd
  | none => .error Fault.panic

/-- Read of `p.next[i]`. -/
def nextAt (heap : List Node) (p i : Nat) : Except Fault (Option Nat) :=
  match heap[p]? with
  | some nd =>
    match nd.next[i]? with
    | some q => .ok q
    | none => .error Fault.panic
  | none => .error Fault.panic

/-- Assignment `p.next[i] = q`. -/
def setNext (heap : List Node) (p i : Nat) (q : Option Nat) : Except Fault (List Node) :=
  match heap[p]? with
  | some nd =>
    if i < nd.next.length then .ok (heap.set p { nd with next := nd.next.set i q })
    else .error Fault.panic
  | none => .error Fault.panic

/-- The inner loop of `Put` and `Get`:
`for curr.next[i] != nil && bytes.Compare(curr.next[i].key, key) < 0`. -/
def advance (heap : List Node) (key : Bytes) (i : Nat) : Nat → Nat → Except Fault Nat
  | 0, _ => .error Fault.fuel
  | fuel + 1, curr =>
    match nextAt heap curr i with
    | .error e => .error e
    | .ok none => .ok curr
    | .ok (some p) =>
      match deref heap p with
      | .error e => .error e
      | .ok nd =>
        if bytesCompare nd.key key < 0 then advance heap key i fuel p else .ok curr

/-- The outer loop of `Put`, `for i := s.level; i >= 0; i--`, with `n = i + 1`
levels left; `update[i] = curr` after each level. -/
def findUpdate (heap : List Node) (key : Bytes) :
    Nat → Nat → List (Option Nat) → Except Fault (Nat × List (Option Nat))
  | 0, curr, update => .ok (curr, update)
  | i + 1, curr, update =>
    match advance heap key i heap.length curr with
    | .error e => .error e
    | .ok c =>
      if i < update.length then findUpdate heap key i c (update.set i (some c))
      else .error Fault.panic

/-- The outer loop of `Get`: the same descent without the update vector. -/
def descend (heap : List Node) (key : Bytes) : Nat → Nat → Except Fault Nat
  | 0, curr => .ok curr
  | i + 1, curr =>
    match advance heap key i heap.length curr with
    | .error e => .error e
    | .ok c => descend heap key i c

/-- The loop `for i := s.level + 1; i <= lvl; i++ { update[i] = s.head }`,
with `n` iterations left. -/
def raiseUpdate (head : Nat) : Nat → Nat → List (Option Nat) → Except Fault (List (Option Nat))
  | 0, _, update => .ok update
  | n + 1, i, update =>
    if i < update.length then raiseUpdate head n (i + 1) (update.set i (some head))
    else .error Fault.panic

/-- The loop `for i := 0; i <= lvl; i++` that splices the new node `nw` in,
with `n` iterations left:
`newNode.next[i] = update[i].next[i]; update[i].next[i] = newNode`. -/
def splice (update : List (Option Nat)) (nw : Nat) :
    Nat → Nat → List Node → Except Fault (List Node)
  | 0, _, heap => .ok heap
  | n + 1, i, heap =>
    match update[i]? with
    | none => .error Fault.panic
    | some none => .error Fault.panic
    | some (some u) =>
      match nextAt heap u i with
      | .error e => .error e
      | .ok q =>
        match setNext heap nw i q with
        | .error e => .error e
        | .ok h1 =>
          match setNext h1 u i (some nw) with
          | .error e => .error e
          | .ok h2 => splice update nw n (i + 1) h2

/-- Step 3 of `SkipList.Put`: insert a new node with a random level, given the
update vector of the descent. -/
def SkipList.insertNew (s : SkipList) (key value : Bytes) (flips : List Bool)
    (update : List (Option Nat)) : Except Fault SkipList :=
  let lvl := randomLevel flips 0
  let raised : Except Fault (List (Option Nat)) :=
    if lvl > s.level then raiseUpdate s.head (lvl - s.level) (s.level + 1) update
    else .ok update
  match raised with
  | .error e => .error e
  | .ok update1 =>
    let level1 := if lvl > s.level then lvl else s.level
    let nw := s.heap.length
    let heap1 := s.heap ++ [⟨key, value, List.replicate (lvl + 1) none⟩]
    match splice update1 nw (lvl + 1) 0 heap1 with
    | .error e => .error e
    | .ok heap2 => .ok ⟨heap2, s.head, level1⟩

/-- `SkipList.Put`. -/
def SkipList.Put (s : SkipList) (key value : Bytes) (flips : List Bool) : Except Fault SkipList :=
  match findUpdate s.heap key (s.level + 1) s.head (List.replicate MaxLevel none) with
  | .error e => .error e
  | .ok (curr, update) =>
    match nextAt s.heap curr 0 with
    | .error e => .error e
    | .ok none => s.insertNew key value flips update
    | .ok (some p) =>
      match deref s.heap p with
      | .error e => .error e
      | .ok nd =>
        if bytesEqual nd.key key then .ok { s with heap := s.heap.set p { nd with value := value } }
        else s.insertNew key value flips update

/-- `SkipList.Get`, as the pair `(value, found)`. -/
def SkipList.Get (s : SkipList) (key : Bytes) : Except Fault (Bytes × Bool) :=
  match descend s.heap key (s.level + 1) s.head with
  | .error e => .error e
  | .ok curr =>
    match nextAt s.heap curr 0 with
    | .error e => .error e
    | .ok none => .ok ([], false)
    | .ok (some p) =>
      match deref s.heap p with
      | .error e => .error e
      | .ok nd => if bytesEqual nd.key key then .ok (nd.value, true) else .ok ([], false)

/-- The walk `for node := it; node != nil; node = node.Next()` over level 0,
collecting `(node.Key(), node.Value())`. -/
def walk (heap : List Node) : Nat → Option Nat → Except Fault (List (Bytes × Bytes))
  | _, none => .ok []
  | 0, some _ => .error Fault.fuel
  | fuel + 1, some p =>
    match deref heap p with
    | .error e => .error e
    | .ok nd =>
      match nextAt heap p 0 with
      | .error e => .error e
      | .ok q =>
        match walk heap fuel q with
        | .error e => .error e
        | .ok rest => .ok ((nd.key, nd.value) :: rest)

/-! ## Memtable (`memtable/memtable.go`) -/

/-- Go `int` arithmetic: the sum wrapped into the signed 64-bit range. -/
def wrapInt64 (x : Int) : Int := (x + 2 ^ 63) % 2 ^ 64 - 2 ^ 63

/-- `MemTable`. -/
structure MemTable where
  list : SkipList
  wal : WAL
  maxSize : Int
  currSize : Int
  deriving DecidableEq, Repr

/-- `NewMemTable`; `walFile` is what the file at `walPath` holds when it is
opened (nothing when the path is new). -/
def NewMemTable (walFile : Bytes) (maxSize : Int) : MemTable :=
  ⟨NewSkipList, ⟨walFile⟩, maxSize, 0⟩

/-- `MemTable.Put`: WAL first; on a WAL error the skip list is not touched. -/
def MemTable.Put (m : MemTable) (key value : Bytes) (flips : List Bool)
    (fault : Option WalFault) : Except Fault (MemTable × Option IOErr) :=
  match m.wal.Write key value fault with
  | (w, some e) => .ok ({ m with wal := w }, some e)
  | (w, none) =>
    match m.list.Put key value flips with
    | .error f => .error f
    | .ok l1 =>
      .ok (⟨l1, w, m.maxSize,
        wrapInt64 (m.currSize + wrapInt64 ((key.length : Int) + (value.length : Int)))⟩, none)

/-- `MemTable.Get`. -/
def MemTable.Get (m : MemTable) (key : Bytes) : Except Fault (Bytes × Bool) :=
  m.list.Get key

/-- `MemTable.IsFull`. -/
def MemTable.IsFull (m : MemTable) : Bool := decide (m.currSize ≥ m.maxSize)

/-- `MemTable.GetIterator`: `m.list.head.next[0]`. -/
def MemTable.GetIterator (m : MemTable) : Except Fault (Option Nat) :=
  nextAt m.list.heap m.list.head 0

/-! ## Files -/

/-- The most that one `Read` of an `*os.File` transfers: Go hands at most
`maxRW = 1 << 30` bytes of the buffer to a single `read(2)`. -/
def maxRW : Nat := 2 ^ 30

/-- `(*os.File).Read` at position `pos` into a fresh buffer of `n` bytes: the
buffer after the call, the number of bytes read, the error. It is one
`read(2)` of at most `maxRW` bytes: a longer buffer keeps its zero tail. -/
def fileRead (file : Bytes) (pos n : Nat) : Bytes × Nat × Option IOErr :=
  if n = 0 then ([], 0, none)
  else if file.length ≤ pos then (List.replicate n 0, 0, some IOErr.eof)
  else
    let got := (file.drop pos).take (min n maxRW)
    (got ++ List.replicate (n - got.length) 0, got.length, none)

/-- `(*os.File).Seek` to the absolute position `offset` (`io.SeekStart`, or the
target of an `io.SeekCurrent`), with `none` for an error. A negative position
is refused and a position up to the end of the file is accepted. Whether a
position past the end of the file is accepted depends on the file system (ext4
refuses positions above 2^44 - 4096, others accept every `int64`): the
embedding leaves that outcome open, as `Fault.env`. -/
def fileSeek (file : Bytes) (offset : Int) : Except Fault (Option Nat) :=
  if offset < 0 then .ok none
  else if offset.toNat ≤ file.length then .ok (some offset.toNat)
  else .error Fault.env

/-- `binary.Read` of an unsigned little-endian integer of `n` bytes at position
`pos`: the value stored (the variable keeps 0 on an error), the position after
the call, the error. -/
def binaryRead (file : Bytes) (pos n : Nat) : Nat × Nat × Option IOErr :=
  let got := (file.drop pos).take n
  if got.length = n then (leValue got, pos + n, none)
  else if got.length = 0 then (0, pos, some IOErr.eof)
  else (0, pos + got.length, some IOErr.unexpectedEOF)

/-! ## SSTable writer (`sstable/sstable.go`) -/

/-- `IndexEntry`. -/
structure IndexEntry where
  key : Bytes
  offset : Int
  deriving DecidableEq, Repr

/-- `Writer`: the file written so far and the index kept in memory. -/
structure Writer where
  file : Bytes
  index : List IndexEntry
  deriving DecidableEq, Repr

/-- `NewWriter`: the file is created empty (`O_TRUNC`). -/
def NewWriter : Writer := ⟨[], []⟩

/-- `Writer.WritePair`. -/
def Writer.WritePair (w : Writer) (key value : Bytes) (entryType : Byte) : Writer :=
  let offset : Int := (w.file.length : Int)
  let buf := [entryType] ++ putUint32 (asUint32 key.length) ++ putUint32 (asUint32 value.length)
  ⟨w.file ++ buf ++ key ++ value, w.index ++ [⟨key, offset⟩]⟩

/-- The loop of `Writer.Close` over the index entries. -/
def writeIndex : List IndexEntry → Bytes → Bytes
  | [], file => file
  | e :: rest, file =>
    writeIndex rest
      (file ++ (putUint32 (asUint32 e.key.length) ++ putUint64 (asUint64 e.offset)) ++ e.key)

/-- `Writer.Close`: the bytes of the finished file. -/
def Writer.Close (w : Writer) : Bytes :=
  let indexOffset : Int := (w.file.length : Int)
  writeIndex w.index w.file ++ putUint64 (asUint64 indexOffset)

/-! ## SSTable reader (`sstable/reader.go`) -/

/-- `Reader`: the bytes of the open file and the index loaded from it. -/
structure Reader where
  file : Bytes
  index : List IndexEntry
  deriving DecidableEq, Repr

/-- The `for` loop of `loadIndex`, from file position `pos`. -/
def loadIndexLoop (file : Bytes) : Nat → Nat → List IndexEntry → Except Fault (List IndexEntry)
  | 0, _, _ => .error Fault.fuel
  | fuel + 1, pos, index =>
    match binaryRead file pos 4 with
    | (_, _, some IOErr.eof) => .ok index
    | (_, _, some IOErr.unexpectedEOF) => .ok index
    | (keyLen, currPos, _) =>
      if (currPos : Int) ≥ (file.length : Int) - 8 then .ok index
      else
        match binaryRead file currPos 8 with
        | (offset, pos2, _) =>
          match fileRead file pos2 keyLen with
          | (key, n, _) =>
            loadIndexLoop file fuel (pos2 + n) (index ++ [⟨key, asInt64 offset⟩])

/-- `Reader.loadIndex`: the index, or the error. -/
def loadIndex (file : Bytes) : Except Fault (Except IOErr (List IndexEntry)) :=
  if file.length < 8 then .ok (.error IOErr.seek)
  else
    match binaryRead file (file.length - 8) 8 with
    | (_, _, some e) => .ok (.error e)
    | (indexOffset, _, none) =>
      match fileSeek file (asInt64 indexOffset) with
      | .error f => .error f
      | .ok none => .ok (.error IOErr.seek)
      | .ok (some pos) =>
        match loadIndexLoop file (file.length + 1) pos [] with
        | .error f => .error f
        | .ok index => .ok (.ok index)

/-- `sstable.Open` on a file with the given bytes. -/
def Open (file : Bytes) : Except Fault (Except IOErr Reader) :=
  match loadIndex file with
  | .error f => .error f
  | .ok (.error e) => .ok (.error e)
  | .ok (.ok index) => .ok (.ok ⟨file, index⟩)

/-- The binary search of `Reader.Get`: `foundEntry`, or `none` for nil. -/
def search (index : List IndexEntry) (key : Bytes) :
    Nat → Int → Int → Except Fault (Option IndexEntry)
  | 0, low, high => if low ≤ high then .error Fault.fuel else .ok none
  | fuel + 1, low, high =>
    if low ≤ high then
      let mid := low + (high - low) / 2
      if mid < 0 then .error Fault.panic
      else
        match index[mid.toNat]? with
        | none => .error Fault.panic
        | some e =>
          let cmp := bytesCompare e.key key
          if cmp = 0 then .ok (some e)
          else if cmp < 0 then search index key fuel (mid + 1) high
          else search index key fuel low (mid - 1)
    else .ok none

/-- The second half of `Reader.Get`, once the binary search has found the
index entry `e`: seek to the record, read its header, then its value. -/
def Reader.readEntry (r : Reader) (e : IndexEntry) :
    Except Fault (Bytes × Bool × Option IOErr) :=
  match fileSeek r.file e.offset with
  | .error f => .error f
  | .ok none => .ok ([], false, some IOErr.seek)
  | .ok (some pos) =>
    match fileRead r.file pos 9 with
    | (_, _, some err) => .ok ([], false, some err)
    | (header, n, none) =>
      let entryType := header.getD 0 0
      let keyLen := leValue ((header.drop 1).take 4)
      let valueLen := leValue ((header.drop 5).take 4)
      if entryType = 1 then .ok ([], false, none)
      else
        match fileSeek r.file ((pos + n + keyLen : Nat) : Int) with
        | .error f => .error f
        | .ok none => .ok ([], false, some IOErr.seek)
        | .ok (some pos2) =>
          match fileRead r.file pos2 valueLen with
          | (_, _, some err) => .ok ([], false, some err)
          | (value, _, none) => .ok (value, true, none)

/-- `Reader.Get`: `(value, found, err)`. -/
def Reader.Get (r : Reader) (key : Bytes) : Except Fault (Bytes × Bool × Option IOErr) :=
  match search r.index key r.index.length 0 ((r.index.length : Int) - 1) with
  | .error f => .error f
  | .ok none => .ok ([], false, none)
  | .ok (some e) => r.readEntry e

/-- `Reader.GetIndex`. -/
def Reader.GetIndex (r : Reader) : List IndexEntry := r.index

/-! ## Engine (`engine/lsm.go`) -/

/-- `LSM`: `sstTables` holds reader pointers, newest first (`none` is nil). -/
structure LSM where
  memTable : MemTable
  sstTables : List (Option Reader)
  maxMemSize : Int
  deriving DecidableEq, Repr

/-- The loop of `loadSSTables` over the files, already in the order of the
sorted paths. -/
def loadSSTables : List Bytes → Except Fault (Except IOErr (List (Option Reader)))
  | [] => .ok (.ok [])
  | f :: rest =>
    match Open f with
    | .error e => .error e
    | .ok (.error e) => .ok (.error e)
    | .ok (.ok r) =>
      match loadSSTables rest with
      | .error e => .error e
      | .ok (.error e) => .ok (.error e)
      | .ok (.ok rs) => .ok (.ok (some r :: rs))

/-- `New`: `walFile` is what `active.wal` holds when the engine starts and
`sstFiles` are the `.sst` files of the directory in descending order of their
paths. -/
def LSM.New (walFile : Bytes) (sstFiles : List Bytes) (maxMemSize : Int) :
    Except Fault (Except IOErr LSM) :=
  match loadSSTables sstFiles with
  | .error e => .error e
  | .ok (.error e) => .ok (.error e)
  | .ok (.ok rs) => .ok (.ok ⟨NewMemTable walFile maxMemSize, rs, maxMemSize⟩)

/-- The loop of `flush`: `for node := it; node != nil; node = node.Next()`
with `writer.WritePair(node.Key(), node.Value(), 0)`. -/
def flushLoop (heap : List Node) : Nat → Option Nat → Writer → Except Fault Writer
  | _, none, w => .ok w
  | 0, some _, _ => .error Fault.fuel
  | fuel + 1, some p, w =>
    match deref heap p with
    | .error e => .error e
    | .ok nd =>
      match nextAt heap p 0 with
      | .error e => .error e
      | .ok q => flushLoop heap fuel q (w.WritePair nd.key nd.value 0)

/-- `LSM.flush`. -/
def LSM.flush (l : LSM) : Except Fault (LSM × Option IOErr) :=
  match l.memTable.GetIterator with
  | .error e => .error e
  | .ok it =>
    match flushLoop l.memTable.list.heap l.memTable.list.heap.length it NewWriter with
    | .error e => .error e
    | .ok writer =>
      match Open writer.Close with
      | .error e => .error e
      | .ok (.error e) => .ok (l, some e)
      | .ok (.ok reader) =>
        .ok (⟨NewMemTable [] l.maxMemSize, some reader :: l.sstTables, l.maxMemSize⟩, none)

/-- `LSM.Put`. -/
def LSM.Put (l : LSM) (key value : Bytes) (flips : List Bool) (fault : Option WalFault) :
    Except Fault (LSM × Option IOErr) :=
  match l.memTable.Put key value flips fault with
  | .error e => .error e
  | .ok (m, some e) => .ok ({ l with memTable := m }, some e)
  | .ok (m, none) =>
    if m.IsFull then LSM.flush { l with memTable := m }
    else .ok ({ l with memTable := m }, none)

/-- `LSM.Delete`. -/
def LSM.Delete (l : LSM) (key : Bytes) (flips : List Bool) (fault : Option WalFault) :
    Except Fault (LSM × Option IOErr) :=
  match l.memTable.Put key tombstoneMarker flips fault with
  | .error e => .error e
  | .ok (m, err) => .ok ({ l with memTable := m }, err)

/-- The loop of `LSM.Get` over the SSTable readers. -/
def getFromSSTs : List (Option Reader) → Bytes → Except Fault (Bytes × Bool × Option IOErr)
  | [], _ => .ok ([], false, none)
  | none :: _, _ => .error Fault.panic
  | some sst :: rest, key =>
    match sst.Get key with
    | .error e => .error e
    | .ok (_, _, some err) => .ok ([], false, some err)
    | .ok (val, true, none) =>
      if val = tombstoneMarker then .ok ([], false, none) else .ok (val, true, none)
    | .ok (_, false, none) => getFromSSTs rest key

/-- `LSM.Get`: `(value, found, err)`. -/
def LSM.Get (l : LSM) (key : Bytes) : Except Fault (Bytes × Bool × Option IOErr) :=
  match l.memTable.Get key with
  | .error e => .error e
  | .ok (val, true) =>
    if val = tombstoneMarker then .ok ([], false, none) else .ok (val, true, none)
  | .ok (_, false) => getFromSSTs l.sstTables key

/-- A Go `map[string][]byte`, as the list of its entries (one per key). -/
abbrev GoMap := List (Bytes × Bytes)

/-- Map assignment `data[k] = v`. -/
def mapSet : GoMap → Bytes → Bytes → GoMap
  | [], k, v => [(k, v)]
  | (k1, v1) :: rest, k, v => if k1 = k then (k, v) :: rest else (k1, v1) :: mapSet rest k v

/-- Map read `data[k]`: nil for a missing key. -/
def mapGet : GoMap → Bytes → Bytes
  | [], _ => []
  | (k1, v1) :: rest, k => if k1 = k then v1 else mapGet rest k

/-- The loop of `loadIntoMap` over the index entries of `r`. -/
def loadEntries (r : Reader) : List IndexEntry → GoMap → Except Fault GoMap
  | [], data => .ok data
  | entry :: rest, data =>
    match r.Get entry.key with
    | .error e => .error e
    | .ok (val, found, _) =>
      if found then loadEntries r rest (mapSet data entry.key val) else loadEntries r rest data

/-- `LSM.loadIntoMap`. -/
def loadIntoMap (r : Option Reader) (data : GoMap) : Except Fault GoMap :=
  match r with
  | none => .error Fault.panic
  | some rd => loadEntries rd rd.GetIndex data

/-- Insertion of a key into an ascending list of keys. -/
def insertKey (k : Bytes) : List Bytes → List Bytes
  | [] => [k]
  | k1 :: rest => if bytesCompare k k1 ≤ 0 then k :: k1 :: rest else k1 :: insertKey k rest

/-- Go `sort.Strings`: the keys in ascending byte order. -/
def sortStrings : List Bytes → List Bytes
  | [] => []
  | k :: rest => insertKey k (sortStrings rest)

/-- The loop of `Compact` that writes the merged keys:
`writer.WritePair([]byte(k), mergedData[k], 0)`. -/
def writeMerged (mergedData : GoMap) : List Bytes → Writer → Writer
  | [], w => w
  | k :: rest, w => writeMerged mergedData rest (w.WritePair k (mapGet mergedData k) 0)

/-- `LSM.Compact`. The errors of `WritePair`, `Close` and `Open` are dropped by
the source; a failed `Open` leaves a nil reader in the vector. -/
def LSM.Compact (l : LSM) : Except Fault (LSM × Option IOErr) :=
  if l.sstTables.length < 2 then .ok (l, none)
  else
    match l.sstTables[l.sstTables.length - 2]?, l.sstTables[l.sstTables.length - 1]? with
    | some t1, some t2 =>
      match loadIntoMap t2 [] with
      | .error e => .error e
      | .ok m2 =>
        match loadIntoMap t1 m2 with
        | .error e => .error e
        | .ok mergedData =>
          let keys := sortStrings (mergedData.map Prod.fst)
          let writer := writeMerged mergedData keys NewWriter
          match Open writer.Close with
          | .error e => .error e
          | .ok opened =>
            let newReader : Option Reader :=
              match opened with
              | .ok r => some r
              | .error _ => none
            .ok (⟨l.memTable, l.sstTables.take (l.sstTables.length - 2) ++ [newReader],
              l.maxMemSize⟩, none)
    | _, _ => .error Fault.panic

/-! ## Skip list: the structural invariant -/

/-- Key of the node at address `p`. -/
def keyAt (heap : List Node) (p : Nat) : Bytes :=
  match heap[p]? with
  | some nd => nd.key
  | none => []

/-- Value of the node at address `p`. -/
def valueAt (heap : List Node) (p : Nat) : Bytes :=
  match heap[p]? with
  | some nd => nd.value
  | none => []

/-- Number of forward pointers of the node at address `p` (0 when nothing is
allocated there). -/
def heightAt (heap : List Node) (p : Nat) : Nat :=
  match heap[p]? with
  | some nd => nd.next.length
  | none => 0

/-- First address of `ps`, or `tgt` when `ps` is empty. -/
def headOr : List Nat → Option Nat → Option Nat
  | [], tgt => tgt
  | q :: _, _ => some q

/-- The nodes `ps` form a segment of the level-`i` chain: the `next[i]` of each
is the node after it, and the `next[i]` of the last is `tgt`. -/
def Linked (heap : List Node) (i : Nat) : List Nat → Option Nat → Prop
  | [], _ => True
  | p :: ps, tgt => nextAt heap p i = .ok (headOr ps tgt) ∧ Linked heap i ps tgt

/-- The addresses among `ps` whose node has a pointer at level `i`. -/
def levelOf (heap : List Node) (i : Nat) (ps : List Nat) : List Nat :=
  ps.filter (fun p => decide (i < heightAt heap p))

/-- Structural invariant of a skip list whose nodes, in level-0 order after the
head, are at the addresses `L`: keys strictly ascending along `L`, and at every
level the chain from the head links exactly the nodes of `L` that reach that
level, in the order of `L`. -/
structure SkipList.Inv (s : SkipList) (L : List Nat) : Prop where
  head_zero : s.head = 0
  head_height : heightAt s.heap 0 = MaxLevel
  level_lt : s.level < MaxLevel
  size : L.length + 1 = s.heap.length
  nodup : (0 :: L).Nodup
  alloc : ∀ p ∈ L, p < s.heap.length
  height_pos : ∀ p ∈ L, 0 < heightAt s.heap p
  height_le : ∀ p ∈ L, heightAt s.heap p ≤ s.level + 1
  sorted : L.Pairwise (fun p q => bytesCompare (keyAt s.heap p) (keyAt s.heap q) < 0)
  linked : ∀ i, i < MaxLevel → Linked s.heap i (levelOf s.heap i (0 :: L)) none

/-- The `(key, value)` entries held by the nodes at the addresses `L`. -/
def entriesOf (heap : List Node) (L : List Nat) : List (Bytes × Bytes) :=
  L.map (fun p => (keyAt heap p, valueAt heap p))

/-- A map as an ascending association list: `Put` on it. -/
def absPut (k v : Bytes) : List (Bytes × Bytes) → List (Bytes × Bytes)
  | [] => [(k, v)]
  | (k1, v1) :: rest =>
    if bytesCompare k1 k < 0 then (k1, v1) :: absPut k v rest
    else if k1 = k then (k, v) :: rest
    else (k, v) :: (k1, v1) :: rest

/-- A map as an association list: lookup as `(value, found)`. -/
def absGet : List (Bytes × Bytes) → Bytes → Bytes × Bool
  | [], _ => ([], false)
  | (k1, v1) :: rest, k => if k1 = k then (v1, true) else absGet rest k

/-- Last address of `c :: ps`. -/
def lastOf : Nat → List Nat → Nat
  | c, [] => c
  | _, q :: r => lastOf q r

/-- Where `advance` stops on the chain segment `c :: ps`: the last node reached
while the next key is below `key`. -/
def lastBelow (heap : List Node) (key : Bytes) : Nat → List Nat → Nat
  | c, [] => c
  | c, q :: r => if bytesCompare (keyAt heap q) key < 0 then lastBelow heap key q r else c

/-- The update vector after the descent of `Put` through the levels below `n`:
`update[i]` is the last node of the level-`i` chain among `L1`, or the head. -/
def setPreds (heap : List Node) (L1 : List Nat) : Nat → List (Option Nat) → List (Option Nat)
  | 0, update => update
  | i + 1, update =>
    setPreds heap L1 i (update.set i (some (lastOf 0 (levelOf heap i L1))))

/-- What a node holds apart from its pointers: key, value, number of levels. -/
def shape (heap : List Node) (p : Nat) : Option (Bytes × Bytes × Nat) :=
  (heap[p]?).map (fun nd => (nd.key, nd.value, nd.next.length))

/-- Loop invariant of the splice loop of `Put` before level `i`: the heap `h`
is the old heap `h0` plus the new node `N` at address `h0.length`; below level
`i` the chains already pass through the new node, from level `i` on they are
the old chains and the new node's pointers are still nil. -/
structure SpliceInv (h0 : List Node) (N : Node) (L1 L2 : List Nat) (lvl i : Nat)
    (h : List Node) : Prop where
  len : h.length = h0.length + 1
  shape_eq : ∀ p, shape h p = shape (h0 ++ [N]) p
  done : ∀ j, j < i →
    Linked h j ((0 :: levelOf h0 j L1) ++ h0.length :: levelOf h0 j L2) none
  todo : ∀ j, i ≤ j → j < MaxLevel →
    Linked h j ((0 :: levelOf h0 j L1) ++ levelOf h0 j L2) none
  fresh : ∀ j, i ≤ j → j ≤ lvl → nextAt h h0.length j = .ok none

/-- A run of `SkipList.Put` calls, each with its key, value and coin flips. -/
def putAll : SkipList → List (Bytes × Bytes × List Bool) → Except Fault SkipList
  | s, [] => .ok s
  | s, (k, v, flips) :: rest =>
    match s.Put k v flips with
    | .error e => .error e
    | .ok s1 => putAll s1 rest

/-- What a map answers for `k` after the puts `ops`: the value of the most
recent put to `k`, as `(value, true)`, or `(nil, false)` when there is none. -/
def lastPut (ops : List (Bytes × Bytes × List Bool)) (k : Bytes) : Bytes × Bool :=
  ops.foldl (fun acc op => if op.1 = k then (op.2.1, true) else acc) ([], false)

/-! ## SSTable: the file format -/

/-- One `WritePair(key, value, entryType)` call. -/
structure Record where
  entryType : Byte
  key : Bytes
  value : Bytes
  deriving DecidableEq, Repr

/-- A run of `WritePair` calls, in call order. -/
def writePairs : Writer → List Record → Writer
  | w, [] => w
  | w, r :: rest => writePairs (w.WritePair r.key r.value r.entryType) rest

/-- A data record of the format: `[type(1)][keyLen(4 LE)][valueLen(4 LE)][key][value]`. -/
def recordBytes (r : Record) : Bytes :=
  [r.entryType] ++ putUint32 (asUint32 r.key.length) ++ putUint32 (asUint32 r.value.length)
    ++ r.key ++ r.value

/-- The data section of the format: the records one after the other. -/
def dataSection : List Record → Bytes
  | [] => []
  | r :: rest => recordBytes r ++ dataSection rest

/-- The index section of the format for records whose first one starts at byte
`off`: one entry `[keyLen(4 LE)][dataOffset(8 LE)][key]` per record, the offset
of a record being `9 + len(key) + len(value)` past the offset of the one before. -/
def indexSection : List Record → Nat → Bytes
  | [], _ => []
  | r :: rest, off =>
    putUint32 (asUint32 r.key.length) ++ putUint64 off ++ r.key
      ++ indexSection rest (off + (9 + r.key.length + r.value.length))

/-- The SST file of the format: data section, index section, 8-byte footer
holding the offset at which the index begins. -/
def sstLayout (rs : List Record) : Bytes :=
  dataSection rs ++ indexSection rs 0 ++ putUint64 (dataSection rs).length

/-- The in-memory index for records whose first one starts at byte `off`. -/
def indexOf : List Record → Nat → List IndexEntry
  | [], _ => []
  | r :: rest, off => ⟨r.key, (off : Int)⟩ :: indexOf rest (off + (9 + r.key.length + r.value.length))

/-- What one `Read` into a buffer of `len(v)` bytes leaves there when the file
holds `v` at the position: the first `maxRW` bytes of `v`, then zeros. It is
`v` itself when `v` has at most `maxRW` bytes. -/
def capRead (v : Bytes) : Bytes := v.take maxRW ++ List.replicate (v.length - maxRW) 0

/-- What a reader answers for key `q` on a file holding the records `rs`: the
value of the record with that key, as one `Read` returns it, unless its entry
type is 1. -/
def recGet : List Record → Bytes → Bytes × Bool × Option IOErr
  | [], _ => ([], false, none)
  | r :: rest, q =>
    if r.key = q then
      (if r.entryType = 1 then ([], false, none) else (capRead r.value, true, none))
    else recGet rest q

/-- Records that make a well-formed SST: keys strictly ascending, key and value
lengths within the 32-bit length fields, data section within the signed 64-bit
file offsets. -/
structure ValidRecords (rs : List Record) : Prop where
  sorted : rs.Pairwise (fun a b => bytesCompare a.key b.key < 0)
  keyLen : ∀ r ∈ rs, r.key.length < 2 ^ 32
  valueLen : ∀ r ∈ rs, r.value.length < 2 ^ 32
  size : (dataSection rs).length < 2 ^ 63

/-! ## Engine: well-formed states and the map they represent -/

/-- The reader that `Open` returns on a file holding the records `rs`. -/
def readerOf (rs : List Record) : Reader := ⟨sstLayout rs, indexOf rs 0⟩

/-- The record `flush` and `Compact` write for an entry: entry type 0. -/
def liveRecord (e : Bytes × Bytes) : Record := ⟨0, e.1, e.2⟩

/-- Bytes of the data section that holds the entries `E`. -/
def entriesSize (E : List (Bytes × Bytes)) : Nat :=
  (E.map (fun e => 9 + e.1.length + e.2.length)).sum

/-- Bytes of key and value data an engine holds: its memtable entries `E` as
records, plus the data sections of its SSTables. -/
def footprint (E : List (Bytes × Bytes)) (tables : List (List Record)) : Nat :=
  entriesSize E + (tables.map (fun rs => (dataSection rs).length)).sum

/-- A well-formed engine state: the skip list of the memtable satisfies its
invariant with level-0 order `L`, and the reader vector holds the readers of
well-formed SSTables with the records `tables`, newest first. -/
structure LSM.WF (l : LSM) (L : List Nat) (tables : List (List Record)) : Prop where
  mem : l.memTable.list.Inv L
  memKeys : ∀ e ∈ entriesOf l.memTable.list.heap L, e.1.length < 2 ^ 32 ∧ e.2.length < 2 ^ 32
  readers : l.sstTables = tables.map (fun rs => some (readerOf rs))
  valid : ∀ rs ∈ tables, ValidRecords rs
  limit : l.memTable.maxSize = l.maxMemSize

/-- A well-formed engine state that holds at most `budget` bytes of data. -/
def LSM.Valid (l : LSM) (budget : Nat) : Prop :=
  ∃ L tables, l.WF L tables ∧ footprint (entriesOf l.memTable.list.heap L) tables ≤ budget

/-- Records whose keys and values one `Read` transfers whole: at most `maxRW`
bytes each. -/
def SmallRecords (rs : List Record) : Prop :=
  ∀ r ∈ rs, r.key.length ≤ maxRW ∧ r.value.length ≤ maxRW

/-- A well-formed engine state all of whose keys and values, in the memtable
and in the SSTables, have at most `maxRW` bytes. -/
structure LSM.Fit (l : LSM) (L : List Nat) (tables : List (List Record)) : Prop where
  wf : l.WF L tables
  memSmall : ∀ e ∈ entriesOf l.memTable.list.heap L,
    e.1.length ≤ maxRW ∧ e.2.length ≤ maxRW
  tablesSmall : ∀ rs ∈ tables, SmallRecords rs

/-- A well-formed engine state with keys and values of at most `maxRW` bytes
that holds at most `budget` bytes of data. -/
def LSM.Fits (l : LSM) (budget : Nat) : Prop :=
  ∃ L tables, l.Fit L tables ∧ footprint (entriesOf l.memTable.list.heap L) tables ≤ budget

/-- The outcome of `LSM.Get` on a value that was found: the tombstone sentinel
reads as absent. -/
def hitResult (val : Bytes) : Bytes × Bool × Option IOErr :=
  if val = tombstoneMarker then ([], false, none) else (val, true, none)

/-- The read hierarchy over the SSTables: the first table that reports the key
as found decides. -/
def tablesGet : List (List Record) → Bytes → Bytes × Bool × Option IOErr
  | [], _ => ([], false, none)
  | rs :: rest, q =>
    match recGet rs q with
    | (val, true, _) => hitResult val
    | (_, false, _) => tablesGet rest q

/-- The read hierarchy of the engine over memtable entries `E` and `tables`. -/
def viewGet (E : List (Bytes × Bytes)) (tables : List (List Record)) (q : Bytes) :
    Bytes × Bool × Option IOErr :=
  match absGet E q with
  | (val, true) => hitResult val
  | (_, false) => tablesGet tables q

/-- Engine operations; the device of the write-ahead log works. -/
inductive Op where
  | put (key value : Bytes) (flips : List Bool)
  | delete (key : Bytes) (flips : List Bool)
  | flush
  | compact
  deriving DecidableEq, Repr

/-- One engine operation. -/
def LSM.step (l : LSM) : Op → Except Fault (LSM × Option IOErr)
  | Op.put k v f => l.Put k v f none
  | Op.delete k f => l.Delete k f none
  | Op.flush => l.flush
  | Op.compact => l.Compact

/-- A sequence of engine operations; it stops at the first one that returns an
error. -/
def LSM.run : LSM → List Op → Except Fault (LSM × Option IOErr)
  | l, [] => .ok (l, none)
  | l, op :: rest =>
    match l.step op with
    | .error e => .error e
    | .ok (l1, some err) => .ok (l1, some err)
    | .ok (l1, none) => LSM.run l1 rest

/-- The key an operation writes to, if any. -/
def Op.key : Op → Option Bytes
  | Op.put k _ _ => some k
  | Op.delete k _ => some k
  | Op.flush => none
  | Op.compact => none

/-- Keys and values of the operation fit the 32-bit length fields. -/
def Op.sized : Op → Prop
  | Op.put k v _ => k.length < 2 ^ 32 ∧ v.length < 2 ^ 32
  | Op.delete k _ => k.length < 2 ^ 32
  | Op.flush => True
  | Op.compact => True

/-- Keys and values of the operation have at most `maxRW` bytes. -/
def Op.small : Op → Prop
  | Op.put k v _ => k.length ≤ maxRW ∧ v.length ≤ maxRW
  | Op.delete k _ => k.length ≤ maxRW
  | Op.flush => True
  | Op.compact => True

/-- Bytes of data an operation can add to the engine. -/
def Op.cost : Op → Nat
  | Op.put k v _ => 9 + k.length + v.length
  | Op.delete k _ => 9 + k.length + tombstoneMarker.length
  | Op.flush => 0
  | Op.compact => 0

/-- Bytes of data a sequence of operations can add to the engine. -/
def opsCost (ops : List Op) : Nat := (ops.map Op.cost).sum

/-- What `Get q` returns after an operation, from what it returned before. -/
def Op.effect (op : Op) (q : Bytes) (before : Bytes × Bool × Option IOErr) :
    Bytes × Bool × Option IOErr :=
  match op with
  | Op.put k v _ => if k = q then hitResult v else before
  | Op.delete k _ => if k = q then ([], false, none) else before
  | Op.flush => before
  | Op.compact => before

/-- Lookup in a Go map: the value, or `none` for a missing key. -/
def mapFind : GoMap → Bytes → Option Bytes
  | [], _ => none
  | (k1, v1) :: rest, k => if k1 = k then some v1 else mapFind rest k

/-- The map `loadIntoMap` leaves after a reader of the records `rs` handled the
keys `ks`. -/
def loadKeys (rs : List Record) : List Bytes → GoMap → GoMap
  | [], data => data
  | k :: rest, data =>
    match recGet rs k with
    | (val, true, _) => loadKeys rs rest (mapSet data k val)
    | (_, false, _) => loadKeys rs rest data

/-- The records `Compact` writes from the merged map. -/
def mergedRecords (mergedData : GoMap) : List Record :=
  (sortStrings (mergedData.map Prod.fst)).map (fun k => ⟨0, k, mapGet mergedData k⟩)

/-- The records of the SSTable that `Compact` makes of `t1` (newer) and `t2`
(older). -/
def compactRecords (t1 t2 : List Record) : List Record :=
  mergedRecords (loadKeys t1 (t1.map (fun r => r.key)) (loadKeys t2 (t2.map (fun r => r.key)) []))

/-- The value a plain map holds for `k` after the operations `ops`: the value
of the last `Put` to `k`, unless a `Delete` of `k` came after it. -/
def lastWrite (ops : List Op) (k : Bytes) : Option Bytes :=
  ops.foldl (fun acc op =>
    match op with
    | Op.put k1 v _ => if k1 = k then some v else acc
    | Op.delete k1 _ => if k1 = k then none else acc
    | Op.flush => acc
    | Op.compact => acc) none

/-- What `Get k` of a plain map returns after the operations `ops`. -/
def refGet (ops : List Op) (k : Bytes) : Bytes × Bool × Option IOErr :=
  match lastWrite ops k with
  | some v => (v, true, none)
  | none => ([], false, none)

/-- The operation is a `Put` of the tombstone sentinel. -/
def Op.putsMarker : Op → Prop
  | Op.put _ v _ => v = tombstoneMarker
  | _ => False

instance Op.decSized (op : Op) : Decidable op.sized := by
  cases op <;> unfold Op.sized <;> infer_instance

instance Op.decSmall (op : Op) : Decidable op.small := by
  cases op <;> unfold Op.small <;> infer_instance

instance Op.decPutsMarker (op : Op) : Decidable op.putsMarker := by
  cases op <;> unfold Op.putsMarker <;> infer_instance

/-- A sample value one byte longer than one `Read` transfers: `maxRW + 1` bytes
`0x01`. -/
def bigValue : Bytes := List.replicate (maxRW + 1) 1

/-- A sample key one byte longer than one `Read` transfers: `maxRW + 1` bytes
`0x00`. -/
def bigKey : Bytes := List.replicate (maxRW + 1) 0

/-- A sample key of `maxRW + 13` bytes: `maxRW` zero bytes, then the thirteen
bytes of an index entry for the key `"k"` with data offset 0. -/
def trapKey : Bytes := List.replicate maxRW 0 ++ [1, 0, 0, 0, 0, 0, 0, 0, 0, 0, 0, 0, 107]

/-- A sample engine state: `Put("a","1"); flush; Put("a","2")` on a fresh engine
with limit 1024. -/
def demoEngine : LSM :=
  match LSM.run ⟨NewMemTable [] 1024, [], 1024⟩
    [Op.put [97] [49] [], Op.flush, Op.put [97] [50] [true]] with
  | .ok (l, _) => l
  | .error _ => ⟨NewMemTable [] 1024, [], 1024⟩

/-! ## Runs of memtable puts, the log format, the file of `Compact` -/

/-- A run of `MemTable.Put` calls while the log device works; it stops at the
first call that returns an error. -/
def memPutAll : MemTable → List (Bytes × Bytes × List Bool) →
    Except Fault (MemTable × Option IOErr)
  | m, [] => .ok (m, none)
  | m, (k, v, flips) :: rest =>
    match m.Put k v flips none with
    | .error e => .error e
    | .ok (m1, some err) => .ok (m1, some err)
    | .ok (m1, none) => memPutAll m1 rest

/-- Sum of `len(key) + len(value)` over a run of puts. -/
def putBytes (ops : List (Bytes × Bytes × List Bool)) : Nat :=
  (ops.map (fun op => op.1.length + op.2.1.length)).sum

/-- A log record of the format: `[keyLen(4 LE)][valueLen(4 LE)][key][value]`. -/
def walRecord (key value : Bytes) : Bytes :=
  putUint32 key.length ++ putUint32 value.length ++ key ++ value

/-- A run of `WAL.Write` calls while the device works; it stops at the first
call that returns an error. -/
def walWriteAll : WAL → List (Bytes × Bytes) → WAL × Option IOErr
  | w, [] => (w, none)
  | w, (k, v) :: rest =>
    match w.Write k v none with
    | (w1, some e) => (w1, some e)
    | (w1, none) => walWriteAll w1 rest

/-- The bytes of the file that `LSM.Compact` creates at `compactedPath`, or
`none` when it returns before `NewWriter`. `Compact` removes no file. -/
def LSM.compactFile (l : LSM) : Except Fault (Option Bytes) :=
  if l.sstTables.length < 2 then .ok none
  else
    match l.sstTables[l.sstTables.length - 2]?, l.sstTables[l.sstTables.length - 1]? with
    | some t1, some t2 =>
      match loadIntoMap t2 [] with
      | .error e => .error e
      | .ok m2 =>
        match loadIntoMap t1 m2 with
        | .error e => .error e
        | .ok mergedData =>
          .ok (some (writeMerged mergedData (sortStrings (mergedData.map Prod.fst))
            NewWriter).Close)
    | _, _ => .error Fault.panic

/-- A sample engine state: `Put("a","1"); flush; Put("b","2"); flush` on a fresh
engine with limit 100 (the state of the compaction test before `Compact`). -/
def demoTwo : LSM :=
  match LSM.run ⟨NewMemTable [] 100, [], 100⟩
    [Op.put [97] [49] [], Op.flush, Op.put [98] [50] [], Op.flush] with
  | .ok (l, _) => l
  | .error _ => ⟨NewMemTable [] 100, [], 100⟩

/-! ## The skip list level by level; runs of `Put` and `Get` -/

/-- The nodes of the level-`i` chain from the pointer `p` on:
`for n := p; n != nil; n = n.next[i]`. -/
def chainFrom (heap : List Node) (i : Nat) : Nat → Option Nat → Except Fault (List Nat)
  | _, none => .ok []
  | 0, some _ => .error Fault.fuel
  | fuel + 1, some p =>
    match nextAt heap p i with
    | .error e => .error e
    | .ok q =>
      match chainFrom heap i fuel q with
      | .error e => .error e
      | .ok rest => .ok (p :: rest)

/-- The forward chain of level `i`: the nodes reached from `s.head.next[i]`. -/
def SkipList.levelChain (s : SkipList) (i : Nat) : Except Fault (List Nat) :=
  match nextAt s.heap s.head i with
  | .error e => .error e
  | .ok q => chainFrom s.heap i s.heap.length q

/-- A call on a skip list: `Put(key, value)` with the coin flips of its
`randomLevel`, or `Get(key)`. -/
inductive ListOp where
  | put (key value : Bytes) (flips : List Bool)
  | get (key : Bytes)
  deriving DecidableEq, Repr

/-- A sequence of `Put` and `Get` calls: the list afterwards and what the `Get`
calls returned, in call order. A panic of any call ends the run. -/
def listRun : SkipList → List ListOp → Except Fault (SkipList × List (Bytes × Bool))
  | s, [] => .ok (s, [])
  | s, ListOp.put k v flips :: rest =>
    match s.Put k v flips with
    | .error e => .error e
    | .ok s1 => listRun s1 rest
  | s, ListOp.get k :: rest =>
    match s.Get k with
    | .error e => .error e
    | .ok r =>
      match listRun s rest with
      | .error e => .error e
      | .ok (s1, outs) => .ok (s1, r :: outs)

/-! ## The engine and its directory (`engine/lsm.go`: file names, `New`) -/

/-- A directory: its files as `(name, content)`. All paths of the engine are
`filepath.Join(dir, name)` with the same `dir`, so files are told apart, and
paths compare, by `name`. The log `active.wal`, which `New` never reads, is
left out. -/
abbrev Dir := List (Bytes × Bytes)

/-- The loop of `strconv` for a non-negative number: the decimal digits of `n`
in front of `acc`, at most as many as the budget (an `int64` has 19). -/
def decimalLoop : Nat → Nat → Bytes → Bytes
  | 0, _, acc => acc
  | fuel + 1, n, acc =>
    if n < 10 then toByte (48 + n) :: acc
    else decimalLoop fuel (n / 10) (toByte (48 + n % 10) :: acc)

/-- Go `fmt.Sprintf("%d", n)` for an `int64`. -/
def sprintInt (n : Int) : Bytes :=
  if n < 0 then 45 :: decimalLoop 20 n.natAbs [] else decimalLoop 20 n.toNat []

/-- The string `".sst"`. -/
def sstSuffix : Bytes := [46, 115, 115, 116]

/-- The name `flush` gives its file: `fmt.Sprintf("%d.sst", time.Now().UnixNano())`. -/
def flushName (nanos : Int) : Bytes := sprintInt nanos ++ sstSuffix

/-- The name `Compact` gives its file:
`fmt.Sprintf("compacted_%d.sst", time.Now().UnixNano())`. -/
def compactedName (nanos : Int) : Bytes :=
  [99, 111, 109, 112, 97, 99, 116, 101, 100, 95] ++ sprintInt nanos ++ sstSuffix

/-- Go `strings.HasSuffix`. -/
def hasSuffix (s suffix : Bytes) : Bool :=
  decide (suffix.length ≤ s.length ∧ s.drop (s.length - suffix.length) = suffix)

/-- Go `sort.Sort(sort.Reverse(sort.StringSlice(names)))`: descending order. -/
def sortReverse (names : List Bytes) : List Bytes := (sortStrings names).reverse

/-- The paths `loadSSTables` opens, in the order in which it opens them: the
names of the directory that end in `.sst`, in descending order. -/
def sstNames (d : Dir) : List Bytes :=
  sortReverse ((d.map Prod.fst).filter (fun name => hasSuffix name sstSuffix))

/-- The content of the file called `name`. -/
def readFile (d : Dir) (name : Bytes) : Bytes :=
  match d.find? (fun f => decide (f.1 = name)) with
  | some f => f.2
  | none => []

/-- `os.OpenFile(path, O_CREATE|O_WRONLY|O_TRUNC)` and the writes up to `Close`:
the file called `name` holds `content`, whether or not it existed. -/
def createFile (d : Dir) (name content : Bytes) : Dir :=
  (name, content) :: d.filter (fun f => decide (f.1 ≠ name))

/-- The engine together with the directory it works in. -/
structure Store where
  lsm : LSM
  dir : Dir
  deriving DecidableEq, Repr

/-- `New(dir, maxMemSize)` on a directory that holds the files `d` and a log
with the bytes `walFile`. -/
def Store.New (walFile : Bytes) (d : Dir) (maxMemSize : Int) :
    Except Fault (Except IOErr Store) :=
  match LSM.New walFile ((sstNames d).map (readFile d)) maxMemSize with
  | .error f => .error f
  | .ok (.error e) => .ok (.error e)
  | .ok (.ok l) => .ok (.ok ⟨l, d⟩)

/-- The bytes of the file that `LSM.flush` writes at `sstPath`. -/
def LSM.flushFile (l : LSM) : Except Fault Bytes :=
  match l.memTable.GetIterator with
  | .error e => .error e
  | .ok it =>
    match flushLoop l.memTable.list.heap l.memTable.list.heap.length it NewWriter with
    | .error e => .error e
    | .ok writer => .ok writer.Close

/-- `LSM.flush` when the clock reads `nanos`: the file `<nanos>.sst` appears. -/
def Store.flush (s : Store) (nanos : Int) : Except Fault (Store × Option IOErr) :=
  match s.lsm.flushFile with
  | .error e => .error e
  | .ok file =>
    match s.lsm.flush with
    | .error e => .error e
    | .ok (l1, err) => .ok (⟨l1, createFile s.dir (flushName nanos) file⟩, err)

/-- `LSM.Put`; `nanos` is what the clock reads if the call flushes. -/
def Store.Put (s : Store) (key value : Bytes) (flips : List Bool) (fault : Option WalFault)
    (nanos : Int) : Except Fault (Store × Option IOErr) :=
  match s.lsm.memTable.Put key value flips fault with
  | .error e => .error e
  | .ok (m, some e) => .ok (⟨{ s.lsm with memTable := m }, s.dir⟩, some e)
  | .ok (m, none) =>
    if m.IsFull then Store.flush ⟨{ s.lsm with memTable := m }, s.dir⟩ nanos
    else .ok (⟨{ s.lsm with memTable := m }, s.dir⟩, none)

/-- `LSM.Delete`: it writes to the memtable and its log only. -/
def Store.Delete (s : Store) (key : Bytes) (flips : List Bool) (fault : Option WalFault) :
    Except Fault (Store × Option IOErr) :=
  match s.lsm.Delete key flips fault with
  | .error e => .error e
  | .ok (l1, err) => .ok (⟨l1, s.dir⟩, err)

/-- `LSM.Compact` when the clock reads `nanos`: the file `compacted_<nanos>.sst`
appears; the files of the two merged readers stay in the directory (`Compact`
has no `os.Remove`). -/
def Store.Compact (s : Store) (nanos : Int) : Except Fault (Store × Option IOErr) :=
  match s.lsm.compactFile with
  | .error e => .error e
  | .ok written =>
    match s.lsm.Compact with
    | .error e => .error e
    | .ok (l1, err) =>
      match written with
      | none => .ok (⟨l1, s.dir⟩, err)
      | some file => .ok (⟨l1, createFile s.dir (compactedName nanos) file⟩, err)

/-- `LSM.Close`: the files are closed; what stays is the directory. -/
def Store.Close (s : Store) : Dir := s.dir

/-- Engine operations with the reading of the clock where a file can be
created; the device of the write-ahead log works. -/
inductive StoreOp where
  | put (key value : Bytes) (flips : List Bool) (nanos : Int)
  | delete (key : Bytes) (flips : List Bool)
  | flush (nanos : Int)
  | compact (nanos : Int)
  deriving DecidableEq, Repr

/-- One engine operation on the engine and its directory. -/
def Store.step (s : Store) : StoreOp → Except Fault (Store × Option IOErr)
  | StoreOp.put k v f nanos => s.Put k v f none nanos
  | StoreOp.delete k f => s.Delete k f none
  | StoreOp.flush nanos => s.flush nanos
  | StoreOp.compact nanos => s.Compact nanos

/-- A sequence of engine operations; it stops at the first one that returns an
error. -/
def Store.run : Store → List StoreOp → Except Fault (Store × Option IOErr)
  | s, [] => .ok (s, none)
  | s, op :: rest =>
    match s.step op with
    | .error e => .error e
    | .ok (s1, some err) => .ok (s1, some err)
    | .ok (s1, none) => Store.run s1 rest

/-- The operation without the clock. -/
def StoreOp.op : StoreOp → Op
  | StoreOp.put k v f _ => Op.put k v f
  | StoreOp.delete k f => Op.delete k f
  | StoreOp.flush _ => Op.flush
  | StoreOp.compact _ => Op.compact

/-! ## Byte order and integer fields -/

theorem bytesCompare_self (a : Bytes) : bytesCompare a a = 0 := by
  induction a with
  | nil => rfl
  | cons x xs ih => simp [bytesCompare, ih]

theorem bytesCompare_eq_zero {a b : Bytes} (h : bytesCompare a b = 0) : a = b := by
  induction a generalizing b with
  | nil => cases b with
    | nil => rfl
    | cons y ys => simp [bytesCompare] at h
  | cons x xs ih => cases b with
    | nil => simp [bytesCompare] at h
    | cons y ys =>
      simp only [bytesCompare] at h
      split at h
      · simp at h
      · split at h
        · simp at h
        · have hxy : x = y := le_antisymm (not_lt.mp ‹_›) (not_lt.mp ‹_›)
          rw [hxy, ih h]

theorem bytesCompare_eq_zero_iff (a b : Bytes) : bytesCompare a b = 0 ↔ a = b :=
  ⟨bytesCompare_eq_zero, fun h => h ▸ bytesCompare_self a⟩

theorem bytesCompare_flip (a b : Bytes) : bytesCompare b a = - bytesCompare a b := by
  induction a generalizing b with
  | nil => cases b <;> simp [bytesCompare]
  | cons x xs ih => cases b with
    | nil => simp [bytesCompare]
    | cons y ys =>
      simp only [bytesCompare]
      by_cases h1 : x < y
      · have h2 : ¬ y < x := not_lt.mpr (le_of_lt h1)
        simp [h1, h2]
      · by_cases h2 : y < x
        · simp [h1, h2]
        · simp [h1, h2, ih]

theorem bytesCompare_trans {a b c : Bytes} (h1 : bytesCompare a b < 0)
    (h2 : bytesCompare b c < 0) : bytesCompare a c < 0 := by
  induction a generalizing b c with
  | nil => cases c with
    | nil => cases b <;> simp [bytesCompare] at h1 h2
    | cons z zs => simp [bytesCompare]
  | cons x xs ih => cases b with
    | nil => simp [bytesCompare] at h1
    | cons y ys => cases c with
      | nil => simp [bytesCompare] at h2
      | cons z zs =>
        simp only [bytesCompare] at h1 h2 ⊢
        by_cases hxy : x < y
        · by_cases hyz : y < z
          · simp [lt_trans hxy hyz]
          · by_cases hzy : z < y
            · simp [hyz, hzy] at h2
            · have : y = z := le_antisymm (not_lt.mp hzy) (not_lt.mp hyz)
              subst this; simp [hxy]
        · by_cases hyx : y < x
          · simp [hxy, hyx] at h1
          · have : x = y := le_antisymm (not_lt.mp hyx) (not_lt.mp hxy)
            subst this
            by_cases hxz : x < z
            · simp [hxz]
            · by_cases hzx : z < x
              · simp [hxz, hzx] at h2
              · simp only [hxy, hxz, hzx, if_false] at h1 h2 ⊢
                exact ih h1 h2

theorem bytesCompare_irrefl (a : Bytes) : ¬ bytesCompare a a < 0 := by
  rw [bytesCompare_self]; decide

theorem bytesCompare_total (a b : Bytes) :
    bytesCompare a b < 0 ∨ a = b ∨ bytesCompare b a < 0 := by
  rcases lt_trichotomy (bytesCompare a b) 0 with h | h | h
  · exact Or.inl h
  · exact Or.inr (Or.inl (bytesCompare_eq_zero h))
  · right; right; rw [bytesCompare_flip]; omega

theorem bytesCompare_asymm {a b : Bytes} (h : bytesCompare a b < 0) :
    ¬ bytesCompare b a < 0 := by
  rw [bytesCompare_flip]; omega

theorem leValue_putUint32 (n : Nat) (h : n < 2 ^ 32) : leValue (putUint32 n) = n := by
  simp [leValue, putUint32, toByte, Fin.ofNat]
  omega

theorem leValue_putUint64 (n : Nat) (h : n < 2 ^ 64) : leValue (putUint64 n) = n := by
  simp [leValue, putUint64, toByte, Fin.ofNat]
  omega

theorem putUint32_length (n : Nat) : (putUint32 n).length = 4 := rfl

theorem putUint64_length (n : Nat) : (putUint64 n).length = 8 := rfl
/-! ## Skip list: heap access -/

theorem nextAt_ok {heap : List Node} {p i : Nat} {q : Option Nat}
    (h : nextAt heap p i = .ok q) : ∃ nd, heap[p]? = some nd ∧ nd.next[i]? = some q := by
  unfold nextAt at h
  cases hp : heap[p]? with
  | none => simp [hp] at h
  | some nd =>
    simp only [hp] at h
    cases hq : nd.next[i]? with
    | none => simp [hq] at h
    | some q1 =>
      simp only [hq, Except.ok.injEq] at h
      subst h
      exact ⟨nd, rfl, hq⟩

theorem nextAt_of {heap : List Node} {p i : Nat} {q : Option Nat} {nd : Node}
    (hp : heap[p]? = some nd) (hq : nd.next[i]? = some q) : nextAt heap p i = .ok q := by
  simp [nextAt, hp, hq]

theorem deref_of {heap : List Node} {p : Nat} {nd : Node} (hp : heap[p]? = some nd) :
    deref heap p = .ok nd := by
  simp [deref, hp]

theorem keyAt_of {heap : List Node} {p : Nat} {nd : Node} (hp : heap[p]? = some nd) :
    keyAt heap p = nd.key := by
  simp [keyAt, hp]

theorem valueAt_of {heap : List Node} {p : Nat} {nd : Node} (hp : heap[p]? = some nd) :
    valueAt heap p = nd.value := by
  simp [valueAt, hp]

theorem heightAt_of {heap : List Node} {p : Nat} {nd : Node} (hp : heap[p]? = some nd) :
    heightAt heap p = nd.next.length := by
  simp [heightAt, hp]

theorem alloc_of_height {heap : List Node} {p : Nat} (h : 0 < heightAt heap p) :
    ∃ nd, heap[p]? = some nd := by
  unfold heightAt at h
  cases hp : heap[p]? with
  | none => simp [hp] at h
  | some nd => exact ⟨nd, rfl⟩

/-! ## Skip list: chains -/

theorem headOr_append (A B : List Nat) (t : Option Nat) :
    headOr (A ++ B) t = headOr A (headOr B t) := by
  cases A <;> rfl

theorem Linked_append (heap : List Node) (i : Nat) (A B : List Nat) (t : Option Nat) :
    Linked heap i (A ++ B) t ↔ Linked heap i A (headOr B t) ∧ Linked heap i B t := by
  induction A with
  | nil => simp [Linked]
  | cons a A ih =>
    show (nextAt heap a i = .ok (headOr (A ++ B) t) ∧ Linked heap i (A ++ B) t) ↔
      (nextAt heap a i = .ok (headOr A (headOr B t)) ∧ Linked heap i A (headOr B t)) ∧
        Linked heap i B t
    rw [ih, headOr_append]
    tauto

theorem Linked_congr {h1 h2 : List Node} {i : Nat} {ps : List Nat} {t : Option Nat}
    (hsame : ∀ p ∈ ps, nextAt h2 p i = nextAt h1 p i) (hl : Linked h1 i ps t) :
    Linked h2 i ps t := by
  induction ps with
  | nil => trivial
  | cons p ps ih =>
    obtain ⟨ha, hb⟩ := hl
    refine ⟨?_, ih (fun q hq => hsame q (List.mem_cons_of_mem _ hq)) hb⟩
    rw [hsame p (List.mem_cons_self _ _)]
    exact ha

theorem lastOf_append_cons (c d : Nat) (A B : List Nat) :
    lastOf c (A ++ d :: B) = lastOf d B := by
  induction A generalizing c with
  | nil => rfl
  | cons a A ih => exact ih a

theorem lastOf_mem (c : Nat) (B : List Nat) : lastOf c B ∈ c :: B := by
  induction B generalizing c with
  | nil => simp [lastOf]
  | cons b B ih =>
    simp only [lastOf]
    exact List.mem_cons_of_mem _ (ih b)

theorem advance_spec (heap : List Node) (key : Bytes) (i : Nat) (rest : List Nat) :
    ∀ (c fuel : Nat), Linked heap i (c :: rest) none → rest.length < fuel →
      advance heap key i fuel c = .ok (lastBelow heap key c rest) := by
  induction rest with
  | nil =>
    intro c fuel hl hf
    obtain ⟨h1, _⟩ := hl
    cases fuel with
    | zero => omega
    | succ f =>
      simp only [headOr] at h1
      simp [advance, h1, lastBelow]
  | cons q r ih =>
    intro c fuel hl hf
    obtain ⟨h1, h2⟩ := hl
    cases fuel with
    | zero => simp at hf
    | succ f =>
      obtain ⟨nd, hq, _⟩ := nextAt_ok h2.1
      simp only [headOr] at h1
      simp only [advance, h1, deref_of hq, lastBelow, keyAt_of hq]
      by_cases hlt : bytesCompare nd.key key < 0
      · simp only [hlt, if_true]
        exact ih q f h2 (by simpa using hf)
      · simp [hlt]

theorem lastBelow_append (heap : List Node) (key : Bytes) (B F : List Nat) :
    ∀ c, (∀ q ∈ B, bytesCompare (keyAt heap q) key < 0) →
      (∀ q ∈ F, ¬ bytesCompare (keyAt heap q) key < 0) →
      lastBelow heap key c (B ++ F) = lastOf c B := by
  induction B with
  | nil =>
    intro c _ hF
    cases F with
    | nil => rfl
    | cons f F => simp [lastBelow, lastOf, hF f (List.mem_cons_self _ _)]
  | cons b B ih =>
    intro c hB hF
    simp only [List.cons_append, lastBelow, lastOf, hB b (List.mem_cons_self _ _), if_true]
    exact ih b (fun q hq => hB q (List.mem_cons_of_mem _ hq)) hF

theorem levelOf_append (heap : List Node) (i : Nat) (A B : List Nat) :
    levelOf heap i (A ++ B) = levelOf heap i A ++ levelOf heap i B := by
  simp [levelOf]

theorem levelOf_sub (heap : List Node) (i : Nat) (A : List Nat) :
    ∀ p ∈ levelOf heap i A, p ∈ A ∧ i < heightAt heap p := by
  intro p hp
  simpa [levelOf] using hp

theorem levelOf_length_le (heap : List Node) (i : Nat) (A : List Nat) :
    (levelOf heap i A).length ≤ A.length := by
  simp [levelOf, List.length_filter_le]

theorem levelOf_head (heap : List Node) (i : Nat) (A : List Nat)
    (h0 : i < heightAt heap 0) : levelOf heap i (0 :: A) = 0 :: levelOf heap i A := by
  simp [levelOf, h0]

/-- From any node of the level-`i` chain that is the head or lies below `key`,
the inner loop stops at the last such node of that chain. -/
theorem advance_level (heap : List Node) (key : Bytes) (i : Nat) (L1 L2 : List Nat)
    (c fuel : Nat)
    (hl : Linked heap i (0 :: levelOf heap i L1 ++ levelOf heap i L2) none)
    (h1 : ∀ p ∈ L1, bytesCompare (keyAt heap p) key < 0)
    (h2 : ∀ p ∈ L2, ¬ bytesCompare (keyAt heap p) key < 0)
    (hc : c ∈ 0 :: levelOf heap i L1)
    (hf : L1.length + L2.length < fuel) :
    advance heap key i fuel c = .ok (lastOf 0 (levelOf heap i L1)) := by
  obtain ⟨A, B, hAB⟩ := List.append_of_mem hc
  have hB : ∀ q ∈ B, q ∈ levelOf heap i L1 := by
    intro q hq
    cases A with
    | nil =>
      simp only [List.nil_append, List.cons.injEq] at hAB
      rw [hAB.2]; exact hq
    | cons a A =>
      simp only [List.cons_append, List.cons.injEq] at hAB
      rw [hAB.2]; simp [hq]
  have hlast : lastOf 0 (levelOf heap i L1) = lastOf c B := by
    cases A with
    | nil =>
      simp only [List.nil_append, List.cons.injEq] at hAB
      rw [← hAB.1, hAB.2]
    | cons a A =>
      simp only [List.cons_append, List.cons.injEq] at hAB
      rw [hAB.2, lastOf_append_cons]
  have hchain : 0 :: levelOf heap i L1 ++ levelOf heap i L2
      = A ++ (c :: (B ++ levelOf heap i L2)) := by
    rw [show 0 :: levelOf heap i L1 ++ levelOf heap i L2
      = (0 :: levelOf heap i L1) ++ levelOf heap i L2 from rfl, hAB]
    simp
  rw [hchain, Linked_append] at hl
  have hlen : (B ++ levelOf heap i L2).length < fuel := by
    have e1 : (levelOf heap i L1).length + 1 = A.length + (B.length + 1) := by
      have := congrArg List.length hAB
      simpa using this
    have e2 := levelOf_length_le heap i L1
    have e3 := levelOf_length_le heap i L2
    simp only [List.length_append]
    omega
  rw [advance_spec heap key i _ c fuel hl.2 hlen, hlast]
  rw [lastBelow_append heap key B _ c
    (fun q hq => h1 q (levelOf_sub heap i L1 q (hB q hq)).1)
    (fun q hq => h2 q (levelOf_sub heap i L2 q hq).1)]
/-! ## Skip list: the descent -/

theorem levelOf_mono (heap : List Node) (i : Nat) (A : List Nat) :
    ∀ p ∈ levelOf heap (i + 1) A, p ∈ levelOf heap i A := by
  intro p hp
  simp only [levelOf, List.mem_filter, decide_eq_true_eq] at hp ⊢
  exact ⟨hp.1, by omega⟩

theorem levelOf_zero (heap : List Node) (A : List Nat) (h : ∀ p ∈ A, 0 < heightAt heap p) :
    levelOf heap 0 A = A := by
  simp only [levelOf, List.filter_eq_self, decide_eq_true_eq]
  exact h

theorem levelOf_high (heap : List Node) (i b : Nat) (A : List Nat)
    (h : ∀ p ∈ A, heightAt heap p ≤ b) (hi : b ≤ i) : levelOf heap i A = [] := by
  simp only [levelOf, List.filter_eq_nil_iff, decide_eq_true_eq]
  intro p hp
  have := h p hp
  omega

theorem chain_split (heap : List Node) (i : Nat) (L1 L2 : List Nat)
    (h0 : heightAt heap 0 = MaxLevel) (hi : i < MaxLevel) :
    levelOf heap i (0 :: (L1 ++ L2)) = 0 :: levelOf heap i L1 ++ levelOf heap i L2 := by
  rw [levelOf_head heap i _ (by omega), levelOf_append]
  rfl

theorem descend_spec (heap : List Node) (key : Bytes) (L1 L2 : List Nat)
    (h0 : heightAt heap 0 = MaxLevel)
    (hl : ∀ i, i < MaxLevel → Linked heap i (levelOf heap i (0 :: (L1 ++ L2))) none)
    (h1 : ∀ p ∈ L1, bytesCompare (keyAt heap p) key < 0)
    (h2 : ∀ p ∈ L2, ¬ bytesCompare (keyAt heap p) key < 0)
    (hf : L1.length + L2.length < heap.length) :
    ∀ (i c : Nat), i < MaxLevel → c ∈ 0 :: levelOf heap i L1 →
      descend heap key (i + 1) c = .ok (lastOf 0 (levelOf heap 0 L1)) := by
  intro i
  induction i with
  | zero =>
    intro c hi hc
    have hlk := hl 0 hi
    rw [chain_split heap 0 L1 L2 h0 hi] at hlk
    simp [descend, advance_level heap key 0 L1 L2 c heap.length hlk h1 h2 hc hf]
  | succ i ih =>
    intro c hi hc
    have hlk := hl (i + 1) hi
    rw [chain_split heap (i + 1) L1 L2 h0 hi] at hlk
    have hnext : lastOf 0 (levelOf heap (i + 1) L1) ∈ 0 :: levelOf heap i L1 := by
      rcases List.mem_cons.mp (lastOf_mem 0 (levelOf heap (i + 1) L1)) with h | h
      · rw [h]; exact List.mem_cons_self _ _
      · exact List.mem_cons_of_mem _ (levelOf_mono heap i L1 _ h)
    have := ih _ (by omega) hnext
    rw [descend, advance_level heap key (i + 1) L1 L2 c heap.length hlk h1 h2 hc hf]
    exact this

theorem findUpdate_spec (heap : List Node) (key : Bytes) (L1 L2 : List Nat)
    (h0 : heightAt heap 0 = MaxLevel)
    (hl : ∀ i, i < MaxLevel → Linked heap i (levelOf heap i (0 :: (L1 ++ L2))) none)
    (h1 : ∀ p ∈ L1, bytesCompare (keyAt heap p) key < 0)
    (h2 : ∀ p ∈ L2, ¬ bytesCompare (keyAt heap p) key < 0)
    (hf : L1.length + L2.length < heap.length) :
    ∀ (i c : Nat) (update : List (Option Nat)), i < MaxLevel → update.length = MaxLevel →
      c ∈ 0 :: levelOf heap i L1 →
      findUpdate heap key (i + 1) c update
        = .ok (lastOf 0 (levelOf heap 0 L1), setPreds heap L1 (i + 1) update) := by
  intro i
  induction i with
  | zero =>
    intro c update hi hu hc
    have hlk := hl 0 hi
    rw [chain_split heap 0 L1 L2 h0 hi] at hlk
    have hlen : 0 < update.length := by rw [hu]; exact hi
    simp [findUpdate, advance_level heap key 0 L1 L2 c heap.length hlk h1 h2 hc hf, hlen,
      setPreds]
  | succ i ih =>
    intro c update hi hu hc
    have hlk := hl (i + 1) hi
    rw [chain_split heap (i + 1) L1 L2 h0 hi] at hlk
    have hnext : lastOf 0 (levelOf heap (i + 1) L1) ∈ 0 :: levelOf heap i L1 := by
      rcases List.mem_cons.mp (lastOf_mem 0 (levelOf heap (i + 1) L1)) with h | h
      · rw [h]; exact List.mem_cons_self _ _
      · exact List.mem_cons_of_mem _ (levelOf_mono heap i L1 _ h)
    have hlen : i + 1 < update.length := by rw [hu]; exact hi
    have := ih (lastOf 0 (levelOf heap (i + 1) L1))
      (update.set (i + 1) (some (lastOf 0 (levelOf heap (i + 1) L1)))) (by omega)
      (by simp [hu]) hnext
    rw [findUpdate, advance_level heap key (i + 1) L1 L2 c heap.length hlk h1 h2 hc hf]
    simp only [hlen, if_true]
    rw [this]
    rfl

theorem setPreds_length (heap : List Node) (L1 : List Nat) :
    ∀ (n : Nat) (update : List (Option Nat)), (setPreds heap L1 n update).length = update.length := by
  intro n
  induction n with
  | zero => intro update; rfl
  | succ n ih => intro update; simp [setPreds, ih]

theorem setPreds_get (heap : List Node) (L1 : List Nat) :
    ∀ (n : Nat) (update : List (Option Nat)) (j : Nat), n ≤ update.length →
      (setPreds heap L1 n update)[j]? =
        if j < n then some (some (lastOf 0 (levelOf heap j L1))) else update[j]? := by
  intro n
  induction n with
  | zero => intro update j _; simp [setPreds]
  | succ n ih =>
    intro update j hn
    rw [setPreds, ih _ j (by simp; omega)]
    by_cases hj : j < n
    · simp [hj, Nat.lt_succ_of_lt hj]
    · by_cases hjn : j = n
      · subst hjn
        simp [List.getElem?_set_self, hn, Nat.lt_of_succ_le hn]
      · have h3 : ¬ j < n + 1 := by omega
        simp [hj, h3, List.getElem?_set_ne (Ne.symm hjn)]
/-! ## Skip list: pointer assignment -/

theorem keyAt_shape {h1 h2 : List Node} {p : Nat} (h : shape h1 p = shape h2 p) :
    keyAt h1 p = keyAt h2 p := by
  unfold shape at h
  unfold keyAt
  cases e1 : h1[p]? <;> cases e2 : h2[p]? <;> simp_all

theorem valueAt_shape {h1 h2 : List Node} {p : Nat} (h : shape h1 p = shape h2 p) :
    valueAt h1 p = valueAt h2 p := by
  unfold shape at h
  unfold valueAt
  cases e1 : h1[p]? <;> cases e2 : h2[p]? <;> simp_all

theorem heightAt_shape {h1 h2 : List Node} {p : Nat} (h : shape h1 p = shape h2 p) :
    heightAt h1 p = heightAt h2 p := by
  unfold shape at h
  unfold heightAt
  cases e1 : h1[p]? <;> cases e2 : h2[p]? <;> simp_all

theorem levelOf_congr {h1 h2 : List Node} (i : Nat) (A : List Nat)
    (h : ∀ p ∈ A, heightAt h1 p = heightAt h2 p) : levelOf h1 i A = levelOf h2 i A := by
  unfold levelOf
  apply List.filter_congr
  intro p hp
  rw [h p hp]

theorem setNext_ok {heap : List Node} {p i : Nat} (q : Option Nat) (hi : i < heightAt heap p) :
    ∃ nd, heap[p]? = some nd ∧ i < nd.next.length ∧
      setNext heap p i q = .ok (heap.set p { nd with next := nd.next.set i q }) := by
  obtain ⟨nd, hnd⟩ := alloc_of_height (Nat.lt_of_le_of_lt (Nat.zero_le _) hi)
  rw [heightAt_of hnd] at hi
  exact ⟨nd, hnd, hi, by simp [setNext, hnd, hi]⟩

theorem get_set_node {heap : List Node} {p : Nat} {nd : Node} (nd1 : Node)
    (hp : heap[p]? = some nd) (p1 : Nat) :
    (heap.set p nd1)[p1]? = if p1 = p then some nd1 else heap[p1]? := by
  have hlt : p < heap.length := by
    by_contra hc
    rw [List.getElem?_eq_none (Nat.le_of_not_lt hc)] at hp
    cases hp
  by_cases h : p1 = p
  · subst h
    simp [List.getElem?_set_self, hlt]
  · simp [h, List.getElem?_set_ne (Ne.symm h)]

theorem shape_set_next {heap : List Node} {p i : Nat} {nd : Node} (q : Option Nat)
    (hp : heap[p]? = some nd) (p1 : Nat) :
    shape (heap.set p { nd with next := nd.next.set i q }) p1 = shape heap p1 := by
  unfold shape
  rw [get_set_node _ hp]
  by_cases h : p1 = p
  · subst h; simp [hp]
  · simp [h]

theorem nextAt_set_next {heap : List Node} {p i : Nat} {nd : Node} (q : Option Nat)
    (hp : heap[p]? = some nd) (hi : i < nd.next.length) (p1 j : Nat) :
    nextAt (heap.set p { nd with next := nd.next.set i q }) p1 j
      = if p1 = p ∧ j = i then .ok q else nextAt heap p1 j := by
  unfold nextAt
  rw [get_set_node _ hp]
  by_cases h : p1 = p
  · subst h
    simp only [if_true, hp, true_and]
    by_cases hj : j = i
    · subst hj
      simp [List.getElem?_set_self, hi]
    · simp [hj, List.getElem?_set_ne (Ne.symm hj)]
  · simp [h]

theorem get_append_new (heap : List Node) (nd : Node) (p : Nat) :
    (heap ++ [nd])[p]? = if p < heap.length then heap[p]? else if p = heap.length then some nd
      else none := by
  by_cases h : p < heap.length
  · simp [h, List.getElem?_append_left h]
  · by_cases h2 : p = heap.length
    · subst h2; simp
    · simp only [h, h2, if_false]
      apply List.getElem?_eq_none
      simp; omega

theorem linked_last (heap : List Node) (i : Nat) (B : List Nat) (t : Option Nat) :
    ∀ c, Linked heap i (c :: B) t → nextAt heap (lastOf c B) i = .ok t := by
  induction B with
  | nil => intro c h; exact h.1
  | cons b B ih => intro c h; exact ih b h.2

theorem lastOf_split (B : List Nat) : ∀ c, ∃ G, c :: B = G ++ [lastOf c B] := by
  induction B with
  | nil => intro c; exact ⟨[], rfl⟩
  | cons b B ih =>
    intro c
    obtain ⟨G, hG⟩ := ih b
    exact ⟨c :: G, by simp only [lastOf, List.cons_append]; rw [← hG]⟩
/-! ## Skip list: the splice loop -/

theorem shape_append_old (h0 : List Node) (N : Node) {p : Nat} (hp : p < h0.length) :
    shape (h0 ++ [N]) p = shape h0 p := by
  unfold shape
  rw [get_append_new]
  simp [hp]

theorem shape_append_new (h0 : List Node) (N : Node) :
    shape (h0 ++ [N]) h0.length = some (N.key, N.value, N.next.length) := by
  unfold shape
  rw [get_append_new]
  simp

theorem nextAt_append_old (h0 : List Node) (N : Node) {p : Nat} (hp : p < h0.length) (j : Nat) :
    nextAt (h0 ++ [N]) p j = nextAt h0 p j := by
  unfold nextAt
  rw [get_append_new]
  simp [hp]

theorem heightAt_new_shape {h h0 : List Node} {N : Node}
    (hs : ∀ p, shape h p = shape (h0 ++ [N]) p) : heightAt h h0.length = N.next.length := by
  have := hs h0.length
  rw [shape_append_new] at this
  unfold shape at this
  unfold heightAt
  cases e : h[h0.length]? with
  | none => simp [e] at this
  | some nd => simp [e] at this; simp [this.2.2]

theorem heightAt_old_shape {h h0 : List Node} {N : Node}
    (hs : ∀ p, shape h p = shape (h0 ++ [N]) p) {p : Nat} (hp : p < h0.length) :
    heightAt h p = heightAt h0 p := by
  apply heightAt_shape
  rw [hs p, shape_append_old h0 N hp]

theorem setNext_spec {heap : List Node} {p i : Nat} (q : Option Nat)
    (hi : i < heightAt heap p) :
    ∃ h1, setNext heap p i q = .ok h1 ∧ h1.length = heap.length ∧
      (∀ p1, shape h1 p1 = shape heap p1) ∧
      (∀ p1 j, nextAt h1 p1 j = if p1 = p ∧ j = i then .ok q else nextAt heap p1 j) := by
  obtain ⟨nd, hnd, hlt, hset⟩ := setNext_ok q hi
  exact ⟨_, hset, by simp, fun p1 => shape_set_next q hnd p1,
    fun p1 j => nextAt_set_next q hnd hlt p1 j⟩

theorem splice_step (h0 : List Node) (N : Node) (L1 L2 : List Nat) (lvl i : Nat)
    (h : List Node) (U : List (Option Nat))
    (hpos : 0 < h0.length) (hh0 : heightAt h0 0 = MaxLevel)
    (hnd : (0 :: (L1 ++ L2)).Nodup) (ha : ∀ p ∈ L1 ++ L2, p < h0.length)
    (hN : N.next.length = lvl + 1) (hlvl : lvl < MaxLevel) (hi : i ≤ lvl)
    (hU : U[i]? = some (some (lastOf 0 (levelOf h0 i L1))))
    (inv : SpliceInv h0 N L1 L2 lvl i h) (n : Nat) :
    ∃ h1, splice U h0.length (n + 1) i h = splice U h0.length n (i + 1) h1 ∧
      SpliceInv h0 N L1 L2 lvl (i + 1) h1 := by
  have hiM : i < MaxLevel := by omega
  -- the chain of level i and its last node below the key
  have hchain := inv.todo i (Nat.le_refl i) hiM
  rw [Linked_append] at hchain
  obtain ⟨hc1, hc2⟩ := hchain
  have hq := linked_last h i (levelOf h0 i L1) _ 0 hc1
  have hu_mem : lastOf 0 (levelOf h0 i L1) ∈ 0 :: levelOf h0 i L1 := lastOf_mem 0 _
  have hmem_lt : ∀ p ∈ 0 :: levelOf h0 i L1, p < h0.length := by
    intro p hp
    rcases List.mem_cons.mp hp with e | e
    · rw [e]; exact hpos
    · exact ha p (List.mem_append_left _ (levelOf_sub h0 i L1 p e).1)
  have hmem_ht : ∀ p ∈ 0 :: levelOf h0 i L1, i < heightAt h0 p := by
    intro p hp
    rcases List.mem_cons.mp hp with e | e
    · rw [e, hh0]; exact hiM
    · exact (levelOf_sub h0 i L1 p e).2
  have hu_lt := hmem_lt _ hu_mem
  have hu_ne : lastOf 0 (levelOf h0 i L1) ≠ h0.length := Nat.ne_of_lt hu_lt
  -- first assignment: newNode.next[i] = update[i].next[i]
  have hnw_ht : i < heightAt h h0.length := by
    rw [heightAt_new_shape inv.shape_eq, hN]; omega
  obtain ⟨ha1, hset1, hlen1, hshape1, hnext1⟩ :=
    setNext_spec (headOr (levelOf h0 i L2) none) hnw_ht
  -- second assignment: update[i].next[i] = newNode
  have hu_ht : i < heightAt ha1 (lastOf 0 (levelOf h0 i L1)) := by
    rw [heightAt_shape (hshape1 _), heightAt_old_shape inv.shape_eq hu_lt]
    exact hmem_ht _ hu_mem
  obtain ⟨ha2, hset2, hlen2, hshape2, hnext2⟩ := setNext_spec (some h0.length) hu_ht
  refine ⟨ha2, ?_, ?_⟩
  · rw [splice]
    simp only [hU, hq, hset1, hset2]
  · have hnext : ∀ p j, nextAt ha2 p j
        = if p = lastOf 0 (levelOf h0 i L1) ∧ j = i then .ok (some h0.length)
          else if p = h0.length ∧ j = i then .ok (headOr (levelOf h0 i L2) none)
          else nextAt h p j := by
      intro p j
      rw [hnext2, hnext1]
    have hother : ∀ p j, j ≠ i → nextAt ha2 p j = nextAt h p j := by
      intro p j hj
      rw [hnext]; simp [hj]
    have hkeep : ∀ p, p ≠ lastOf 0 (levelOf h0 i L1) → p ≠ h0.length → ∀ j,
        nextAt ha2 p j = nextAt h p j := by
      intro p h1 h2 j
      rw [hnext]; simp [h1, h2]
    constructor
    · rw [hlen2, hlen1, inv.len]
    · intro p
      rw [hshape2, hshape1, inv.shape_eq]
    · intro j hj
      by_cases hji : j = i
      · subst hji
        rw [Linked_append]
        constructor
        · -- the part up to the last node below the key, now pointing at the new node
          obtain ⟨G, hG⟩ := lastOf_split (levelOf h0 j L1) 0
          have hndG : (G ++ [lastOf 0 (levelOf h0 j L1)]).Nodup := by
            rw [← hG]
            have hsub : (0 :: levelOf h0 j L1).Sublist (0 :: (L1 ++ L2)) :=
              List.Sublist.cons₂ 0 ((List.filter_sublist _).trans (List.sublist_append_left _ _))
            exact hnd.sublist hsub
          rw [hG] at hc1 hmem_lt ⊢
          rw [Linked_append] at hc1 ⊢
          refine ⟨Linked_congr ?_ hc1.1, ?_, trivial⟩
          · intro p hp
            apply hkeep
            · intro e
              rw [List.nodup_append] at hndG
              exact hndG.2.2 hp (by rw [e]; exact List.mem_singleton_self _)
            · exact Nat.ne_of_lt (hmem_lt p (List.mem_append_left _ hp))
          · rw [hnext]; simp [headOr]
        · refine ⟨?_, Linked_congr ?_ hc2⟩
          · rw [hnext]; simp [hu_ne.symm]
          · intro p hp
            have hpL2 := (levelOf_sub h0 j L2 p hp).1
            apply hkeep
            · intro e
              have hdis : (0 :: L1).Disjoint L2 := by
                have : ((0 :: L1) ++ L2).Nodup := hnd
                exact (List.nodup_append.mp this).2.2
              have hu1 : lastOf 0 (levelOf h0 j L1) ∈ 0 :: L1 := by
                rcases List.mem_cons.mp hu_mem with e1 | e1
                · rw [e1]; exact List.mem_cons_self _ _
                · exact List.mem_cons_of_mem _ (levelOf_sub h0 j L1 _ e1).1
              exact hdis hu1 (e ▸ hpL2)
            · exact Nat.ne_of_lt (ha p (List.mem_append_right _ hpL2))
      · have hlt : j < i := by omega
        exact Linked_congr (fun p _ => hother p j hji) (inv.done j hlt)
    · intro j hj hjM
      exact Linked_congr (fun p _ => hother p j (by omega)) (inv.todo j (by omega) hjM)
    · intro j hj hjl
      rw [hother _ j (by omega)]
      exact inv.fresh j (by omega) hjl

theorem splice_loop (h0 : List Node) (N : Node) (L1 L2 : List Nat) (lvl : Nat)
    (U : List (Option Nat))
    (hpos : 0 < h0.length) (hh0 : heightAt h0 0 = MaxLevel)
    (hnd : (0 :: (L1 ++ L2)).Nodup) (ha : ∀ p ∈ L1 ++ L2, p < h0.length)
    (hN : N.next.length = lvl + 1) (hlvl : lvl < MaxLevel)
    (hU : ∀ j, j ≤ lvl → U[j]? = some (some (lastOf 0 (levelOf h0 j L1)))) :
    ∀ (n i : Nat) (h : List Node), i + n = lvl + 1 → SpliceInv h0 N L1 L2 lvl i h →
      ∃ h1, splice U h0.length n i h = .ok h1 ∧ SpliceInv h0 N L1 L2 lvl (lvl + 1) h1 := by
  intro n
  induction n with
  | zero =>
    intro i h hin inv
    have : i = lvl + 1 := by omega
    subst this
    exact ⟨h, rfl, inv⟩
  | succ n ih =>
    intro i h hin inv
    obtain ⟨h1, e1, inv1⟩ := splice_step h0 N L1 L2 lvl i h U hpos hh0 hnd ha hN hlvl
      (by omega) (hU i (by omega)) inv n
    obtain ⟨h2, e2, inv2⟩ := ih (i + 1) h1 (by omega) inv1
    exact ⟨h2, by rw [e1, e2], inv2⟩
/-! ## Skip list: `Put` and `Get` against the invariant -/

theorem randomLevel_le (flips : List Bool) :
    ∀ lvl, lvl ≤ MaxLevel - 1 → randomLevel flips lvl ≤ MaxLevel - 1 := by
  induction flips with
  | nil => intro lvl h; simpa [randomLevel] using h
  | cons b rest ih =>
    intro lvl h
    cases b with
    | false => simpa [randomLevel] using h
    | true =>
      simp only [randomLevel]
      split
      · exact ih (lvl + 1) (by omega)
      · exact h

theorem randomLevel_lt (flips : List Bool) : randomLevel flips 0 < MaxLevel := by
  have := randomLevel_le flips 0 (by simp [MaxLevel])
  simp only [MaxLevel] at this ⊢
  omega

theorem raiseUpdate_spec (head : Nat) :
    ∀ (n i : Nat) (update : List (Option Nat)), i + n ≤ update.length →
      ∃ u1, raiseUpdate head n i update = .ok u1 ∧ u1.length = update.length ∧
        ∀ j, u1[j]? = if i ≤ j ∧ j < i + n then some (some head) else update[j]? := by
  intro n
  induction n with
  | zero =>
    intro i update _
    refine ⟨update, rfl, rfl, fun j => ?_⟩
    have : ¬ (i ≤ j ∧ j < i + 0) := by omega
    rw [if_neg this]
  | succ n ih =>
    intro i update hlen
    have hi : i < update.length := by omega
    obtain ⟨u1, e1, l1, g1⟩ := ih (i + 1) (update.set i (some head)) (by simp; omega)
    refine ⟨u1, by simp [raiseUpdate, hi, e1], by simpa using l1, ?_⟩
    intro j
    rw [g1 j]
    by_cases hj : j = i
    · subst hj
      simp [List.getElem?_set_self, hi]
    · rw [List.getElem?_set_ne (Ne.symm hj)]
      by_cases h1 : i + 1 ≤ j ∧ j < i + 1 + n
      · have h2 : i ≤ j ∧ j < i + (n + 1) := by omega
        simp [h1, h2]
      · have h2 : ¬ (i ≤ j ∧ j < i + (n + 1)) := by omega
        simp [h1, h2]

theorem sorted_split (heap : List Node) (key : Bytes) (L : List Nat)
    (hs : L.Pairwise (fun p q => bytesCompare (keyAt heap p) (keyAt heap q) < 0)) :
    ∃ L1 L2, L = L1 ++ L2 ∧ (∀ p ∈ L1, bytesCompare (keyAt heap p) key < 0) ∧
      (∀ p ∈ L2, ¬ bytesCompare (keyAt heap p) key < 0) := by
  induction L with
  | nil => exact ⟨[], [], rfl, by simp, by simp⟩
  | cons a L ih =>
    rw [List.pairwise_cons] at hs
    by_cases ha : bytesCompare (keyAt heap a) key < 0
    · obtain ⟨L1, L2, e, h1, h2⟩ := ih hs.2
      refine ⟨a :: L1, L2, by rw [e]; rfl, ?_, h2⟩
      intro p hp
      rcases List.mem_cons.mp hp with e1 | e1
      · rw [e1]; exact ha
      · exact h1 p e1
    · refine ⟨[], a :: L, rfl, by simp, ?_⟩
      intro p hp hlt
      rcases List.mem_cons.mp hp with e1 | e1
      · rw [e1] at hlt; exact ha hlt
      · exact ha (bytesCompare_trans (hs.1 p e1) hlt)

/-- Facts shared by `Put` and `Get` once the level-0 order is split at the key. -/
theorem inv_pred_next (s : SkipList) (L1 L2 : List Nat) (inv : s.Inv (L1 ++ L2)) :
    levelOf s.heap 0 L1 = L1 ∧
      nextAt s.heap (lastOf 0 L1) 0 = .ok (headOr L2 none) := by
  have hz : levelOf s.heap 0 (L1 ++ L2) = L1 ++ L2 := levelOf_zero _ _ inv.height_pos
  have hz1 : levelOf s.heap 0 L1 = L1 :=
    levelOf_zero _ _ (fun p hp => inv.height_pos p (List.mem_append_left _ hp))
  have hl := inv.linked 0 (by simp [MaxLevel])
  rw [levelOf_head _ _ _ (by rw [inv.head_height]; simp [MaxLevel]), hz] at hl
  have hl2 : Linked s.heap 0 ((0 :: L1) ++ L2) none := hl
  rw [Linked_append] at hl2
  exact ⟨hz1, linked_last _ _ _ _ _ hl2.1⟩

theorem inv_fuel (s : SkipList) (L1 L2 : List Nat) (inv : s.Inv (L1 ++ L2)) :
    L1.length + L2.length < s.heap.length := by
  have := inv.size
  simp only [List.length_append] at this
  omega

theorem Get_spec_split (s : SkipList) (key : Bytes) (L1 L2 : List Nat)
    (inv : s.Inv (L1 ++ L2))
    (h1 : ∀ p ∈ L1, bytesCompare (keyAt s.heap p) key < 0)
    (h2 : ∀ p ∈ L2, ¬ bytesCompare (keyAt s.heap p) key < 0) :
    s.Get key = .ok (match L2 with
      | [] => ([], false)
      | q :: _ => if keyAt s.heap q = key then (valueAt s.heap q, true) else ([], false)) := by
  obtain ⟨hz1, hnx⟩ := inv_pred_next s L1 L2 inv
  have hd := descend_spec s.heap key L1 L2 inv.head_height inv.linked h1 h2
    (inv_fuel s L1 L2 inv) s.level 0 inv.level_lt (List.mem_cons_self _ _)
  rw [hz1] at hd
  unfold SkipList.Get
  rw [inv.head_zero, hd]
  simp only [hnx]
  cases L2 with
  | nil => rfl
  | cons q r =>
    simp only [headOr]
    obtain ⟨nd, hq⟩ := alloc_of_height (inv.height_pos q (by simp))
    simp only [deref_of hq, keyAt_of hq, valueAt_of hq, bytesEqual]
    by_cases hk : nd.key = key <;> simp [hk]
theorem set_value_facts {heap : List Node} {q : Nat} {nd : Node} (value : Bytes)
    (hq : heap[q]? = some nd) :
    (∀ p, keyAt (heap.set q { nd with value := value }) p = keyAt heap p) ∧
    (∀ p, heightAt (heap.set q { nd with value := value }) p = heightAt heap p) ∧
    (∀ p j, nextAt (heap.set q { nd with value := value }) p j = nextAt heap p j) ∧
    (∀ p, valueAt (heap.set q { nd with value := value }) p
      = if p = q then value else valueAt heap p) := by
  refine ⟨?_, ?_, ?_, ?_⟩
  · intro p
    unfold keyAt
    rw [get_set_node _ hq]
    by_cases h : p = q
    · subst h; simp [hq]
    · simp [h]
  · intro p
    unfold heightAt
    rw [get_set_node _ hq]
    by_cases h : p = q
    · subst h; simp [hq]
    · simp [h]
  · intro p j
    unfold nextAt
    rw [get_set_node _ hq]
    by_cases h : p = q
    · subst h; simp [hq]
    · simp [h]
  · intro p
    unfold valueAt
    rw [get_set_node _ hq]
    by_cases h : p = q
    · subst h; simp
    · simp [h]

theorem Put_update_inv (s : SkipList) (L : List Nat) (inv : s.Inv L) (q : Nat) (nd : Node)
    (value : Bytes) (hq : s.heap[q]? = some nd) :
    SkipList.Inv { s with heap := s.heap.set q { nd with value := value } } L := by
  obtain ⟨hk, hh, hn, _⟩ := set_value_facts value hq
  have hlev : ∀ i A, levelOf (s.heap.set q { nd with value := value }) i A = levelOf s.heap i A :=
    fun i A => levelOf_congr i A (fun p _ => hh p)
  constructor
  · exact inv.head_zero
  · show heightAt (s.heap.set q _) 0 = MaxLevel
    rw [hh]; exact inv.head_height
  · exact inv.level_lt
  · show L.length + 1 = (s.heap.set q _).length
    rw [List.length_set]; exact inv.size
  · exact inv.nodup
  · intro p hp
    show p < (s.heap.set q _).length
    rw [List.length_set]; exact inv.alloc p hp
  · intro p hp
    show 0 < heightAt (s.heap.set q _) p
    rw [hh]; exact inv.height_pos p hp
  · intro p hp
    show heightAt (s.heap.set q _) p ≤ s.level + 1
    rw [hh]; exact inv.height_le p hp
  · show L.Pairwise (fun p r => bytesCompare (keyAt (s.heap.set q _) p)
      (keyAt (s.heap.set q _) r) < 0)
    simp only [hk]
    exact inv.sorted
  · intro i hi
    show Linked (s.heap.set q _) i (levelOf (s.heap.set q _) i (0 :: L)) none
    rw [hlev]
    exact Linked_congr (fun p _ => hn p i) (inv.linked i hi)

theorem entriesOf_append (heap : List Node) (A B : List Nat) :
    entriesOf heap (A ++ B) = entriesOf heap A ++ entriesOf heap B := by
  simp [entriesOf]

theorem entriesOf_congr {h1 h2 : List Node} (A : List Nat)
    (h : ∀ p ∈ A, keyAt h1 p = keyAt h2 p ∧ valueAt h1 p = valueAt h2 p) :
    entriesOf h1 A = entriesOf h2 A := by
  unfold entriesOf
  apply List.map_congr_left
  intro p hp
  rw [(h p hp).1, (h p hp).2]

theorem absPut_append (k v : Bytes) (E1 E2 : List (Bytes × Bytes))
    (h : ∀ e ∈ E1, bytesCompare e.1 k < 0) :
    absPut k v (E1 ++ E2) = E1 ++ absPut k v E2 := by
  induction E1 with
  | nil => rfl
  | cons e E1 ih =>
    obtain ⟨k1, v1⟩ := e
    have h1 : bytesCompare k1 k < 0 := h (k1, v1) (List.mem_cons_self _ _)
    show absPut k v ((k1, v1) :: (E1 ++ E2)) = (k1, v1) :: (E1 ++ absPut k v E2)
    rw [absPut, if_pos h1, ih (fun e he => h e (List.mem_cons_of_mem _ he))]

theorem entriesOf_below {heap : List Node} {key : Bytes} {L1 : List Nat}
    (h1 : ∀ p ∈ L1, bytesCompare (keyAt heap p) key < 0) :
    ∀ e ∈ entriesOf heap L1, bytesCompare e.1 key < 0 := by
  intro e he
  simp only [entriesOf, List.mem_map] at he
  obtain ⟨p, hp, rfl⟩ := he
  exact h1 p hp

theorem Put_update_entries (s : SkipList) (L1 L2 : List Nat) (q : Nat) (nd : Node)
    (key value : Bytes) (inv : s.Inv (L1 ++ q :: L2)) (hq : s.heap[q]? = some nd)
    (hkey : nd.key = key)
    (h1 : ∀ p ∈ L1, bytesCompare (keyAt s.heap p) key < 0) :
    entriesOf (s.heap.set q { nd with value := value }) (L1 ++ q :: L2)
      = absPut key value (entriesOf s.heap (L1 ++ q :: L2)) := by
  obtain ⟨hk, _, _, hv⟩ := set_value_facts value hq
  have hnd : (L1 ++ q :: L2).Nodup := (List.nodup_cons.mp inv.nodup).2
  rw [List.nodup_append] at hnd
  obtain ⟨_, hnd2, hdis⟩ := hnd
  have hq1 : q ∉ L1 := fun hm => hdis hm (List.mem_cons_self _ _)
  have hq2 : q ∉ L2 := (List.nodup_cons.mp hnd2).1
  rw [entriesOf_append, entriesOf_append, absPut_append _ _ _ _ (entriesOf_below h1)]
  have e1 : entriesOf (s.heap.set q { nd with value := value }) L1 = entriesOf s.heap L1 := by
    apply entriesOf_congr
    intro p hp
    refine ⟨hk p, ?_⟩
    have hne : p ≠ q := fun e => hq1 (e ▸ hp)
    rw [hv, if_neg hne]
  have e2 : entriesOf (s.heap.set q { nd with value := value }) L2 = entriesOf s.heap L2 := by
    apply entriesOf_congr
    intro p hp
    refine ⟨hk p, ?_⟩
    have hne : p ≠ q := fun e => hq2 (e ▸ hp)
    rw [hv, if_neg hne]
  rw [e1]
  congr 1
  show (keyAt _ q, valueAt _ q) :: entriesOf _ L2 = absPut key value ((keyAt s.heap q, valueAt s.heap q) :: entriesOf s.heap L2)
  rw [e2, hk, hv, keyAt_of hq, hkey]
  simp [absPut, bytesCompare_irrefl]
theorem splice_init (s : SkipList) (L1 L2 : List Nat) (inv : s.Inv (L1 ++ L2))
    (key value : Bytes) (lvl : Nat) :
    SpliceInv s.heap ⟨key, value, List.replicate (lvl + 1) none⟩ L1 L2 lvl 0
      (s.heap ++ [⟨key, value, List.replicate (lvl + 1) none⟩]) := by
  have hpos : 0 < s.heap.length := by have := inv.size; omega
  constructor
  · simp
  · intro p; rfl
  · intro j hj; omega
  · intro j _ hjM
    have hl := inv.linked j hjM
    rw [chain_split s.heap j L1 L2 inv.head_height hjM] at hl
    refine Linked_congr ?_ hl
    intro p hp
    apply nextAt_append_old
    rcases List.mem_append.mp hp with h | h
    · rcases List.mem_cons.mp h with e | e
      · rw [e]; exact hpos
      · exact inv.alloc p (List.mem_append_left _ (levelOf_sub _ _ _ p e).1)
    · exact inv.alloc p (List.mem_append_right _ (levelOf_sub _ _ _ p h).1)
  · intro j _ hjl
    unfold nextAt
    rw [get_append_new]
    simp only [Nat.lt_irrefl, if_false, if_true]
    have : (List.replicate (lvl + 1) (none : Option Nat))[j]? = some none := by
      rw [List.getElem?_replicate]
      simp; omega
    simp [this]

theorem Put_insert_inv (s : SkipList) (L1 L2 : List Nat) (inv : s.Inv (L1 ++ L2))
    (key value : Bytes) (lvl : Nat) (hlvl : lvl < MaxLevel)
    (h1 : ∀ p ∈ L1, bytesCompare (keyAt s.heap p) key < 0)
    (h2 : ∀ p ∈ L2, bytesCompare key (keyAt s.heap p) < 0)
    (h : List Node)
    (sp : SpliceInv s.heap ⟨key, value, List.replicate (lvl + 1) none⟩ L1 L2 lvl (lvl + 1) h) :
    SkipList.Inv ⟨h, s.head, if lvl > s.level then lvl else s.level⟩
        (L1 ++ s.heap.length :: L2) ∧
      entriesOf h (L1 ++ s.heap.length :: L2)
        = entriesOf s.heap L1 ++ (key, value) :: entriesOf s.heap L2 := by
  have hpos : 0 < s.heap.length := by have := inv.size; omega
  have hold : ∀ p, p < s.heap.length → shape h p = shape s.heap p := by
    intro p hp
    rw [sp.shape_eq, shape_append_old _ _ hp]
  have hnew : shape h s.heap.length = some (key, value, lvl + 1) := by
    rw [sp.shape_eq, shape_append_new]; simp
  have hkey_new : keyAt h s.heap.length = key := by
    unfold shape at hnew; unfold keyAt
    cases e : h[s.heap.length]? with
    | none => simp [e] at hnew
    | some nd => simp [e] at hnew; simp [hnew.1]
  have hval_new : valueAt h s.heap.length = value := by
    unfold shape at hnew; unfold valueAt
    cases e : h[s.heap.length]? with
    | none => simp [e] at hnew
    | some nd => simp [e] at hnew; simp [hnew.2.1]
  have hht_new : heightAt h s.heap.length = lvl + 1 := by
    unfold shape at hnew; unfold heightAt
    cases e : h[s.heap.length]? with
    | none => simp [e] at hnew
    | some nd => simp [e] at hnew; simp [hnew.2.2]
  have hL1 : ∀ p ∈ L1, p < s.heap.length := fun p hp => inv.alloc p (List.mem_append_left _ hp)
  have hL2 : ∀ p ∈ L2, p < s.heap.length := fun p hp => inv.alloc p (List.mem_append_right _ hp)
  have hnd0 := List.nodup_cons.mp inv.nodup
  have hlev1 : ∀ j, levelOf h j L1 = levelOf s.heap j L1 :=
    fun j => levelOf_congr j L1 (fun p hp => heightAt_shape (hold p (hL1 p hp)))
  have hlev2 : ∀ j, levelOf h j L2 = levelOf s.heap j L2 :=
    fun j => levelOf_congr j L2 (fun p hp => heightAt_shape (hold p (hL2 p hp)))
  have hht0 : heightAt h 0 = MaxLevel := by
    rw [heightAt_shape (hold 0 hpos)]; exact inv.head_height
  constructor
  · constructor
    · exact inv.head_zero
    · exact hht0
    · show (if lvl > s.level then lvl else s.level) < MaxLevel
      split
      · exact hlvl
      · exact inv.level_lt
    · show (L1 ++ s.heap.length :: L2).length + 1 = h.length
      rw [sp.len, ← inv.size]
      simp
      omega
    · rw [List.nodup_cons]
      constructor
      · intro hm
        rcases List.mem_append.mp hm with e | e
        · exact hnd0.1 (List.mem_append_left _ e)
        · rcases List.mem_cons.mp e with e1 | e1
          · omega
          · exact hnd0.1 (List.mem_append_right _ e1)
      · have hn := List.nodup_append.mp hnd0.2
        rw [List.nodup_append]
        refine ⟨hn.1, ?_, ?_⟩
        · rw [List.nodup_cons]
          exact ⟨fun hm => Nat.lt_irrefl _ (hL2 _ hm), hn.2.1⟩
        · intro a ha1 ha2
          rcases List.mem_cons.mp ha2 with e1 | e1
          · have := hL1 a ha1
            omega
          · exact hn.2.2 ha1 e1
    · intro p hp
      show p < h.length
      rw [sp.len]
      rcases List.mem_append.mp hp with e | e
      · have := hL1 p e; omega
      · rcases List.mem_cons.mp e with e1 | e1
        · omega
        · have := hL2 p e1; omega
    · intro p hp
      show 0 < heightAt h p
      rcases List.mem_append.mp hp with e | e
      · rw [heightAt_shape (hold p (hL1 p e))]
        exact inv.height_pos p (List.mem_append_left _ e)
      · rcases List.mem_cons.mp e with e1 | e1
        · rw [e1, hht_new]; omega
        · rw [heightAt_shape (hold p (hL2 p e1))]
          exact inv.height_pos p (List.mem_append_right _ e1)
    · intro p hp
      show heightAt h p ≤ (if lvl > s.level then lvl else s.level) + 1
      have hmax : s.level ≤ (if lvl > s.level then lvl else s.level) ∧
          lvl ≤ (if lvl > s.level then lvl else s.level) := by
        split <;> omega
      rcases List.mem_append.mp hp with e | e
      · rw [heightAt_shape (hold p (hL1 p e))]
        have := inv.height_le p (List.mem_append_left _ e)
        omega
      · rcases List.mem_cons.mp e with e1 | e1
        · rw [e1, hht_new]; omega
        · rw [heightAt_shape (hold p (hL2 p e1))]
          have := inv.height_le p (List.mem_append_right _ e1)
          omega
    · show (L1 ++ s.heap.length :: L2).Pairwise
        (fun p q => bytesCompare (keyAt h p) (keyAt h q) < 0)
      have hs := List.pairwise_append.mp inv.sorted
      rw [List.pairwise_append]
      refine ⟨?_, ?_, ?_⟩
      · refine hs.1.imp_of_mem ?_
        intro a b ha hb hab
        rw [keyAt_shape (hold a (hL1 a ha)), keyAt_shape (hold b (hL1 b hb))]
        exact hab
      · rw [List.pairwise_cons]
        constructor
        · intro b hb
          rw [hkey_new, keyAt_shape (hold b (hL2 b hb))]
          exact h2 b hb
        · refine hs.2.1.imp_of_mem ?_
          intro a b ha hb hab
          rw [keyAt_shape (hold a (hL2 a ha)), keyAt_shape (hold b (hL2 b hb))]
          exact hab
      · intro a ha b hb
        rw [keyAt_shape (hold a (hL1 a ha))]
        rcases List.mem_cons.mp hb with e1 | e1
        · rw [e1, hkey_new]; exact h1 a ha
        · rw [keyAt_shape (hold b (hL2 b e1))]
          exact hs.2.2 a ha b e1
    · intro j hj
      show Linked h j (levelOf h j (0 :: (L1 ++ s.heap.length :: L2))) none
      rw [levelOf_head h j _ (by rw [hht0]; exact hj), levelOf_append, hlev1]
      by_cases hjl : j < lvl + 1
      · have e : levelOf h j (s.heap.length :: L2) = s.heap.length :: levelOf s.heap j L2 := by
          rw [← hlev2]
          simp [levelOf, hht_new, hjl]
        rw [e]
        exact sp.done j hjl
      · have e : levelOf h j (s.heap.length :: L2) = levelOf s.heap j L2 := by
          rw [← hlev2]
          simp [levelOf, hht_new, hjl]
        rw [e]
        exact sp.todo j (by omega) hj
  · rw [entriesOf_append]
    have e1 : entriesOf h L1 = entriesOf s.heap L1 :=
      entriesOf_congr L1 (fun p hp => ⟨keyAt_shape (hold p (hL1 p hp)),
        valueAt_shape (hold p (hL1 p hp))⟩)
    have e2 : entriesOf h L2 = entriesOf s.heap L2 :=
      entriesOf_congr L2 (fun p hp => ⟨keyAt_shape (hold p (hL2 p hp)),
        valueAt_shape (hold p (hL2 p hp))⟩)
    rw [e1]
    congr 1
    show (keyAt h s.heap.length, valueAt h s.heap.length) :: entriesOf h L2 = _
    rw [hkey_new, hval_new, e2]
theorem insertNew_spec (s : SkipList) (L1 L2 : List Nat) (inv : s.Inv (L1 ++ L2))
    (key value : Bytes) (flips : List Bool)
    (h1 : ∀ p ∈ L1, bytesCompare (keyAt s.heap p) key < 0)
    (h2 : ∀ p ∈ L2, bytesCompare key (keyAt s.heap p) < 0) :
    ∃ s1, s.insertNew key value flips
        (setPreds s.heap L1 (s.level + 1) (List.replicate MaxLevel none)) = .ok s1 ∧
      s1.Inv (L1 ++ s.heap.length :: L2) ∧
      entriesOf s1.heap (L1 ++ s.heap.length :: L2)
        = entriesOf s.heap L1 ++ (key, value) :: entriesOf s.heap L2 := by
  have hlvl := randomLevel_lt flips
  have hlev := inv.level_lt
  have hpos : 0 < s.heap.length := by have := inv.size; omega
  have hUlen : (setPreds s.heap L1 (s.level + 1) (List.replicate MaxLevel none)).length
      = MaxLevel := by rw [setPreds_length]; simp
  have hUget := setPreds_get s.heap L1 (s.level + 1) (List.replicate MaxLevel none)
  -- the update vector after the optional raise
  have hraised : ∃ u1,
      (if randomLevel flips 0 > s.level then
        raiseUpdate s.head (randomLevel flips 0 - s.level) (s.level + 1)
          (setPreds s.heap L1 (s.level + 1) (List.replicate MaxLevel none))
       else .ok (setPreds s.heap L1 (s.level + 1) (List.replicate MaxLevel none))) = .ok u1 ∧
      ∀ j, j ≤ randomLevel flips 0 →
        u1[j]? = some (some (lastOf 0 (levelOf s.heap j L1))) := by
    by_cases hgt : randomLevel flips 0 > s.level
    · obtain ⟨u1, e1, _, g1⟩ := raiseUpdate_spec s.head (randomLevel flips 0 - s.level)
        (s.level + 1) _ (by rw [hUlen]; omega)
      refine ⟨u1, by rw [if_pos hgt, e1], ?_⟩
      intro j hj
      rw [g1 j]
      by_cases hjl : j < s.level + 1
      · have : ¬ (s.level + 1 ≤ j ∧ j < s.level + 1 + (randomLevel flips 0 - s.level)) := by
          omega
        rw [if_neg this, hUget j (by simp [MaxLevel] at hlev ⊢; omega), if_pos hjl]
      · have : s.level + 1 ≤ j ∧ j < s.level + 1 + (randomLevel flips 0 - s.level) := by omega
        rw [if_pos this, inv.head_zero]
        have hempty : levelOf s.heap j L1 = [] :=
          levelOf_high s.heap j (s.level + 1) L1
            (fun p hp => inv.height_le p (List.mem_append_left _ hp)) (by omega)
        rw [hempty]; rfl
    · refine ⟨_, by rw [if_neg hgt], ?_⟩
      intro j hj
      rw [hUget j (by simp [MaxLevel] at hlev ⊢; omega), if_pos (by omega)]
  obtain ⟨u1, eU, gU⟩ := hraised
  obtain ⟨h, eh, sp⟩ := splice_loop s.heap ⟨key, value, List.replicate (randomLevel flips 0 + 1) none⟩
    L1 L2 (randomLevel flips 0) u1 hpos inv.head_height inv.nodup inv.alloc (by simp) hlvl gU
    (randomLevel flips 0 + 1) 0 _ (by omega) (splice_init s L1 L2 inv key value _)
  obtain ⟨i1, i2⟩ := Put_insert_inv s L1 L2 inv key value _ hlvl h1 h2 h sp
  refine ⟨_, ?_, i1, i2⟩
  unfold SkipList.insertNew
  simp only [eU, eh]

theorem skiplist_put_spec (s : SkipList) (L : List Nat) (inv : s.Inv L)
    (key value : Bytes) (flips : List Bool) :
    ∃ s1 L1, s.Put key value flips = .ok s1 ∧ s1.Inv L1 ∧
      entriesOf s1.heap L1 = absPut key value (entriesOf s.heap L) := by
  obtain ⟨L1, L2, rfl, h1, h2⟩ := sorted_split s.heap key L inv.sorted
  have hfu := findUpdate_spec s.heap key L1 L2 inv.head_height inv.linked h1 h2
    (inv_fuel s L1 L2 inv) s.level 0 (List.replicate MaxLevel none) inv.level_lt (by simp)
    (List.mem_cons_self _ _)
  obtain ⟨hz1, hnx⟩ := inv_pred_next s L1 L2 inv
  rw [hz1] at hfu
  have hfu1 : findUpdate s.heap key (s.level + 1) s.head (List.replicate MaxLevel none)
      = .ok (lastOf 0 L1, setPreds s.heap L1 (s.level + 1) (List.replicate MaxLevel none)) := by
    rw [inv.head_zero]; exact hfu
  unfold SkipList.Put
  rw [hfu1]
  simp only [hnx]
  cases L2 with
  | nil =>
    simp only [headOr]
    obtain ⟨s1, e1, i1, i2⟩ := insertNew_spec s L1 [] inv key value flips h1 (by simp)
    refine ⟨s1, _, e1, i1, ?_⟩
    rw [i2, entriesOf_append, absPut_append _ _ _ _ (entriesOf_below h1)]
    rfl
  | cons q r =>
    simp only [headOr]
    obtain ⟨nd, hq⟩ := alloc_of_height (inv.height_pos q (by simp))
    simp only [deref_of hq, bytesEqual]
    by_cases hk : nd.key = key
    · rw [if_pos (decide_eq_true hk)]
      refine ⟨_, _, rfl, Put_update_inv s _ inv q nd value hq, ?_⟩
      exact Put_update_entries s L1 r q nd key value inv hq hk h1
    · rw [if_neg (by simpa using hk)]
      have hqk : bytesCompare key (keyAt s.heap q) < 0 := by
        rcases bytesCompare_total key (keyAt s.heap q) with h | h | h
        · exact h
        · exact absurd (by rw [keyAt_of hq] at h; exact h.symm) hk
        · exact absurd h (h2 q (List.mem_cons_self _ _))
      have hs := (List.pairwise_append.mp inv.sorted).2.1
      rw [List.pairwise_cons] at hs
      have h2s : ∀ p ∈ q :: r, bytesCompare key (keyAt s.heap p) < 0 := by
        intro p hp
        rcases List.mem_cons.mp hp with e | e
        · rw [e]; exact hqk
        · exact bytesCompare_trans hqk (hs.1 p e)
      obtain ⟨s1, e1, i1, i2⟩ := insertNew_spec s L1 (q :: r) inv key value flips h1 h2s
      refine ⟨s1, _, e1, i1, ?_⟩
      rw [i2, entriesOf_append, absPut_append _ _ _ _ (entriesOf_below h1)]
      congr 1
      show _ = absPut key value ((keyAt s.heap q, valueAt s.heap q) :: entriesOf s.heap r)
      rw [absPut, if_neg (h2 q (List.mem_cons_self _ _)), if_neg (by rw [keyAt_of hq]; exact hk)]
      rfl

theorem NewSkipList_inv : NewSkipList.Inv [] := by
  constructor
  · rfl
  · rfl
  · simp [NewSkipList, MaxLevel]
  · rfl
  · simp
  · intro p hp; cases hp
  · intro p hp; cases hp
  · intro p hp; cases hp
  · exact List.Pairwise.nil
  · intro i hi
    have h0 : i < heightAt NewSkipList.heap 0 := by
      show i < (List.replicate MaxLevel (none : Option Nat)).length
      simpa using hi
    rw [levelOf_head _ _ _ h0]
    refine ⟨?_, trivial⟩
    show nextAt NewSkipList.heap 0 i = .ok none
    unfold nextAt
    have : (List.replicate MaxLevel (none : Option Nat))[i]? = some none := by
      rw [List.getElem?_replicate]; simp [hi]
    simp [NewSkipList, this]
/-! ## Skip list: the map it represents -/

theorem absGet_absPut (k v : Bytes) (E : List (Bytes × Bytes)) (q : Bytes) :
    absGet (absPut k v E) q = if k = q then (v, true) else absGet E q := by
  induction E with
  | nil => simp [absPut, absGet]
  | cons e E ih =>
    obtain ⟨k1, v1⟩ := e
    simp only [absPut]
    by_cases h1 : bytesCompare k1 k < 0
    · have hne : k1 ≠ k := fun e => bytesCompare_irrefl k (e ▸ h1)
      rw [if_pos h1]
      simp only [absGet, ih]
      by_cases hq : k1 = q
      · have : ¬ k = q := fun e => hne (hq.trans e.symm)
        simp [hq, this]
      · simp [hq]
    · rw [if_neg h1]
      by_cases h2 : k1 = k
      · rw [if_pos h2]
        subst h2
        simp only [absGet]
        by_cases hq : k1 = q <;> simp [hq]
      · rw [if_neg h2]
        simp only [absGet]

theorem absGet_of_all_ne (E : List (Bytes × Bytes)) (q : Bytes) (h : ∀ e ∈ E, e.1 ≠ q) :
    absGet E q = ([], false) := by
  induction E with
  | nil => rfl
  | cons e E ih =>
    obtain ⟨k1, v1⟩ := e
    have h1 : k1 ≠ q := h (k1, v1) (List.mem_cons_self _ _)
    simp only [absGet, if_neg h1]
    exact ih (fun e he => h e (List.mem_cons_of_mem _ he))

theorem absGet_append_ne (E1 E2 : List (Bytes × Bytes)) (q : Bytes) (h : ∀ e ∈ E1, e.1 ≠ q) :
    absGet (E1 ++ E2) q = absGet E2 q := by
  induction E1 with
  | nil => rfl
  | cons e E1 ih =>
    obtain ⟨k1, v1⟩ := e
    have h1 : k1 ≠ q := h (k1, v1) (List.mem_cons_self _ _)
    show absGet ((k1, v1) :: (E1 ++ E2)) q = _
    rw [absGet, if_neg h1]
    exact ih (fun e he => h e (List.mem_cons_of_mem _ he))

theorem skiplist_get_spec (s : SkipList) (L : List Nat) (inv : s.Inv L) (key : Bytes) :
    s.Get key = .ok (absGet (entriesOf s.heap L) key) := by
  obtain ⟨L1, L2, rfl, h1, h2⟩ := sorted_split s.heap key L inv.sorted
  rw [Get_spec_split s key L1 L2 inv h1 h2, entriesOf_append,
    absGet_append_ne _ _ _ (fun e he hk =>
      bytesCompare_irrefl key (by have := entriesOf_below h1 e he; rw [hk] at this; exact this))]
  cases L2 with
  | nil => rfl
  | cons q r =>
    show _ = Except.ok (absGet ((keyAt s.heap q, valueAt s.heap q) :: entriesOf s.heap r) key)
    rw [absGet]
    by_cases hk : keyAt s.heap q = key
    · simp [hk]
    · simp only [hk, if_false]
      have hs := (List.pairwise_append.mp inv.sorted).2.1
      rw [List.pairwise_cons] at hs
      have hqk : bytesCompare key (keyAt s.heap q) < 0 := by
        rcases bytesCompare_total key (keyAt s.heap q) with h | h | h
        · exact h
        · exact absurd h.symm hk
        · exact absurd h (h2 q (List.mem_cons_self _ _))
      rw [absGet_of_all_ne]
      intro e he hek
      simp only [entriesOf, List.mem_map] at he
      obtain ⟨p, hp, rfl⟩ := he
      have := bytesCompare_trans hqk (hs.1 p hp)
      simp only at hek
      rw [hek] at this
      exact bytesCompare_irrefl key this

theorem walk_spec (heap : List Node) (ps : List Nat) :
    ∀ fuel, Linked heap 0 ps none → ps.length ≤ fuel →
      walk heap fuel (headOr ps none) = .ok (entriesOf heap ps) := by
  induction ps with
  | nil => intro fuel _ _; cases fuel <;> rfl
  | cons p ps ih =>
    intro fuel hl hf
    cases fuel with
    | zero => simp at hf
    | succ f =>
      obtain ⟨nd, hp, _⟩ := nextAt_ok hl.1
      show walk heap (f + 1) (some p) = _
      rw [walk]
      simp only [deref_of hp, hl.1, ih f hl.2 (by simpa using hf)]
      show _ = Except.ok ((keyAt heap p, valueAt heap p) :: entriesOf heap ps)
      rw [keyAt_of hp, valueAt_of hp]

theorem inv_iter (s : SkipList) (L : List Nat) (inv : s.Inv L) :
    nextAt s.heap s.head 0 = .ok (headOr L none) ∧ Linked s.heap 0 L none ∧
      L.length ≤ s.heap.length := by
  have hz : levelOf s.heap 0 L = L := levelOf_zero _ _ inv.height_pos
  have hl := inv.linked 0 (by simp [MaxLevel])
  rw [levelOf_head _ _ _ (by rw [inv.head_height]; simp [MaxLevel]), hz] at hl
  refine ⟨by rw [inv.head_zero]; exact hl.1, hl.2, ?_⟩
  have := inv.size
  omega

theorem entries_sorted (s : SkipList) (L : List Nat) (inv : s.Inv L) :
    (entriesOf s.heap L).Pairwise (fun a b => bytesCompare a.1 b.1 < 0) := by
  unfold entriesOf
  rw [List.pairwise_map]
  exact inv.sorted

theorem putAll_spec (ops : List (Bytes × Bytes × List Bool)) :
    ∀ (s : SkipList) (L : List Nat), s.Inv L →
      ∃ s1 L1, putAll s ops = .ok s1 ∧ s1.Inv L1 ∧
        entriesOf s1.heap L1
          = ops.foldl (fun E op => absPut op.1 op.2.1 E) (entriesOf s.heap L) := by
  induction ops with
  | nil => intro s L inv; exact ⟨s, L, rfl, inv, rfl⟩
  | cons op ops ih =>
    intro s L inv
    obtain ⟨k, v, flips⟩ := op
    obtain ⟨s1, L1, e1, i1, a1⟩ := skiplist_put_spec s L inv k v flips
    obtain ⟨s2, L2, e2, i2, a2⟩ := ih s1 L1 i1
    refine ⟨s2, L2, ?_, i2, ?_⟩
    · simp only [putAll, e1, e2]
    · rw [a2, a1]; rfl

theorem absGet_foldl (ops : List (Bytes × Bytes × List Bool)) (q : Bytes) :
    ∀ E : List (Bytes × Bytes),
      absGet (ops.foldl (fun E op => absPut op.1 op.2.1 E) E) q
        = ops.foldl (fun acc op => if op.1 = q then (op.2.1, true) else acc) (absGet E q) := by
  induction ops with
  | nil => intro E; rfl
  | cons op ops ih =>
    intro E
    simp only [List.foldl_cons]
    rw [ih, absGet_absPut]

theorem mem_keys_absPut (k v : Bytes) (E : List (Bytes × Bytes)) (q : Bytes) :
    q ∈ (absPut k v E).map Prod.fst ↔ q = k ∨ q ∈ E.map Prod.fst := by
  induction E with
  | nil => simp [absPut]
  | cons e E ih =>
    obtain ⟨k1, v1⟩ := e
    simp only [absPut]
    split
    · simp only [List.map_cons, List.mem_cons, ih]
      tauto
    · split
      · rename_i h; subst h; simp
      · simp

theorem mem_keys_foldl (ops : List (Bytes × Bytes × List Bool)) (q : Bytes) :
    ∀ E : List (Bytes × Bytes),
      q ∈ (ops.foldl (fun E op => absPut op.1 op.2.1 E) E).map Prod.fst
        ↔ q ∈ ops.map (fun op => op.1) ∨ q ∈ E.map Prod.fst := by
  induction ops with
  | nil => intro E; simp
  | cons op ops ih =>
    intro E
    simp only [List.foldl_cons, ih, mem_keys_absPut, List.map_cons, List.mem_cons]
    tauto
/-! ## SSTable writer: the bytes of the file -/

theorem putUint64_mod (n : Nat) : putUint64 (n % 2 ^ 64) = putUint64 n := by
  simp only [putUint64, toByte, Fin.ofNat]
  simp only [List.cons.injEq, Fin.mk.injEq, and_true]
  refine ⟨?_, ?_, ?_, ?_, ?_, ?_, ?_, ?_⟩ <;> omega

theorem asUint64_natCast (n : Nat) : asUint64 (n : Int) = n % 2 ^ 64 := by
  unfold asUint64
  have : ((n : Int) % 2 ^ 64) = ((n % 2 ^ 64 : Nat) : Int) := by
    push_cast; rfl
  rw [this, Int.toNat_ofNat]

theorem recordBytes_length (r : Record) :
    (recordBytes r).length = 9 + r.key.length + r.value.length := by
  simp [recordBytes, putUint32]
  omega

theorem writeIndex_indexOf (rs : List Record) :
    ∀ (off : Nat) (file : Bytes),
      writeIndex (indexOf rs off) file = file ++ indexSection rs off := by
  induction rs with
  | nil => intro off file; simp [indexOf, writeIndex, indexSection]
  | cons r rs ih =>
    intro off file
    simp only [indexOf, writeIndex, indexSection, ih, asUint64_natCast, putUint64_mod,
      List.append_assoc]

theorem writePairs_spec (rs : List Record) :
    ∀ w : Writer, writePairs w rs
      = ⟨w.file ++ dataSection rs, w.index ++ indexOf rs w.file.length⟩ := by
  induction rs with
  | nil => intro w; simp [writePairs, dataSection, indexOf]
  | cons r rs ih =>
    intro w
    rw [writePairs, ih]
    have hlen : (w.WritePair r.key r.value r.entryType).file.length
        = w.file.length + (9 + r.key.length + r.value.length) := by
      simp [Writer.WritePair, putUint32]
      omega
    rw [hlen]
    simp [Writer.WritePair, dataSection, recordBytes, indexOf, List.append_assoc]

theorem writer_layout (rs : List Record) : (writePairs NewWriter rs).Close = sstLayout rs := by
  rw [writePairs_spec]
  simp only [Writer.Close, NewWriter, List.nil_append, List.length_nil, writeIndex_indexOf,
    asUint64_natCast, putUint64_mod, sstLayout]
/-! ## SSTable reader: loading the index -/

theorem slice_at (pre X post : Bytes) :
    ((pre ++ (X ++ post)).drop pre.length).take X.length = X := by
  rw [List.drop_left, List.take_left]

theorem binaryRead_at (pre X post : Bytes) :
    binaryRead (pre ++ (X ++ post)) pre.length X.length
      = (leValue X, pre.length + X.length, none) := by
  unfold binaryRead
  simp only [slice_at, if_true]

theorem capRead_small (v : Bytes) (h : v.length ≤ maxRW) : capRead v = v := by
  unfold capRead
  rw [List.take_of_length_le h, Nat.sub_eq_zero_of_le h]
  simp

theorem capRead_length (v : Bytes) : (capRead v).length = v.length := by
  unfold capRead
  rw [List.length_append, List.length_take, List.length_replicate]
  omega

theorem capRead_idem (v : Bytes) : capRead (capRead v) = capRead v := by
  by_cases h : v.length ≤ maxRW
  · rw [capRead_small v h]
    exact capRead_small v h
  · have hl := capRead_length v
    have ht : (capRead v).take maxRW = v.take maxRW := by
      unfold capRead
      rw [List.take_append_of_le_length (by rw [List.length_take]; omega),
        List.take_take, Nat.min_self]
    show (capRead v).take maxRW ++ List.replicate ((capRead v).length - maxRW) 0 = capRead v
    rw [ht, hl]
    rfl

theorem small_lt {n : Nat} (h : n ≤ maxRW) : n < 2 ^ 32 := by
  unfold maxRW at h
  omega

theorem fileRead_cap (pre X post : Bytes) :
    fileRead (pre ++ (X ++ post)) pre.length X.length
      = (capRead X, min X.length maxRW, none) := by
  unfold fileRead
  by_cases h0 : X.length = 0
  · have : X = [] := List.length_eq_zero.mp h0
    subst this
    simp [capRead]
  · rw [if_neg h0]
    have hlt : ¬ (pre ++ (X ++ post)).length ≤ pre.length := by
      simp only [List.length_append]; omega
    rw [if_neg hlt]
    have hgot : ((pre ++ (X ++ post)).drop pre.length).take (min X.length maxRW)
        = X.take maxRW := by
      rw [List.drop_left, List.take_append_of_le_length (Nat.min_le_left _ _)]
      by_cases hc : X.length ≤ maxRW
      · rw [Nat.min_eq_left hc, List.take_of_length_le (le_refl _), List.take_of_length_le hc]
      · rw [Nat.min_eq_right (by omega)]
    simp only [hgot, List.length_take, capRead]
    have hsub : X.length - min maxRW X.length = X.length - maxRW := by omega
    rw [hsub, Nat.min_comm]

theorem fileRead_at (pre X post : Bytes) (hX : X.length ≤ maxRW) :
    fileRead (pre ++ (X ++ post)) pre.length X.length = (X, X.length, none) := by
  rw [fileRead_cap, capRead_small X hX, Nat.min_eq_left hX]

theorem fileSeek_in (file : Bytes) (n : Nat) (h : n ≤ file.length) :
    fileSeek file (n : Int) = .ok (some n) := by
  unfold fileSeek
  rw [if_neg (by omega), Int.toNat_ofNat, if_pos h]

theorem asInt64_small (n : Nat) (h : n < 2 ^ 63) : asInt64 n = (n : Int) := by
  unfold asInt64
  have h1 : n % 2 ^ 64 = n := Nat.mod_eq_of_lt (by omega)
  rw [h1, if_pos h]

theorem asUint32_small (n : Nat) (h : n < 2 ^ 32) : asUint32 n = n := by
  unfold asUint32
  exact Nat.mod_eq_of_lt h

theorem dataSection_length_cons (r : Record) (rs : List Record) :
    (dataSection (r :: rs)).length = 9 + r.key.length + r.value.length + (dataSection rs).length := by
  simp [dataSection, recordBytes_length]

theorem loadIndexLoop_spec (footer : Bytes) (hfoot : footer.length = 8) (rs : List Record) :
    ∀ (off : Nat) (pre : Bytes) (acc : List IndexEntry) (fuel : Nat),
      (∀ r ∈ rs, r.key.length ≤ maxRW) → off + (dataSection rs).length < 2 ^ 63 →
      rs.length < fuel →
      loadIndexLoop (pre ++ (indexSection rs off ++ footer)) fuel pre.length acc
        = .ok (acc ++ indexOf rs off) := by
  induction rs with
  | nil =>
    intro off pre acc fuel _ _ hf
    cases fuel with
    | zero => simp at hf
    | succ f =>
      obtain ⟨F1, F2, hF, hF1⟩ : ∃ F1 F2 : Bytes, footer = F1 ++ F2 ∧ F1.length = 4 :=
        ⟨footer.take 4, footer.drop 4, (List.take_append_drop 4 footer).symm, by simp [hfoot]⟩
      have hF2 : F2.length = 4 := by
        have := congrArg List.length hF
        simp only [List.length_append] at this
        omega
      have hread : binaryRead (pre ++ (indexSection [] off ++ footer)) pre.length 4
          = (leValue F1, pre.length + 4, none) := by
        have := binaryRead_at pre F1 F2
        rw [hF1] at this
        simpa [indexSection, hF] using this
      rw [loadIndexLoop, hread]
      have hlen : (pre ++ (indexSection [] off ++ footer)).length = pre.length + 8 := by
        simp [indexSection, hfoot]
      simp only [hlen, indexOf, List.append_nil]
      rw [if_pos (by push_cast; omega)]
  | cons r rs ih =>
    intro off pre acc fuel hk hsz hf
    cases fuel with
    | zero => simp at hf
    | succ f =>
      have hks := hk r (List.mem_cons_self _ _)
      have hkl : r.key.length < 2 ^ 32 := by
        unfold maxRW at hks
        omega
      rw [dataSection_length_cons] at hsz
      -- the file, with the entry of `r` split into its three fields
      have hfile : pre ++ (indexSection (r :: rs) off ++ footer)
          = pre ++ (putUint32 (asUint32 r.key.length) ++ (putUint64 off ++ (r.key ++
              (indexSection rs (off + (9 + r.key.length + r.value.length)) ++ footer)))) := by
        simp [indexSection, List.append_assoc]
      have hfile2 : pre ++ (indexSection (r :: rs) off ++ footer)
          = (pre ++ putUint32 (asUint32 r.key.length)) ++ (putUint64 off ++ (r.key ++
              (indexSection rs (off + (9 + r.key.length + r.value.length)) ++ footer))) := by
        simp [indexSection, List.append_assoc]
      have hfile3 : pre ++ (indexSection (r :: rs) off ++ footer)
          = (pre ++ putUint32 (asUint32 r.key.length) ++ putUint64 off) ++ (r.key ++
              (indexSection rs (off + (9 + r.key.length + r.value.length)) ++ footer)) := by
        simp [indexSection, List.append_assoc]
      have hfile4 : pre ++ (indexSection (r :: rs) off ++ footer)
          = (pre ++ putUint32 (asUint32 r.key.length) ++ putUint64 off ++ r.key) ++
              (indexSection rs (off + (9 + r.key.length + r.value.length)) ++ footer) := by
        simp [indexSection, List.append_assoc]
      have hr1 : binaryRead (pre ++ (indexSection (r :: rs) off ++ footer)) pre.length 4
          = (r.key.length, pre.length + 4, none) := by
        have := binaryRead_at pre (putUint32 (asUint32 r.key.length)) (putUint64 off ++ (r.key ++
              (indexSection rs (off + (9 + r.key.length + r.value.length)) ++ footer)))
        rw [← hfile, putUint32_length, asUint32_small _ hkl, leValue_putUint32 _ hkl] at this
        exact this
      have hr2 : binaryRead (pre ++ (indexSection (r :: rs) off ++ footer)) (pre.length + 4) 8
          = (off, pre.length + 4 + 8, none) := by
        have := binaryRead_at (pre ++ putUint32 (asUint32 r.key.length)) (putUint64 off) (r.key ++
              (indexSection rs (off + (9 + r.key.length + r.value.length)) ++ footer))
        rw [← hfile2, putUint64_length, leValue_putUint64 _ (by omega)] at this
        simpa [putUint32_length] using this
      have hr3 : fileRead (pre ++ (indexSection (r :: rs) off ++ footer)) (pre.length + 4 + 8)
          r.key.length = (r.key, r.key.length, none) := by
        have := fileRead_at (pre ++ putUint32 (asUint32 r.key.length) ++ putUint64 off) r.key
              (indexSection rs (off + (9 + r.key.length + r.value.length)) ++ footer) hks
        rw [← hfile3] at this
        simpa [putUint32_length, putUint64_length] using this
      have hlen : (pre ++ (indexSection (r :: rs) off ++ footer)).length
          = pre.length + 4 + 8 + r.key.length
            + (indexSection rs (off + (9 + r.key.length + r.value.length))).length + 8 := by
        rw [hfile]
        simp [putUint32_length, putUint64_length, hfoot]
        omega
      have hpos : (pre ++ putUint32 (asUint32 r.key.length) ++ putUint64 off ++ r.key).length
          = pre.length + 4 + 8 + r.key.length := by
        simp [putUint32_length, putUint64_length]
        omega
      have hrec := ih (off + (9 + r.key.length + r.value.length))
        (pre ++ putUint32 (asUint32 r.key.length) ++ putUint64 off ++ r.key)
        (acc ++ [⟨r.key, asInt64 off⟩]) f
        (fun r1 h1 => hk r1 (List.mem_cons_of_mem _ h1)) (by omega) (by simpa using hf)
      rw [← hfile4, hpos] at hrec
      rw [loadIndexLoop, hr1]
      simp only [hlen]
      rw [if_neg (by push_cast; omega), hr2]
      simp only [hr3, hrec]
      rw [asInt64_small off (by omega)]
      simp [indexOf]
theorem length_le_dataSection (rs : List Record) : rs.length ≤ (dataSection rs).length := by
  induction rs with
  | nil => simp
  | cons r rs ih =>
    rw [dataSection_length_cons]
    simp only [List.length_cons]
    omega

theorem Open_layout (rs : List Record) (hk : ∀ r ∈ rs, r.key.length ≤ maxRW)
    (hsz : (dataSection rs).length < 2 ^ 63) :
    Open (sstLayout rs) = .ok (.ok ⟨sstLayout rs, indexOf rs 0⟩) := by
  have hfoot : (putUint64 (dataSection rs).length).length = 8 := rfl
  have hlen : (sstLayout rs).length
      = (dataSection rs).length + (indexSection rs 0).length + 8 := by
    simp [sstLayout, hfoot]
    omega
  have hread : binaryRead (sstLayout rs) ((sstLayout rs).length - 8) 8
      = ((dataSection rs).length, (sstLayout rs).length - 8 + 8, none) := by
    have := binaryRead_at (dataSection rs ++ indexSection rs 0)
      (putUint64 (dataSection rs).length) []
    rw [hfoot, leValue_putUint64 _ (by omega)] at this
    have e1 : (sstLayout rs).length - 8 = (dataSection rs ++ indexSection rs 0).length := by
      rw [hlen]; simp
    rw [e1]
    simpa [sstLayout] using this
  have hloop := loadIndexLoop_spec (putUint64 (dataSection rs).length) hfoot rs 0
    (dataSection rs) [] ((sstLayout rs).length + 1) hk (by omega)
    (by have := length_le_dataSection rs; omega)
  have hfile : dataSection rs ++ (indexSection rs 0 ++ putUint64 (dataSection rs).length)
      = sstLayout rs := by simp [sstLayout]
  rw [hfile] at hloop
  unfold Open loadIndex
  rw [if_neg (by omega), hread]
  simp only [asInt64_small _ hsz]
  rw [fileSeek_in _ _ (by omega)]
  simp only [hloop, List.nil_append]

/-! ## SSTable reader: the binary search -/

theorem pairwise_get {α : Type} {R : α → α → Prop} {l : List α} (h : l.Pairwise R)
    {i j : Nat} {a b : α} (hij : i < j) (ha : l[i]? = some a) (hb : l[j]? = some b) : R a b := by
  rw [List.pairwise_iff_getElem] at h
  obtain ⟨hi, rfl⟩ := List.getElem?_eq_some.mp ha
  obtain ⟨hj, rfl⟩ := List.getElem?_eq_some.mp hb
  exact h i j hi hj hij

theorem search_spec (index : List IndexEntry) (key : Bytes)
    (hs : index.Pairwise (fun a b => bytesCompare a.key b.key < 0)) :
    ∀ (fuel : Nat) (low high : Int), 0 ≤ low → high < index.length → high - low + 1 ≤ fuel →
      (∀ (j : Nat) (e : IndexEntry), low ≤ j → (j : Int) ≤ high → index[j]? = some e →
          e.key = key → search index key fuel low high = .ok (some e)) ∧
      ((∀ (j : Nat) (e : IndexEntry), low ≤ j → (j : Int) ≤ high → index[j]? = some e →
          e.key ≠ key) → search index key fuel low high = .ok none) := by
  intro fuel
  induction fuel with
  | zero =>
    intro low high _ _ hf
    have hlt : ¬ low ≤ high := by omega
    refine ⟨?_, ?_⟩
    · intro j e h1 h2 _ _
      omega
    · intro _
      simp [search, hlt]
  | succ f ih =>
    intro low high hlow hhigh hf
    by_cases hle : low ≤ high
    · have hmid1 : low ≤ low + (high - low) / 2 := by omega
      have hmid2 : low + (high - low) / 2 ≤ high := by omega
      have hmid0 : ¬ low + (high - low) / 2 < 0 := by omega
      have hmidlt : (low + (high - low) / 2).toNat < index.length := by omega
      obtain ⟨em, hem⟩ : ∃ em, index[(low + (high - low) / 2).toNat]? = some em :=
        ⟨_, List.getElem?_eq_getElem hmidlt⟩
      have hunfold : search index key (f + 1) low high
          = if bytesCompare em.key key = 0 then .ok (some em)
            else if bytesCompare em.key key < 0 then
              search index key f (low + (high - low) / 2 + 1) high
            else search index key f low (low + (high - low) / 2 - 1) := by
        rw [search, if_pos hle]
        simp only [hmid0, if_false, hem]
      rw [hunfold]
      by_cases hc0 : bytesCompare em.key key = 0
      · rw [if_pos hc0]
        have hek : em.key = key := bytesCompare_eq_zero hc0
        refine ⟨?_, ?_⟩
        · intro j e _ _ hj hkey
          rcases Nat.lt_trichotomy j (low + (high - low) / 2).toNat with h | h | h
          · have := pairwise_get hs h hj hem
            rw [hkey, hek] at this
            exact absurd this (bytesCompare_irrefl key)
          · rw [h, hem] at hj
            rw [Option.some.inj hj]
          · have := pairwise_get hs h hem hj
            rw [hkey, hek] at this
            exact absurd this (bytesCompare_irrefl key)
        · intro hno
          exact absurd hek (hno _ em (by omega) (by omega) hem)
      · rw [if_neg hc0]
        by_cases hclt : bytesCompare em.key key < 0
        · rw [if_pos hclt]
          obtain ⟨ih1, ih2⟩ := ih (low + (high - low) / 2 + 1) high (by omega) hhigh (by omega)
          refine ⟨?_, ?_⟩
          · intro j e h1 h2 hj hkey
            have hjm : (low + (high - low) / 2).toNat < j := by
              by_contra hcon
              rcases Nat.lt_or_eq_of_le (Nat.le_of_not_lt hcon) with h | h
              · have := pairwise_get hs h hj hem
                rw [hkey] at this
                exact bytesCompare_asymm this hclt
              · rw [h, hem] at hj
                rw [← Option.some.inj hj] at hkey
                rw [hkey] at hclt
                exact bytesCompare_irrefl key hclt
            exact ih1 j e (by omega) h2 hj hkey
          · intro hno
            exact ih2 (fun j e h1 h2 hj => hno j e (by omega) h2 hj)
        · rw [if_neg hclt]
          have hcgt : bytesCompare key em.key < 0 := by
            rw [bytesCompare_flip]; omega
          obtain ⟨ih1, ih2⟩ := ih low (low + (high - low) / 2 - 1) hlow (by omega) (by omega)
          refine ⟨?_, ?_⟩
          · intro j e h1 h2 hj hkey
            have hjm : j < (low + (high - low) / 2).toNat := by
              by_contra hcon
              rcases Nat.lt_or_eq_of_le (Nat.le_of_not_lt hcon) with h | h
              · have := pairwise_get hs h hem hj
                rw [hkey] at this
                exact bytesCompare_asymm this hcgt
              · rw [← h, hem] at hj
                rw [← Option.some.inj hj] at hkey
                rw [hkey] at hcgt
                exact bytesCompare_irrefl key hcgt
            exact ih1 j e h1 (by omega) hj hkey
          · intro hno
            exact ih2 (fun j e h1 h2 hj => hno j e h1 (by omega) hj)
    · refine ⟨?_, ?_⟩
      · intro j e h1 h2 _ _
        omega
      · intro _
        rw [search, if_neg hle]
/-! ## SSTable reader: `Get` on a well-formed file -/

theorem indexOf_get (rs : List Record) :
    ∀ (off j : Nat) (e : IndexEntry), (indexOf rs off)[j]? = some e →
      ∃ r D1 D2, rs[j]? = some r ∧ e = ⟨r.key, ((off + D1.length : Nat) : Int)⟩ ∧
        dataSection rs = D1 ++ (recordBytes r ++ D2) := by
  induction rs with
  | nil => intro off j e h; simp [indexOf] at h
  | cons r rs ih =>
    intro off j e h
    cases j with
    | zero =>
      simp only [indexOf, List.getElem?_cons_zero, Option.some.injEq] at h
      exact ⟨r, [], dataSection rs, by simp, by simp [← h], by simp [dataSection]⟩
    | succ j =>
      simp only [indexOf, List.getElem?_cons_succ] at h
      obtain ⟨r1, D1, D2, h1, h2, h3⟩ := ih _ j e h
      refine ⟨r1, recordBytes r ++ D1, D2, by simpa using h1, ?_, ?_⟩
      · rw [h2]
        simp only [List.length_append, recordBytes_length]
        congr 1
        push_cast
        omega
      · simp [dataSection, h3, List.append_assoc]

theorem indexOf_keys (rs : List Record) :
    ∀ off, (indexOf rs off).map (fun e => e.key) = rs.map (fun r => r.key) := by
  induction rs with
  | nil => intro off; rfl
  | cons r rs ih => intro off; simp [indexOf, ih]

theorem indexOf_length (rs : List Record) (off : Nat) : (indexOf rs off).length = rs.length := by
  have := congrArg List.length (indexOf_keys rs off)
  simpa using this

theorem indexOf_sorted (rs : List Record) (off : Nat)
    (hs : rs.Pairwise (fun a b => bytesCompare a.key b.key < 0)) :
    (indexOf rs off).Pairwise (fun a b => bytesCompare a.key b.key < 0) := by
  have h1 : (rs.map (fun r => r.key)).Pairwise (fun a b => bytesCompare a b < 0) := by
    rw [List.pairwise_map]; exact hs
  rw [← indexOf_keys rs off, List.pairwise_map] at h1
  exact h1

theorem recGet_of_mem (rs : List Record)
    (hs : rs.Pairwise (fun a b => bytesCompare a.key b.key < 0)) (r : Record) (hr : r ∈ rs) :
    recGet rs r.key
      = if r.entryType = 1 then ([], false, none) else (capRead r.value, true, none) := by
  induction rs with
  | nil => cases hr
  | cons a rs ih =>
    rw [List.pairwise_cons] at hs
    rcases List.mem_cons.mp hr with e | e
    · subst e
      simp [recGet]
    · have hne : a.key ≠ r.key := by
        intro h
        have := hs.1 r e
        rw [h] at this
        exact bytesCompare_irrefl _ this
      rw [recGet, if_neg hne]
      exact ih hs.2 e

theorem recGet_of_not_mem (rs : List Record) (q : Bytes) (h : ∀ r ∈ rs, r.key ≠ q) :
    recGet rs q = ([], false, none) := by
  induction rs with
  | nil => rfl
  | cons a rs ih =>
    rw [recGet, if_neg (h a (List.mem_cons_self _ _))]
    exact ih (fun r hr => h r (List.mem_cons_of_mem _ hr))

theorem readEntry_record (file D1 rest : Bytes) (index : List IndexEntry) (r : Record)
    (hfile : file = D1 ++ (recordBytes r ++ rest))
    (hk : r.key.length < 2 ^ 32) (hv : r.value.length < 2 ^ 32) :
    (⟨file, index⟩ : Reader).readEntry ⟨r.key, ((D1.length : Nat) : Int)⟩
      = .ok (if r.entryType = 1 then ([], false, none) else (capRead r.value, true, none)) := by
  have hflen : file.length = D1.length + (9 + r.key.length + r.value.length) + rest.length := by
    rw [hfile]
    simp only [List.length_append, recordBytes_length]
    omega
  have hhead : fileRead file D1.length 9
      = ([r.entryType] ++ putUint32 (asUint32 r.key.length)
          ++ putUint32 (asUint32 r.value.length), 9, none) := by
    have := fileRead_at D1 ([r.entryType] ++ putUint32 (asUint32 r.key.length)
          ++ putUint32 (asUint32 r.value.length)) (r.key ++ (r.value ++ rest))
          (by simp [putUint32_length, maxRW])
    have e : D1 ++ ([r.entryType] ++ putUint32 (asUint32 r.key.length)
          ++ putUint32 (asUint32 r.value.length) ++ (r.key ++ (r.value ++ rest))) = file := by
      rw [hfile]; simp [recordBytes, List.append_assoc]
    rw [e] at this
    simpa [putUint32_length] using this
  have hval : fileRead file (D1.length + 9 + r.key.length) r.value.length
      = (capRead r.value, min r.value.length maxRW, none) := by
    have := fileRead_cap (D1 ++ ([r.entryType] ++ putUint32 (asUint32 r.key.length)
          ++ putUint32 (asUint32 r.value.length)) ++ r.key) r.value rest
    have e : D1 ++ ([r.entryType] ++ putUint32 (asUint32 r.key.length)
          ++ putUint32 (asUint32 r.value.length)) ++ r.key ++ (r.value ++ rest) = file := by
      rw [hfile]; simp [recordBytes, List.append_assoc]
    rw [e] at this
    have e2 : (D1 ++ ([r.entryType] ++ putUint32 (asUint32 r.key.length)
          ++ putUint32 (asUint32 r.value.length)) ++ r.key).length
        = D1.length + 9 + r.key.length := by
      simp [putUint32_length]; omega
    rw [e2] at this
    exact this
  have hkl : leValue ((([r.entryType] ++ putUint32 (asUint32 r.key.length)
      ++ putUint32 (asUint32 r.value.length)).drop 1).take 4) = r.key.length := by
    have : (([r.entryType] ++ putUint32 (asUint32 r.key.length)
      ++ putUint32 (asUint32 r.value.length)).drop 1).take 4
        = putUint32 (asUint32 r.key.length) := by
      simp [putUint32]
    rw [this, asUint32_small _ hk, leValue_putUint32 _ hk]
  have hvl : leValue ((([r.entryType] ++ putUint32 (asUint32 r.key.length)
      ++ putUint32 (asUint32 r.value.length)).drop 5).take 4) = r.value.length := by
    have : (([r.entryType] ++ putUint32 (asUint32 r.key.length)
      ++ putUint32 (asUint32 r.value.length)).drop 5).take 4
        = putUint32 (asUint32 r.value.length) := by
      simp [putUint32]
    rw [this, asUint32_small _ hv, leValue_putUint32 _ hv]
  have hty : ([r.entryType] ++ putUint32 (asUint32 r.key.length)
      ++ putUint32 (asUint32 r.value.length)).getD 0 0 = r.entryType := by
    simp
  unfold Reader.readEntry
  simp only
  rw [fileSeek_in file D1.length (by omega)]
  simp only [hhead, hkl, hvl, hty]
  by_cases ht : r.entryType = 1
  · rw [if_pos ht, if_pos ht]
  · rw [if_neg ht, if_neg ht, fileSeek_in file (D1.length + 9 + r.key.length) (by omega)]
    simp only [hval]

theorem reader_get_layout (rs : List Record) (hv : ValidRecords rs) (q : Bytes) :
    (⟨sstLayout rs, indexOf rs 0⟩ : Reader).Get q = .ok (recGet rs q) := by
  have hsorted := indexOf_sorted rs 0 hv.sorted
  obtain ⟨sp1, sp2⟩ := search_spec (indexOf rs 0) q hsorted (indexOf rs 0).length 0
    (((indexOf rs 0).length : Int) - 1) (le_refl 0) (by omega) (by omega)
  unfold Reader.Get
  by_cases hex : ∃ (j : Nat) (e : IndexEntry), (indexOf rs 0)[j]? = some e ∧ e.key = q
  · obtain ⟨j, e, hj, hkey⟩ := hex
    have hjlt : j < (indexOf rs 0).length := (List.getElem?_eq_some.mp hj).1
    have hs := sp1 j e (by omega) (by omega) hj hkey
    simp only [hs]
    obtain ⟨r, D1, D2, hr, he, hD⟩ := indexOf_get rs 0 j e hj
    have hrm : r ∈ rs := List.getElem?_mem hr
    have hrk : r.key = q := by rw [he] at hkey; exact hkey
    have hfile : sstLayout rs
        = D1 ++ (recordBytes r ++ (D2 ++ indexSection rs 0 ++ putUint64 (dataSection rs).length)) := by
      simp [sstLayout, hD, List.append_assoc]
    have hread := readEntry_record (sstLayout rs) D1 _ (indexOf rs 0) r hfile
      (hv.keyLen r hrm) (hv.valueLen r hrm)
    rw [he]
    simp only [Nat.zero_add]
    rw [hread, ← hrk, recGet_of_mem rs hv.sorted r hrm]
  · have hno : ∀ (j : Nat) (e : IndexEntry), (0 : Int) ≤ j →
        (j : Int) ≤ ((indexOf rs 0).length : Int) - 1 → (indexOf rs 0)[j]? = some e →
        e.key ≠ q := by
      intro j e _ _ hj hk
      exact hex ⟨j, e, hj, hk⟩
    simp only [sp2 hno]
    rw [recGet_of_not_mem]
    intro r hr hk
    obtain ⟨j, hj⟩ := List.getElem?_of_mem hr
    have hjlt : j < rs.length := (List.getElem?_eq_some.mp hj).1
    have hjlt2 : j < (indexOf rs 0).length := by rw [indexOf_length]; exact hjlt
    have hkeys := indexOf_keys rs 0
    have : ((indexOf rs 0).map (fun e => e.key))[j]? = (rs.map (fun r => r.key))[j]? := by
      rw [hkeys]
    simp only [List.getElem?_map, hj, Option.map_some'] at this
    cases he : (indexOf rs 0)[j]? with
    | none => simp [he] at this
    | some e =>
      simp only [he, Option.map_some', Option.some.injEq] at this
      exact hex ⟨j, e, he, this.trans hk⟩
/-! ## Engine: the merge of `Compact` -/

theorem mapFind_mapSet (m : GoMap) (k v q : Bytes) :
    mapFind (mapSet m k v) q = if k = q then some v else mapFind m q := by
  induction m with
  | nil => simp [mapSet, mapFind]
  | cons e m ih =>
    obtain ⟨k1, v1⟩ := e
    simp only [mapSet]
    by_cases h1 : k1 = k
    · subst h1
      rw [if_pos rfl]
      simp only [mapFind]
      by_cases hq : k1 = q <;> simp [hq]
    · rw [if_neg h1]
      simp only [mapFind, ih]
      by_cases hq : k1 = q
      · have : ¬ k = q := fun e => h1 (hq.trans e.symm)
        simp [hq, this]
      · simp [hq]

theorem mapGet_of_find (m : GoMap) (q v : Bytes) (h : mapFind m q = some v) : mapGet m q = v := by
  induction m with
  | nil => simp [mapFind] at h
  | cons e m ih =>
    obtain ⟨k1, v1⟩ := e
    simp only [mapFind] at h
    simp only [mapGet]
    by_cases hq : k1 = q
    · rw [if_pos hq] at h ⊢
      exact Option.some.inj h
    · rw [if_neg hq] at h ⊢
      exact ih h

theorem mapFind_isSome_iff (m : GoMap) (q : Bytes) :
    (∃ v, mapFind m q = some v) ↔ q ∈ m.map Prod.fst := by
  induction m with
  | nil => simp [mapFind]
  | cons e m ih =>
    obtain ⟨k1, v1⟩ := e
    simp only [mapFind, List.map_cons, List.mem_cons]
    by_cases hq : k1 = q
    · simp [hq]
    · rw [if_neg hq, ih]
      constructor
      · intro h; exact Or.inr h
      · intro h
        rcases h with h | h
        · exact absurd h.symm hq
        · exact h

theorem mapFind_mem (m : GoMap) (q v : Bytes) (h : mapFind m q = some v) : (q, v) ∈ m := by
  induction m with
  | nil => simp [mapFind] at h
  | cons e m ih =>
    obtain ⟨k1, v1⟩ := e
    simp only [mapFind] at h
    by_cases hq : k1 = q
    · rw [if_pos hq] at h
      rw [← hq, ← Option.some.inj h]
      exact List.mem_cons_self _ _
    · rw [if_neg hq] at h
      exact List.mem_cons_of_mem _ (ih h)

theorem mem_keys_mapSet (m : GoMap) (k v q : Bytes) :
    q ∈ (mapSet m k v).map Prod.fst ↔ q = k ∨ q ∈ m.map Prod.fst := by
  rw [← mapFind_isSome_iff, ← mapFind_isSome_iff, mapFind_mapSet]
  by_cases h : k = q
  · simp [h]
  · simp only [if_neg h]
    constructor
    · intro hx; exact Or.inr hx
    · intro hx
      rcases hx with hx | hx
      · exact absurd hx.symm h
      · exact hx

theorem nodup_keys_mapSet (m : GoMap) (k v : Bytes) (h : (m.map Prod.fst).Nodup) :
    ((mapSet m k v).map Prod.fst).Nodup := by
  induction m with
  | nil => simp [mapSet]
  | cons e m ih =>
    obtain ⟨k1, v1⟩ := e
    simp only [List.map_cons, List.nodup_cons] at h
    simp only [mapSet]
    by_cases h1 : k1 = k
    · rw [if_pos h1]
      simp only [List.map_cons, List.nodup_cons]
      rw [← h1]
      exact h
    · rw [if_neg h1]
      simp only [List.map_cons, List.nodup_cons]
      refine ⟨?_, ih h.2⟩
      rw [mem_keys_mapSet]
      intro hx
      rcases hx with hx | hx
      · exact h1 hx
      · exact h.1 hx

theorem entriesSize_cons (e : Bytes × Bytes) (E : List (Bytes × Bytes)) :
    entriesSize (e :: E) = 9 + e.1.length + e.2.length + entriesSize E := by
  simp [entriesSize]

theorem entriesSize_mapSet (m : GoMap) (k v : Bytes) :
    entriesSize (mapSet m k v) ≤ entriesSize m + (9 + k.length + v.length) := by
  induction m with
  | nil => simp [mapSet, entriesSize]
  | cons e m ih =>
    obtain ⟨k1, v1⟩ := e
    simp only [mapSet]
    by_cases h1 : k1 = k
    · rw [if_pos h1]
      simp only [entriesSize_cons]
      omega
    · rw [if_neg h1]
      simp only [entriesSize_cons]
      omega

theorem mem_mapSet (m : GoMap) (k v : Bytes) (e : Bytes × Bytes) (h : e ∈ mapSet m k v) :
    e = (k, v) ∨ e ∈ m := by
  induction m with
  | nil => simp [mapSet] at h; exact Or.inl h
  | cons a m ih =>
    obtain ⟨k1, v1⟩ := a
    simp only [mapSet] at h
    by_cases h1 : k1 = k
    · rw [if_pos h1] at h
      rcases List.mem_cons.mp h with h | h
      · exact Or.inl h
      · exact Or.inr (List.mem_cons_of_mem _ h)
    · rw [if_neg h1] at h
      rcases List.mem_cons.mp h with h | h
      · exact Or.inr (h ▸ List.mem_cons_self _ _)
      · rcases ih h with h | h
        · exact Or.inl h
        · exact Or.inr (List.mem_cons_of_mem _ h)

theorem recGet_found (rs : List Record) (q v : Bytes) (e : Option IOErr)
    (h : recGet rs q = (v, true, e)) :
    ∃ r ∈ rs, r.key = q ∧ capRead r.value = v ∧ e = none := by
  induction rs with
  | nil => simp [recGet] at h
  | cons a rs ih =>
    simp only [recGet] at h
    by_cases hk : a.key = q
    · rw [if_pos hk] at h
      by_cases ht : a.entryType = 1
      · rw [if_pos ht] at h
        simp at h
      · rw [if_neg ht] at h
        simp only [Prod.mk.injEq, true_and] at h
        exact ⟨a, List.mem_cons_self _ _, hk, h.1, h.2.symm⟩
    · rw [if_neg hk] at h
      obtain ⟨r, hr, h1, h2, h3⟩ := ih h
      exact ⟨r, List.mem_cons_of_mem _ hr, h1, h2, h3⟩

theorem recGet_capped (rs : List Record) (q v : Bytes) (e : Option IOErr)
    (h : recGet rs q = (v, true, e)) : capRead v = v := by
  obtain ⟨r, _, _, hv, _⟩ := recGet_found rs q v e h
  rw [← hv, capRead_idem]

theorem loadKeys_find (rs : List Record) (ks : List Bytes) :
    ∀ (m : GoMap) (q : Bytes), mapFind (loadKeys rs ks m) q
      = if q ∈ ks ∧ (recGet rs q).2.1 = true then some (recGet rs q).1 else mapFind m q := by
  induction ks with
  | nil => intro m q; simp [loadKeys]
  | cons k ks ih =>
    intro m q
    rw [loadKeys]
    rcases hres : recGet rs k with ⟨val, found, err⟩
    cases found with
    | true =>
      simp only
      rw [ih, mapFind_mapSet]
      by_cases hq : k = q
      · subst hq
        simp [hres]
      · have hq2 : ¬ q = k := fun e => hq e.symm
        simp [hq, hq2]
    | false =>
      simp only
      rw [ih]
      by_cases hq : k = q
      · subst hq
        simp [hres]
      · have hq2 : ¬ q = k := fun e => hq e.symm
        simp [hq2]

theorem loadKeys_nodup (rs : List Record) (ks : List Bytes) :
    ∀ m : GoMap, (m.map Prod.fst).Nodup → ((loadKeys rs ks m).map Prod.fst).Nodup := by
  induction ks with
  | nil => intro m h; exact h
  | cons k ks ih =>
    intro m h
    rw [loadKeys]
    rcases hres : recGet rs k with ⟨val, found, err⟩
    cases found with
    | true => exact ih _ (nodup_keys_mapSet m k val h)
    | false => exact ih _ h

theorem loadKeys_inv (P : Bytes × Bytes → Prop) (rs : List Record)
    (hP : ∀ r ∈ rs, P (r.key, capRead r.value)) (ks : List Bytes) :
    ∀ m : GoMap, (∀ e ∈ m, P e) → ∀ e ∈ loadKeys rs ks m, P e := by
  induction ks with
  | nil => intro m h; exact h
  | cons k ks ih =>
    intro m h
    rw [loadKeys]
    rcases hres : recGet rs k with ⟨val, found, err⟩
    cases found with
    | true =>
      apply ih
      intro e he
      rcases mem_mapSet m k val e he with h1 | h1
      · obtain ⟨r, hr, hk, hval, _⟩ := recGet_found rs k val err hres
        rw [h1, ← hk, ← hval]
        exact hP r hr
      · exact h e h1
    | false => exact ih _ h

theorem loadKeys_bounds (rs : List Record) (hv : ValidRecords rs) (ks : List Bytes) :
    ∀ m : GoMap, (∀ e ∈ m, e.1.length < 2 ^ 32 ∧ e.2.length < 2 ^ 32) →
      ∀ e ∈ loadKeys rs ks m, e.1.length < 2 ^ 32 ∧ e.2.length < 2 ^ 32 := by
  induction ks with
  | nil => intro m h; exact h
  | cons k ks ih =>
    intro m h
    rw [loadKeys]
    rcases hres : recGet rs k with ⟨val, found, err⟩
    cases found with
    | true =>
      apply ih
      intro e he
      rcases mem_mapSet m k val e he with h1 | h1
      · obtain ⟨r, hr, hk, hval, _⟩ := recGet_found rs k val err hres
        rw [h1]
        refine ⟨hk ▸ hv.keyLen r hr, ?_⟩
        show val.length < 2 ^ 32
        rw [← hval, capRead_length]
        exact hv.valueLen r hr
      · exact h e h1
    | false => exact ih _ h

theorem loadKeys_size (rs : List Record)
    (hs : rs.Pairwise (fun a b => bytesCompare a.key b.key < 0)) (sub : List Record) :
    ∀ m : GoMap, (∀ r ∈ sub, r ∈ rs) →
      entriesSize (loadKeys rs (sub.map (fun r => r.key)) m)
        ≤ entriesSize m + (dataSection sub).length := by
  induction sub with
  | nil => intro m _; simp [loadKeys, dataSection]
  | cons r sub ih =>
    intro m hsub
    rw [List.map_cons, loadKeys, dataSection_length_cons]
    have hr := recGet_of_mem rs hs r (hsub r (List.mem_cons_self _ _))
    have hsub2 : ∀ r1 ∈ sub, r1 ∈ rs := fun r1 h1 => hsub r1 (List.mem_cons_of_mem _ h1)
    by_cases ht : r.entryType = 1
    · rw [if_pos ht] at hr
      rw [hr]
      simp only
      have := ih m hsub2
      omega
    · rw [if_neg ht] at hr
      rw [hr]
      simp only
      have h1 := ih (mapSet m r.key (capRead r.value)) hsub2
      have h2 := entriesSize_mapSet m r.key (capRead r.value)
      rw [capRead_length] at h2
      omega
theorem insertKey_perm (k : Bytes) (l : List Bytes) : (insertKey k l).Perm (k :: l) := by
  induction l with
  | nil => exact List.Perm.refl _
  | cons a l ih =>
    simp only [insertKey]
    split
    · exact List.Perm.refl _
    · exact (List.Perm.cons a ih).trans (List.Perm.swap k a l)

theorem sortStrings_perm (l : List Bytes) : (sortStrings l).Perm l := by
  induction l with
  | nil => exact List.Perm.refl _
  | cons a l ih => exact (insertKey_perm a _).trans (List.Perm.cons a ih)

theorem bytesCompare_le_trans {a b c : Bytes} (h1 : bytesCompare a b ≤ 0)
    (h2 : bytesCompare b c ≤ 0) : bytesCompare a c ≤ 0 := by
  rcases lt_or_eq_of_le h1 with h | h
  · rcases lt_or_eq_of_le h2 with h3 | h3
    · exact Int.le_of_lt (bytesCompare_trans h h3)
    · rw [← bytesCompare_eq_zero h3]; exact h1
  · rw [bytesCompare_eq_zero h]; exact h2

theorem insertKey_sorted (k : Bytes) (l : List Bytes)
    (h : l.Pairwise (fun a b => bytesCompare a b ≤ 0)) :
    (insertKey k l).Pairwise (fun a b => bytesCompare a b ≤ 0) := by
  induction l with
  | nil => simp [insertKey]
  | cons a l ih =>
    rw [List.pairwise_cons] at h
    simp only [insertKey]
    split
    · rename_i hka
      rw [List.pairwise_cons]
      refine ⟨?_, List.pairwise_cons.mpr h⟩
      intro b hb
      rcases List.mem_cons.mp hb with e | e
      · rw [e]; exact hka
      · exact bytesCompare_le_trans hka (h.1 b e)
    · rename_i hka
      have hak : bytesCompare a k ≤ 0 := by
        rw [bytesCompare_flip]; omega
      rw [List.pairwise_cons]
      refine ⟨?_, ih h.2⟩
      intro b hb
      rcases List.mem_cons.mp ((insertKey_perm k l).subset hb) with e | e
      · rw [e]; exact hak
      · exact h.1 b e

theorem sortStrings_sorted (l : List Bytes) :
    (sortStrings l).Pairwise (fun a b => bytesCompare a b ≤ 0) := by
  induction l with
  | nil => exact List.Pairwise.nil
  | cons a l ih => exact insertKey_sorted a _ ih

theorem sortStrings_strict (l : List Bytes) (hn : l.Nodup) :
    (sortStrings l).Pairwise (fun a b => bytesCompare a b < 0) := by
  have h1 := sortStrings_sorted l
  have h2 : (sortStrings l).Nodup := (sortStrings_perm l).nodup_iff.mpr hn
  have h3 : (sortStrings l).Pairwise (fun a b => a ≠ b) := h2
  refine (h1.and h3).imp ?_
  intro a b hab
  rcases lt_or_eq_of_le hab.1 with h | h
  · exact h
  · exact absurd (bytesCompare_eq_zero h) hab.2

theorem dataSection_length_map (E : List (Bytes × Bytes)) :
    (dataSection (E.map liveRecord)).length = entriesSize E := by
  induction E with
  | nil => rfl
  | cons e E ih =>
    rw [List.map_cons, dataSection_length_cons, ih, entriesSize_cons]
    rfl

theorem mergedRecords_eq (m : GoMap) :
    mergedRecords m
      = ((sortStrings (m.map Prod.fst)).map (fun k => (k, mapGet m k))).map liveRecord := by
  simp [mergedRecords, liveRecord]

theorem mapFind_of_mem (m : GoMap) (hn : (m.map Prod.fst).Nodup) (e : Bytes × Bytes)
    (he : e ∈ m) : mapFind m e.1 = some e.2 := by
  induction m with
  | nil => cases he
  | cons a m ih =>
    obtain ⟨k1, v1⟩ := a
    simp only [List.map_cons, List.nodup_cons] at hn
    simp only [mapFind]
    rcases List.mem_cons.mp he with h | h
    · rw [h]; simp
    · have hne : k1 ≠ e.1 := by
        intro hk
        apply hn.1
        rw [hk]
        exact List.mem_map_of_mem Prod.fst h
      rw [if_neg hne]
      exact ih hn.2 h

theorem map_keys_get (m : GoMap) (hn : (m.map Prod.fst).Nodup) :
    (m.map Prod.fst).map (fun k => (k, mapGet m k)) = m := by
  rw [List.map_map]
  conv_rhs => rw [← List.map_id m]
  apply List.map_congr_left
  intro e he
  have := mapGet_of_find m e.1 e.2 (mapFind_of_mem m hn e he)
  simp [this]

theorem mergedRecords_size (m : GoMap) (hn : (m.map Prod.fst).Nodup) :
    (dataSection (mergedRecords m)).length = entriesSize m := by
  rw [mergedRecords_eq, dataSection_length_map]
  have hp : ((sortStrings (m.map Prod.fst)).map (fun k => (k, mapGet m k))).Perm m := by
    have := (sortStrings_perm (m.map Prod.fst)).map (fun k => (k, mapGet m k))
    rw [map_keys_get m hn] at this
    exact this
  unfold entriesSize
  exact (hp.map _).sum_eq

theorem mergedRecords_mem (m : GoMap) (r : Record) (hr : r ∈ mergedRecords m) :
    (r.key, r.value) ∈ m := by
  simp only [mergedRecords, List.mem_map] at hr
  obtain ⟨k, hk, rfl⟩ := hr
  have hk2 : k ∈ m.map Prod.fst := (sortStrings_perm _).subset hk
  obtain ⟨v, hv⟩ := (mapFind_isSome_iff m k).mpr hk2
  rw [mapGet_of_find m k v hv]
  exact mapFind_mem m k v hv

theorem mergedRecords_valid (m : GoMap) (hn : (m.map Prod.fst).Nodup)
    (hb : ∀ e ∈ m, e.1.length < 2 ^ 32 ∧ e.2.length < 2 ^ 32)
    (hsz : entriesSize m < 2 ^ 63) : ValidRecords (mergedRecords m) := by
  have hmem : ∀ r ∈ mergedRecords m, (r.key, r.value) ∈ m := by
    intro r hr
    simp only [mergedRecords, List.mem_map] at hr
    obtain ⟨k, hk, rfl⟩ := hr
    have hk2 : k ∈ m.map Prod.fst := (sortStrings_perm _).subset hk
    obtain ⟨v, hv⟩ := (mapFind_isSome_iff m k).mpr hk2
    rw [mapGet_of_find m k v hv]
    exact mapFind_mem m k v hv
  constructor
  · unfold mergedRecords
    rw [List.pairwise_map]
    exact sortStrings_strict _ hn
  · intro r hr; exact (hb _ (hmem r hr)).1
  · intro r hr; exact (hb _ (hmem r hr)).2
  · rw [mergedRecords_size m hn]; exact hsz

theorem recGet_mergedRecords (m : GoMap) (hn : (m.map Prod.fst).Nodup) (q : Bytes) :
    recGet (mergedRecords m) q
      = match mapFind m q with
        | some v => (capRead v, true, none)
        | none => ([], false, none) := by
  have hsorted : (mergedRecords m).Pairwise (fun a b => bytesCompare a.key b.key < 0) := by
    unfold mergedRecords
    rw [List.pairwise_map]
    exact sortStrings_strict _ hn
  cases hf : mapFind m q with
  | some v =>
    have hq : q ∈ m.map Prod.fst := (mapFind_isSome_iff m q).mp ⟨v, hf⟩
    have hmem : (⟨0, q, mapGet m q⟩ : Record) ∈ mergedRecords m := by
      simp only [mergedRecords, List.mem_map]
      exact ⟨q, (sortStrings_perm _).mem_iff.mpr hq, rfl⟩
    have := recGet_of_mem _ hsorted _ hmem
    simp only at this
    rw [this, mapGet_of_find m q v hf]
    simp
  | none =>
    simp only
    apply recGet_of_not_mem
    intro r hr hk
    simp only [mergedRecords, List.mem_map] at hr
    obtain ⟨k, hk1, rfl⟩ := hr
    simp only at hk
    have hk2 : q ∈ m.map Prod.fst := hk ▸ (sortStrings_perm _).subset hk1
    obtain ⟨v, hv⟩ := (mapFind_isSome_iff m q).mpr hk2
    rw [hf] at hv
    cases hv

theorem writeMerged_eq (m : GoMap) (ks : List Bytes) :
    ∀ w : Writer, writeMerged m ks w
      = writePairs w (ks.map (fun k => ⟨0, k, mapGet m k⟩)) := by
  induction ks with
  | nil => intro w; rfl
  | cons k ks ih => intro w; simp only [writeMerged, List.map_cons, writePairs, ih]

theorem loadEntries_eq (rs : List Record) (hv : ValidRecords rs) (idx : List IndexEntry) :
    ∀ m : GoMap, loadEntries (readerOf rs) idx m
      = .ok (loadKeys rs (idx.map (fun e => e.key)) m) := by
  induction idx with
  | nil => intro m; rfl
  | cons e idx ih =>
    intro m
    rw [loadEntries, readerOf, reader_get_layout rs hv e.key, List.map_cons, loadKeys]
    rcases hres : recGet rs e.key with ⟨val, found, err⟩
    cases found with
    | true => simp only [if_true]; exact ih _
    | false => simp only [Bool.false_eq_true, if_false]; exact ih _

theorem loadIntoMap_eq (rs : List Record) (hv : ValidRecords rs) (m : GoMap) :
    loadIntoMap (some (readerOf rs)) m
      = .ok (loadKeys rs (rs.map (fun r => r.key)) m) := by
  unfold loadIntoMap
  simp only [Reader.GetIndex]
  rw [loadEntries_eq rs hv]
  simp only [readerOf, indexOf_keys]
/-! ## Engine: `Get` and `flush` on well-formed states -/

theorem recGet_err (rs : List Record) (q : Bytes) : (recGet rs q).2.2 = none := by
  induction rs with
  | nil => rfl
  | cons r rs ih =>
    simp only [recGet]
    split
    · split <;> rfl
    · exact ih

theorem getFromSSTs_spec (tables : List (List Record)) (hv : ∀ rs ∈ tables, ValidRecords rs)
    (q : Bytes) :
    getFromSSTs (tables.map (fun rs => some (readerOf rs))) q = .ok (tablesGet tables q) := by
  induction tables with
  | nil => rfl
  | cons rs tables ih =>
    rw [List.map_cons, getFromSSTs, readerOf, reader_get_layout rs (hv rs (List.mem_cons_self _ _)),
      tablesGet]
    have herr := recGet_err rs q
    rcases hres : recGet rs q with ⟨val, found, err⟩
    rw [hres] at herr
    simp only at herr
    subst herr
    cases found with
    | true => simp only [hitResult]; split <;> rfl
    | false =>
      simp only
      exact ih (fun rs1 h1 => hv rs1 (List.mem_cons_of_mem _ h1))

theorem engine_get_spec (l : LSM) (L : List Nat) (tables : List (List Record))
    (wf : l.WF L tables) (q : Bytes) :
    l.Get q = .ok (viewGet (entriesOf l.memTable.list.heap L) tables q) := by
  unfold LSM.Get MemTable.Get
  rw [skiplist_get_spec _ L wf.mem q, viewGet]
  rcases hres : absGet (entriesOf l.memTable.list.heap L) q with ⟨val, found⟩
  cases found with
  | true => simp only [hitResult]; split <;> rfl
  | false =>
    simp only
    rw [wf.readers]
    exact getFromSSTs_spec tables wf.valid q

theorem flushLoop_spec (heap : List Node) (ps : List Nat) :
    ∀ (fuel : Nat) (w : Writer), Linked heap 0 ps none → ps.length ≤ fuel →
      flushLoop heap fuel (headOr ps none) w
        = .ok (writePairs w ((entriesOf heap ps).map liveRecord)) := by
  induction ps with
  | nil => intro fuel w _ _; cases fuel <;> rfl
  | cons p ps ih =>
    intro fuel w hl hf
    cases fuel with
    | zero => simp at hf
    | succ f =>
      obtain ⟨nd, hp, _⟩ := nextAt_ok hl.1
      show flushLoop heap (f + 1) (some p) w = _
      rw [flushLoop]
      simp only [deref_of hp, hl.1]
      rw [ih f _ hl.2 (by simpa using hf)]
      show _ = Except.ok (writePairs w
        (liveRecord (keyAt heap p, valueAt heap p) :: (entriesOf heap ps).map liveRecord))
      rw [keyAt_of hp, valueAt_of hp]
      rfl

theorem liveRecords_valid (E : List (Bytes × Bytes))
    (hs : E.Pairwise (fun a b => bytesCompare a.1 b.1 < 0))
    (hb : ∀ e ∈ E, e.1.length < 2 ^ 32 ∧ e.2.length < 2 ^ 32)
    (hsz : entriesSize E < 2 ^ 63) : ValidRecords (E.map liveRecord) := by
  constructor
  · rw [List.pairwise_map]; exact hs
  · intro r hr
    obtain ⟨e, he, rfl⟩ := List.mem_map.mp hr
    exact (hb e he).1
  · intro r hr
    obtain ⟨e, he, rfl⟩ := List.mem_map.mp hr
    exact (hb e he).2
  · rw [dataSection_length_map]; exact hsz

theorem recGet_live (E : List (Bytes × Bytes)) (q : Bytes) :
    recGet (E.map liveRecord) q
      = match absGet E q with
        | (val, true) => (capRead val, true, none)
        | (_, false) => ([], false, none) := by
  induction E with
  | nil => rfl
  | cons e E ih =>
    obtain ⟨k1, v1⟩ := e
    simp only [List.map_cons, recGet, absGet, liveRecord]
    by_cases hk : k1 = q
    · simp [hk]
    · simp only [hk, if_false]
      exact ih

theorem absGet_mem (E : List (Bytes × Bytes)) (q v : Bytes) (h : absGet E q = (v, true)) :
    (q, v) ∈ E := by
  induction E with
  | nil => simp [absGet] at h
  | cons e E ih =>
    obtain ⟨k1, v1⟩ := e
    simp only [absGet] at h
    by_cases hk : k1 = q
    · rw [if_pos hk] at h
      rw [← hk, ← (Prod.mk.inj h).1]
      exact List.mem_cons_self _ _
    · rw [if_neg hk] at h
      exact List.mem_cons_of_mem _ (ih h)

theorem viewGet_flush (E : List (Bytes × Bytes)) (tables : List (List Record)) (q : Bytes)
    (hv : ∀ e ∈ E, e.2.length ≤ maxRW) :
    viewGet [] (E.map liveRecord :: tables) q = viewGet E tables q := by
  simp only [viewGet, absGet, tablesGet, recGet_live]
  rcases hres : absGet E q with ⟨val, found⟩
  cases found with
  | false => rfl
  | true =>
    simp only
    rw [capRead_small val (hv _ (absGet_mem E q val hres))]

theorem NewMemTable_wf (walFile : Bytes) (maxMemSize : Int) (sst : List (Option Reader))
    (tables : List (List Record)) (hr : sst = tables.map (fun rs => some (readerOf rs)))
    (hv : ∀ rs ∈ tables, ValidRecords rs) :
    LSM.WF ⟨NewMemTable walFile maxMemSize, sst, maxMemSize⟩ [] tables := by
  constructor
  · exact NewSkipList_inv
  · intro e he; cases he
  · exact hr
  · exact hv
  · rfl

theorem engine_flush_spec (l : LSM) (L : List Nat) (tables : List (List Record))
    (wf : l.WF L tables) (hks : ∀ e ∈ entriesOf l.memTable.list.heap L, e.1.length ≤ maxRW)
    (hsz : entriesSize (entriesOf l.memTable.list.heap L) < 2 ^ 63) :
    l.flush = .ok (⟨NewMemTable [] l.maxMemSize,
        some (readerOf ((entriesOf l.memTable.list.heap L).map liveRecord)) :: l.sstTables,
        l.maxMemSize⟩, none) ∧
      LSM.WF ⟨NewMemTable [] l.maxMemSize,
        some (readerOf ((entriesOf l.memTable.list.heap L).map liveRecord)) :: l.sstTables,
        l.maxMemSize⟩ [] ((entriesOf l.memTable.list.heap L).map liveRecord :: tables) := by
  obtain ⟨hit, hlk, hlen⟩ := inv_iter _ L wf.mem
  have hvalid := liveRecords_valid _ (entries_sorted _ L wf.mem) wf.memKeys hsz
  have hsmall : ∀ r ∈ (entriesOf l.memTable.list.heap L).map liveRecord,
      r.key.length ≤ maxRW := by
    intro r hr
    obtain ⟨e, he, rfl⟩ := List.mem_map.mp hr
    exact hks e he
  constructor
  · unfold LSM.flush MemTable.GetIterator
    rw [hit]
    simp only
    rw [flushLoop_spec _ L _ _ hlk hlen]
    simp only [writer_layout, Open_layout _ hsmall hvalid.size]
    rfl
  · apply NewMemTable_wf
    · rw [List.map_cons, wf.readers]
    · intro rs hrs
      rcases List.mem_cons.mp hrs with h | h
      · rw [h]; exact hvalid
      · exact wf.valid rs h
theorem fits_valid {l : LSM} {b : Nat} (h : l.Fits b) : l.Valid b := by
  obtain ⟨L, tables, fit, hfp⟩ := h
  exact ⟨L, tables, fit.wf, hfp⟩

theorem liveRecords_small (E : List (Bytes × Bytes))
    (h : ∀ e ∈ E, e.1.length ≤ maxRW ∧ e.2.length ≤ maxRW) : SmallRecords (E.map liveRecord) := by
  intro r hr
  obtain ⟨e, he, rfl⟩ := List.mem_map.mp hr
  exact h e he

theorem engine_flush_fit (l : LSM) (L : List Nat) (tables : List (List Record))
    (fit : l.Fit L tables) (hsz : entriesSize (entriesOf l.memTable.list.heap L) < 2 ^ 63) :
    l.flush = .ok (⟨NewMemTable [] l.maxMemSize,
        some (readerOf ((entriesOf l.memTable.list.heap L).map liveRecord)) :: l.sstTables,
        l.maxMemSize⟩, none) ∧
      LSM.Fit ⟨NewMemTable [] l.maxMemSize,
        some (readerOf ((entriesOf l.memTable.list.heap L).map liveRecord)) :: l.sstTables,
        l.maxMemSize⟩ [] ((entriesOf l.memTable.list.heap L).map liveRecord :: tables) := by
  obtain ⟨f1, f2⟩ := engine_flush_spec l L tables fit.wf (fun e he => (fit.memSmall e he).1) hsz
  refine ⟨f1, f2, ?_, ?_⟩
  · intro e he
    cases he
  · intro rs hrs
    rcases List.mem_cons.mp hrs with h | h
    · rw [h]; exact liveRecords_small _ fit.memSmall
    · exact fit.tablesSmall rs h

/-! ## Engine: `Put`, `Delete` and `Compact` on well-formed states -/

theorem entriesSize_absPut (k v : Bytes) (E : List (Bytes × Bytes)) :
    entriesSize (absPut k v E) ≤ entriesSize E + (9 + k.length + v.length) := by
  induction E with
  | nil => simp [absPut, entriesSize]
  | cons e E ih =>
    obtain ⟨k1, v1⟩ := e
    simp only [absPut]
    split
    · simp only [entriesSize_cons]; omega
    · split
      · simp only [entriesSize_cons]; omega
      · simp only [entriesSize_cons]; omega

theorem mem_absPut (k v : Bytes) (E : List (Bytes × Bytes)) (e : Bytes × Bytes)
    (h : e ∈ absPut k v E) : e = (k, v) ∨ e ∈ E := by
  induction E with
  | nil => simp [absPut] at h; exact Or.inl h
  | cons a E ih =>
    obtain ⟨k1, v1⟩ := a
    simp only [absPut] at h
    split at h
    · rcases List.mem_cons.mp h with h1 | h1
      · exact Or.inr (h1 ▸ List.mem_cons_self _ _)
      · rcases ih h1 with h2 | h2
        · exact Or.inl h2
        · exact Or.inr (List.mem_cons_of_mem _ h2)
    · split at h
      · rcases List.mem_cons.mp h with h1 | h1
        · exact Or.inl h1
        · exact Or.inr (List.mem_cons_of_mem _ h1)
      · rcases List.mem_cons.mp h with h1 | h1
        · exact Or.inl h1
        · exact Or.inr h1

theorem viewGet_absPut (k v : Bytes) (E : List (Bytes × Bytes)) (tables : List (List Record))
    (q : Bytes) :
    viewGet (absPut k v E) tables q = if k = q then hitResult v else viewGet E tables q := by
  simp only [viewGet, absGet_absPut]
  by_cases h : k = q
  · simp [h]
  · simp [h]

theorem memtable_put_spec (m : MemTable) (L : List Nat) (inv : m.list.Inv L)
    (k v : Bytes) (flips : List Bool) :
    ∃ m1 L1, m.Put k v flips none = .ok (m1, none) ∧ m1.list.Inv L1 ∧
      entriesOf m1.list.heap L1 = absPut k v (entriesOf m.list.heap L) ∧
      m1.maxSize = m.maxSize := by
  obtain ⟨s1, L1, e1, i1, a1⟩ := skiplist_put_spec m.list L inv k v flips
  refine ⟨⟨s1, ⟨m.wal.file ++ (putUint32 (asUint32 k.length) ++ putUint32 (asUint32 v.length))
      ++ k ++ v⟩, m.maxSize,
    wrapInt64 (m.currSize + wrapInt64 ((k.length : Int) + (v.length : Int)))⟩, L1, ?_, i1, a1, rfl⟩
  unfold MemTable.Put WAL.Write
  simp only [e1]

theorem memtable_put_fault (m : MemTable) (k v : Bytes) (flips : List Bool) (f : WalFault) :
    ∃ m1 e, m.Put k v flips (some f) = .ok (m1, some e) ∧ m1.list = m.list ∧
      m1.currSize = m.currSize := by
  cases f <;> exact ⟨_, _, rfl, rfl, rfl⟩

theorem footprint_flush (E : List (Bytes × Bytes)) (tables : List (List Record)) :
    footprint [] (E.map liveRecord :: tables) = footprint E tables := by
  simp [footprint, entriesSize, dataSection_length_map]

theorem entriesSize_le_footprint (E : List (Bytes × Bytes)) (tables : List (List Record)) :
    entriesSize E ≤ footprint E tables := by
  unfold footprint; omega

theorem engine_put_spec (l : LSM) (L : List Nat) (tables : List (List Record))
    (fit : l.Fit L tables) (k v : Bytes) (flips : List Bool)
    (hk : k.length ≤ maxRW) (hv : v.length ≤ maxRW)
    (hb : footprint (entriesOf l.memTable.list.heap L) tables + (9 + k.length + v.length)
      < 2 ^ 63) :
    ∃ l1 L1 tables1, l.Put k v flips none = .ok (l1, none) ∧ l1.Fit L1 tables1 ∧
      footprint (entriesOf l1.memTable.list.heap L1) tables1
        ≤ footprint (entriesOf l.memTable.list.heap L) tables + (9 + k.length + v.length) ∧
      ∀ q, viewGet (entriesOf l1.memTable.list.heap L1) tables1 q
        = if k = q then hitResult v else viewGet (entriesOf l.memTable.list.heap L) tables q := by
  have wf := fit.wf
  obtain ⟨m1, L1, e1, i1, a1, hmax⟩ := memtable_put_spec l.memTable L wf.mem k v flips
  have hsize := entriesSize_absPut k v (entriesOf l.memTable.list.heap L)
  have hms : ∀ e ∈ entriesOf m1.list.heap L1, e.1.length ≤ maxRW ∧ e.2.length ≤ maxRW := by
    intro e he
    rw [a1] at he
    rcases mem_absPut k v _ e he with h | h
    · rw [h]; exact ⟨hk, hv⟩
    · exact fit.memSmall e h
  have fit1 : LSM.Fit { l with memTable := m1 } L1 tables := by
    refine ⟨?_, hms, fit.tablesSmall⟩
    constructor
    · exact i1
    · intro e he
      exact ⟨small_lt (hms e he).1, small_lt (hms e he).2⟩
    · exact wf.readers
    · exact wf.valid
    · show m1.maxSize = l.maxMemSize
      rw [hmax]; exact wf.limit
  have hfp : footprint (entriesOf m1.list.heap L1) tables
      ≤ footprint (entriesOf l.memTable.list.heap L) tables + (9 + k.length + v.length) := by
    rw [a1]; unfold footprint; omega
  unfold LSM.Put
  rw [e1]
  simp only
  by_cases hfull : m1.IsFull = true
  · rw [if_pos hfull]
    have hsz : entriesSize (entriesOf m1.list.heap L1) < 2 ^ 63 := by
      have := entriesSize_le_footprint (entriesOf m1.list.heap L1) tables
      omega
    obtain ⟨f1, f2⟩ := engine_flush_fit { l with memTable := m1 } L1 tables fit1 hsz
    refine ⟨_, [], _, f1, f2, ?_, ?_⟩
    · show footprint (entriesOf NewSkipList.heap []) _ ≤ _
      have : entriesOf NewSkipList.heap [] = [] := rfl
      rw [this, footprint_flush]
      exact hfp
    · intro q
      show viewGet (entriesOf NewSkipList.heap []) _ q = _
      have : entriesOf NewSkipList.heap [] = [] := rfl
      rw [this, viewGet_flush _ _ _ (fun e he => (hms e he).2)]
      show viewGet (entriesOf m1.list.heap L1) tables q = _
      rw [a1, viewGet_absPut]
  · rw [if_neg hfull]
    refine ⟨_, L1, tables, rfl, fit1, hfp, ?_⟩
    intro q
    show viewGet (entriesOf m1.list.heap L1) tables q = _
    rw [a1, viewGet_absPut]

theorem engine_delete_spec (l : LSM) (L : List Nat) (tables : List (List Record))
    (fit : l.Fit L tables) (k : Bytes) (flips : List Bool) (hk : k.length ≤ maxRW) :
    ∃ l1 L1, l.Delete k flips none = .ok (l1, none) ∧ l1.Fit L1 tables ∧
      footprint (entriesOf l1.memTable.list.heap L1) tables
        ≤ footprint (entriesOf l.memTable.list.heap L) tables
          + (9 + k.length + tombstoneMarker.length) ∧
      ∀ q, viewGet (entriesOf l1.memTable.list.heap L1) tables q
        = if k = q then ([], false, none)
          else viewGet (entriesOf l.memTable.list.heap L) tables q := by
  have wf := fit.wf
  obtain ⟨m1, L1, e1, i1, a1, hmax⟩ :=
    memtable_put_spec l.memTable L wf.mem k tombstoneMarker flips
  have hsize := entriesSize_absPut k tombstoneMarker (entriesOf l.memTable.list.heap L)
  have hms : ∀ e ∈ entriesOf m1.list.heap L1, e.1.length ≤ maxRW ∧ e.2.length ≤ maxRW := by
    intro e he
    rw [a1] at he
    rcases mem_absPut k _ _ e he with h | h
    · rw [h]
      refine ⟨hk, ?_⟩
      show tombstoneMarker.length ≤ maxRW
      decide
    · exact fit.memSmall e h
  refine ⟨{ l with memTable := m1 }, L1, ?_, ?_, ?_, ?_⟩
  · unfold LSM.Delete
    rw [e1]
  · refine ⟨?_, hms, fit.tablesSmall⟩
    constructor
    · exact i1
    · intro e he
      exact ⟨small_lt (hms e he).1, small_lt (hms e he).2⟩
    · exact wf.readers
    · exact wf.valid
    · show m1.maxSize = l.maxMemSize
      rw [hmax]; exact wf.limit
  · show footprint (entriesOf m1.list.heap L1) tables ≤ _
    rw [a1]; unfold footprint; omega
  · intro q
    show viewGet (entriesOf m1.list.heap L1) tables q = _
    rw [a1, viewGet_absPut]
    rfl

theorem last_two {α : Type} (l : List α) (h : 2 ≤ l.length) :
    ∃ pre a b, l = pre ++ [a, b] := by
  induction l with
  | nil => simp at h
  | cons x l ih =>
    cases l with
    | nil => simp at h
    | cons y l =>
      cases l with
      | nil => exact ⟨[], x, y, rfl⟩
      | cons z l =>
        obtain ⟨pre, a, b, e⟩ := ih (by simp)
        exact ⟨x :: pre, a, b, by rw [e]; rfl⟩

theorem tablesGet_append_congr (pre X Y : List (List Record)) (q : Bytes)
    (h : tablesGet X q = tablesGet Y q) : tablesGet (pre ++ X) q = tablesGet (pre ++ Y) q := by
  induction pre with
  | nil => exact h
  | cons t pre ih =>
    show tablesGet (t :: (pre ++ X)) q = tablesGet (t :: (pre ++ Y)) q
    simp only [tablesGet, ih]

theorem mem_keys_of_found (rs : List Record) (q : Bytes) (h : (recGet rs q).2.1 = true) :
    q ∈ rs.map (fun r => r.key) := by
  rcases hres : recGet rs q with ⟨val, found, err⟩
  rw [hres] at h
  simp only at h
  subst h
  obtain ⟨r, hr, hk, _, _⟩ := recGet_found rs q val err hres
  exact List.mem_map.mpr ⟨r, hr, hk⟩

theorem compactRecords_get (t1 t2 : List Record) (q : Bytes) :
    tablesGet [compactRecords t1 t2] q = tablesGet [t1, t2] q := by
  have hn : ((loadKeys t1 (t1.map (fun r => r.key))
      (loadKeys t2 (t2.map (fun r => r.key)) [])).map Prod.fst).Nodup :=
    loadKeys_nodup _ _ _ (loadKeys_nodup _ _ _ List.nodup_nil)
  simp only [tablesGet, compactRecords]
  rw [recGet_mergedRecords _ hn, loadKeys_find, loadKeys_find]
  have e1 := recGet_err t1 q
  have e2 := recGet_err t2 q
  rcases h1 : recGet t1 q with ⟨v1, f1, er1⟩
  rcases h2 : recGet t2 q with ⟨v2, f2, er2⟩
  have m1 := mem_keys_of_found t1 q
  have m2 := mem_keys_of_found t2 q
  rw [h1] at m1 e1
  rw [h2] at m2 e2
  simp only at m1 m2 e1 e2
  cases f1 with
  | true =>
    simp [m1 rfl, recGet_capped t1 q v1 er1 h1]
  | false =>
    cases f2 with
    | true => simp [m2 rfl, recGet_capped t2 q v2 er2 h2]
    | false => simp [mapFind]

theorem compactRecords_small (t1 t2 : List Record) (h1 : SmallRecords t1)
    (h2 : SmallRecords t2) : SmallRecords (compactRecords t1 t2) := by
  intro r hr
  have hm := mergedRecords_mem _ r hr
  have hP : ∀ t : List Record, SmallRecords t →
      ∀ r ∈ t, (fun e : Bytes × Bytes => e.1.length ≤ maxRW ∧ e.2.length ≤ maxRW)
        (r.key, capRead r.value) := by
    intro t ht r hr
    exact ⟨(ht r hr).1, by rw [capRead_length]; exact (ht r hr).2⟩
  exact loadKeys_inv (fun e => e.1.length ≤ maxRW ∧ e.2.length ≤ maxRW) t1 (hP t1 h1) _ _
    (loadKeys_inv _ t2 (hP t2 h2) _ [] (by intro e he; cases he)) _ hm

theorem compactRecords_keys_small (t1 t2 : List Record)
    (h1 : ∀ r ∈ t1, r.key.length ≤ maxRW) (h2 : ∀ r ∈ t2, r.key.length ≤ maxRW) :
    ∀ r ∈ compactRecords t1 t2, r.key.length ≤ maxRW := by
  intro r hr
  have hm := mergedRecords_mem _ r hr
  exact loadKeys_inv (fun e => e.1.length ≤ maxRW) t1 (fun r hr => h1 r hr) _ _
    (loadKeys_inv _ t2 (fun r hr => h2 r hr) _ [] (by intro e he; cases he)) _ hm

theorem compactRecords_valid (t1 t2 : List Record) (h1 : ValidRecords t1) (h2 : ValidRecords t2)
    (hsz : (dataSection t1).length + (dataSection t2).length < 2 ^ 63) :
    ValidRecords (compactRecords t1 t2) ∧
      (dataSection (compactRecords t1 t2)).length
        ≤ (dataSection t1).length + (dataSection t2).length := by
  have hn : ((loadKeys t1 (t1.map (fun r => r.key))
      (loadKeys t2 (t2.map (fun r => r.key)) [])).map Prod.fst).Nodup :=
    loadKeys_nodup _ _ _ (loadKeys_nodup _ _ _ List.nodup_nil)
  have hb := loadKeys_bounds t1 h1 (t1.map (fun r => r.key)) _
    (loadKeys_bounds t2 h2 (t2.map (fun r => r.key)) [] (by intro e he; cases he))
  have s2 := loadKeys_size t2 h2.sorted t2 [] (fun r hr => hr)
  have s1 := loadKeys_size t1 h1.sorted t1 (loadKeys t2 (t2.map (fun r => r.key)) [])
    (fun r hr => hr)
  have s0 : entriesSize ([] : GoMap) = 0 := rfl
  have hle : entriesSize (loadKeys t1 (t1.map (fun r => r.key))
      (loadKeys t2 (t2.map (fun r => r.key)) []))
      ≤ (dataSection t1).length + (dataSection t2).length := by omega
  refine ⟨mergedRecords_valid _ hn hb (by omega), ?_⟩
  unfold compactRecords
  rw [mergedRecords_size _ hn]
  exact hle

theorem footprint_ge_last_two (E : List (Bytes × Bytes)) (pre : List (List Record))
    (t1 t2 : List Record) :
    footprint E (pre ++ [t1, t2])
      = footprint E pre + ((dataSection t1).length + (dataSection t2).length) := by
  simp [footprint]
  omega

theorem footprint_last_one (E : List (Bytes × Bytes)) (pre : List (List Record))
    (t : List Record) :
    footprint E (pre ++ [t]) = footprint E pre + (dataSection t).length := by
  simp [footprint]
  omega

theorem engine_compact_spec (l : LSM) (L : List Nat) (tables : List (List Record))
    (wf : l.WF L tables) (hks : ∀ rs ∈ tables, ∀ r ∈ rs, r.key.length ≤ maxRW)
    (hb : footprint (entriesOf l.memTable.list.heap L) tables < 2 ^ 63) :
    ∃ l1 tables1, l.Compact = .ok (l1, none) ∧ l1.WF L tables1 ∧ l1.memTable = l.memTable ∧
      l1.maxMemSize = l.maxMemSize ∧
      footprint (entriesOf l.memTable.list.heap L) tables1
        ≤ footprint (entriesOf l.memTable.list.heap L) tables ∧
      (∀ q, tablesGet tables1 q = tablesGet tables q) ∧
      ((tables.length < 2 ∧ l1 = l ∧ tables1 = tables) ∨
        ∃ pre t1 t2, tables = pre ++ [t1, t2] ∧ tables1 = pre ++ [compactRecords t1 t2]) := by
  by_cases hlen : tables.length < 2
  · refine ⟨l, tables, ?_, wf, rfl, rfl, le_refl _, fun _ => rfl, Or.inl ⟨hlen, rfl, rfl⟩⟩
    unfold LSM.Compact
    rw [wf.readers, List.length_map, if_pos hlen]
  · obtain ⟨pre, t1, t2, hsplit⟩ := last_two tables (by omega)
    subst hsplit
    have hv1 : ValidRecords t1 := wf.valid t1 (by simp)
    have hv2 : ValidRecords t2 := wf.valid t2 (by simp)
    have hfp := footprint_ge_last_two (entriesOf l.memTable.list.heap L) pre t1 t2
    obtain ⟨cv, csz⟩ := compactRecords_valid t1 t2 hv1 hv2 (by omega)
    have hsst : l.sstTables = pre.map (fun rs => some (readerOf rs))
        ++ [some (readerOf t1), some (readerOf t2)] := by
      rw [wf.readers]; simp
    have hlen2 : l.sstTables.length = pre.length + 2 := by rw [hsst]; simp
    have hg1 : l.sstTables[l.sstTables.length - 2]? = some (some (readerOf t1)) := by
      rw [hlen2, hsst]
      rw [List.getElem?_append_right (by simp)]
      simp
    have hg2 : l.sstTables[l.sstTables.length - 1]? = some (some (readerOf t2)) := by
      rw [hlen2, hsst]
      rw [List.getElem?_append_right (by simp)]
      simp
    have htake : l.sstTables.take (l.sstTables.length - 2)
        = pre.map (fun rs => some (readerOf rs)) := by
      rw [hlen2, hsst]
      simp
    refine ⟨⟨l.memTable, pre.map (fun rs => some (readerOf rs))
        ++ [some (readerOf (compactRecords t1 t2))], l.maxMemSize⟩,
      pre ++ [compactRecords t1 t2], ?_, ?_, rfl, rfl, ?_, ?_, Or.inr ⟨pre, t1, t2, rfl, rfl⟩⟩
    · unfold LSM.Compact
      rw [if_neg (by omega), hg1, hg2]
      simp only [loadIntoMap_eq t2 hv2, loadIntoMap_eq t1 hv1]
      rw [writeMerged_eq, htake]
      have hw : (writePairs NewWriter
          ((sortStrings ((loadKeys t1 (t1.map (fun r => r.key))
            (loadKeys t2 (t2.map (fun r => r.key)) [])).map Prod.fst)).map
            (fun k => (⟨0, k, mapGet (loadKeys t1 (t1.map (fun r => r.key))
              (loadKeys t2 (t2.map (fun r => r.key)) [])) k⟩ : Record)))).Close
          = sstLayout (compactRecords t1 t2) := by
        rw [writer_layout]; rfl
      rw [hw, Open_layout _ (compactRecords_keys_small t1 t2 (hks t1 (by simp))
        (hks t2 (by simp))) cv.size]
      rfl
    · constructor
      · exact wf.mem
      · exact wf.memKeys
      · simp
      · intro rs hrs
        rcases List.mem_append.mp hrs with h | h
        · exact wf.valid rs (List.mem_append_left _ h)
        · rw [List.mem_singleton.mp h]; exact cv
      · exact wf.limit
    · rw [hfp, footprint_last_one]
      omega
    · intro q
      exact tablesGet_append_congr pre _ _ q (compactRecords_get t1 t2 q)
/-! ## Engine: runs of operations -/

theorem viewGet_tables_congr (E : List (Bytes × Bytes)) (t1 t2 : List (List Record))
    (h : ∀ q, tablesGet t1 q = tablesGet t2 q) (q : Bytes) :
    viewGet E t1 q = viewGet E t2 q := by
  simp only [viewGet, h]

theorem engine_step_spec (l : LSM) (b : Nat) (hval : l.Fits b) (op : Op) (hs : op.small)
    (hb : b + op.cost < 2 ^ 63) :
    ∃ l1, l.step op = .ok (l1, none) ∧ l1.Fits (b + op.cost) ∧
      ∀ q, ∃ r0, l.Get q = .ok r0 ∧ l1.Get q = .ok (op.effect q r0) := by
  obtain ⟨L, tables, fit, hfp⟩ := hval
  have wf := fit.wf
  cases op with
  | put k v flips =>
    obtain ⟨l1, L1, tables1, e1, fit1, fp1, g1⟩ :=
      engine_put_spec l L tables fit k v flips hs.1 hs.2 (by simp only [Op.cost] at hb; omega)
    refine ⟨l1, e1, ⟨L1, tables1, fit1, by simp only [Op.cost]; omega⟩, ?_⟩
    intro q
    refine ⟨_, engine_get_spec l L tables wf q, ?_⟩
    rw [engine_get_spec l1 L1 tables1 fit1.wf q, g1 q]
    rfl
  | delete k flips =>
    obtain ⟨l1, L1, e1, fit1, fp1, g1⟩ := engine_delete_spec l L tables fit k flips hs
    refine ⟨l1, e1, ⟨L1, tables, fit1, by simp only [Op.cost]; omega⟩, ?_⟩
    intro q
    refine ⟨_, engine_get_spec l L tables wf q, ?_⟩
    rw [engine_get_spec l1 L1 tables fit1.wf q, g1 q]
    rfl
  | flush =>
    have hsz : entriesSize (entriesOf l.memTable.list.heap L) < 2 ^ 63 := by
      have := entriesSize_le_footprint (entriesOf l.memTable.list.heap L) tables
      simp only [Op.cost] at hb
      omega
    obtain ⟨f1, f2⟩ := engine_flush_fit l L tables fit hsz
    refine ⟨_, f1, ⟨[], _, f2, ?_⟩, ?_⟩
    · show footprint (entriesOf NewSkipList.heap []) _ ≤ _
      have : entriesOf NewSkipList.heap [] = [] := rfl
      rw [this, footprint_flush]
      simp only [Op.cost]; omega
    · intro q
      refine ⟨_, engine_get_spec l L tables wf q, ?_⟩
      rw [engine_get_spec _ [] _ f2.wf q]
      show Except.ok (viewGet (entriesOf NewSkipList.heap []) _ q) = _
      have : entriesOf NewSkipList.heap [] = [] := rfl
      rw [this, viewGet_flush _ _ _ (fun e he => (fit.memSmall e he).2)]
      rfl
  | compact =>
    obtain ⟨l1, tables1, e1, wf1, hm, _, fp1, g1, hshape⟩ :=
      engine_compact_spec l L tables wf (fun rs hrs r hr => (fit.tablesSmall rs hrs r hr).1)
        (by simp only [Op.cost] at hb; omega)
    have fit1 : l1.Fit L tables1 := by
      refine ⟨wf1, by rw [hm]; exact fit.memSmall, ?_⟩
      rcases hshape with ⟨_, _, h⟩ | ⟨pre, t1, t2, h1, h2⟩
      · rw [h]
        exact fit.tablesSmall
      · subst h1 h2
        intro rs hrs
        rcases List.mem_append.mp hrs with h | h
        · exact fit.tablesSmall rs (List.mem_append_left _ h)
        · rw [List.mem_singleton.mp h]
          exact compactRecords_small t1 t2 (fit.tablesSmall t1 (by simp))
            (fit.tablesSmall t2 (by simp))
    refine ⟨l1, e1, ⟨L, tables1, fit1, ?_⟩, ?_⟩
    · rw [hm]; simp only [Op.cost]; omega
    · intro q
      refine ⟨_, engine_get_spec l L tables wf q, ?_⟩
      rw [engine_get_spec l1 L tables1 wf1 q, hm, viewGet_tables_congr _ _ _ g1 q]
      rfl

theorem engine_run_spec (ops : List Op) :
    ∀ (l : LSM) (b : Nat), l.Fits b → (∀ op ∈ ops, op.small) → b + opsCost ops < 2 ^ 63 →
      ∃ l1, l.run ops = .ok (l1, none) ∧ l1.Fits (b + opsCost ops) ∧
        ∀ q, ∃ r0, l.Get q = .ok r0 ∧
          l1.Get q = .ok (ops.foldl (fun r op => op.effect q r) r0) := by
  induction ops with
  | nil =>
    intro l b hval _ _
    refine ⟨l, rfl, by simpa [opsCost] using hval, ?_⟩
    intro q
    obtain ⟨L, tables, fit, _⟩ := hval
    exact ⟨_, engine_get_spec l L tables fit.wf q,
      by rw [engine_get_spec l L tables fit.wf q]; rfl⟩
  | cons op ops ih =>
    intro l b hval hs hb
    have hcost : opsCost (op :: ops) = op.cost + opsCost ops := by simp [opsCost]
    rw [hcost] at hb ⊢
    obtain ⟨l1, e1, v1, g1⟩ := engine_step_spec l b hval op (hs op (List.mem_cons_self _ _))
      (by omega)
    obtain ⟨l2, e2, v2, g2⟩ := ih l1 (b + op.cost) v1
      (fun o ho => hs o (List.mem_cons_of_mem _ ho)) (by omega)
    refine ⟨l2, ?_, by rw [← Nat.add_assoc]; exact v2, ?_⟩
    · rw [LSM.run, e1]
      exact e2
    · intro q
      obtain ⟨r0, h0, h1⟩ := g1 q
      obtain ⟨r1, h2, h3⟩ := g2 q
      refine ⟨r0, h0, ?_⟩
      rw [h1] at h2
      rw [h3, ← Except.ok.inj h2]
      rfl

theorem effect_other_key (ops : List Op) (k : Bytes) (hk : ∀ op ∈ ops, op.key ≠ some k) :
    ∀ r, ops.foldl (fun r op => op.effect k r) r = r := by
  induction ops with
  | nil => intro r; rfl
  | cons op ops ih =>
    intro r
    rw [List.foldl_cons, ih (fun o ho => hk o (List.mem_cons_of_mem _ ho))]
    have h1 := hk op (List.mem_cons_self _ _)
    cases op with
    | put k1 v f =>
      have : k1 ≠ k := fun e => h1 (by rw [e]; rfl)
      simp [Op.effect, this]
    | delete k1 f =>
      have : k1 ≠ k := fun e => h1 (by rw [e]; rfl)
      simp [Op.effect, this]
    | flush => rfl
    | compact => rfl

theorem engine_put_no_fault (l : LSM) (k v : Bytes) (flips : List Bool) (fault : Option WalFault)
    (l1 : LSM) (h : l.Put k v flips fault = .ok (l1, none)) : fault = none := by
  cases fault with
  | none => rfl
  | some f =>
    obtain ⟨m1, e, he, _, _⟩ := memtable_put_fault l.memTable k v flips f
    unfold LSM.Put at h
    rw [he] at h
    simp at h

theorem engine_delete_no_fault (l : LSM) (k : Bytes) (flips : List Bool)
    (fault : Option WalFault) (l1 : LSM) (h : l.Delete k flips fault = .ok (l1, none)) :
    fault = none := by
  cases fault with
  | none => rfl
  | some f =>
    obtain ⟨m1, e, he, _, _⟩ := memtable_put_fault l.memTable k tombstoneMarker flips f
    unfold LSM.Delete at h
    rw [he] at h
    simp at h

theorem hitResult_live (v : Bytes) (h : v ≠ tombstoneMarker) : hitResult v = (v, true, none) := by
  simp [hitResult, h]

theorem New_valid (walFile : Bytes) (limit : Int) :
    LSM.New walFile [] limit = .ok (.ok ⟨NewMemTable walFile limit, [], limit⟩) ∧
      LSM.Valid ⟨NewMemTable walFile limit, [], limit⟩ 0 := by
  refine ⟨rfl, [], [], NewMemTable_wf walFile limit [] [] rfl (by intro rs h; cases h), ?_⟩
  show footprint (entriesOf NewSkipList.heap []) [] ≤ 0
  simp [footprint, entriesOf, entriesSize]

theorem New_fits (walFile : Bytes) (limit : Int) :
    LSM.Fits ⟨NewMemTable walFile limit, [], limit⟩ 0 := by
  refine ⟨[], [], ⟨NewMemTable_wf walFile limit [] [] rfl (by intro rs h; cases h), ?_, ?_⟩, ?_⟩
  · intro e he; cases he
  · intro rs h; cases h
  · show footprint (entriesOf NewSkipList.heap []) [] ≤ 0
    simp [footprint, entriesOf, entriesSize]

theorem refGet_foldl (ops : List Op) (k : Bytes) (hm : ∀ op ∈ ops, ¬ op.putsMarker) :
    ∀ (acc : Option Bytes) (r : Bytes × Bool × Option IOErr),
      r = (match acc with
        | some v => (v, true, none)
        | none => ([], false, none)) →
      ops.foldl (fun r op => op.effect k r) r
        = (match ops.foldl (fun acc op =>
            match op with
            | Op.put k1 v _ => if k1 = k then some v else acc
            | Op.delete k1 _ => if k1 = k then none else acc
            | Op.flush => acc
            | Op.compact => acc) acc with
          | some v => (v, true, none)
          | none => ([], false, none)) := by
  induction ops with
  | nil => intro acc r h; exact h
  | cons op ops ih =>
    intro acc r h
    rw [List.foldl_cons, List.foldl_cons]
    apply ih (fun o ho => hm o (List.mem_cons_of_mem _ ho))
    have h1 := hm op (List.mem_cons_self _ _)
    cases op with
    | put k1 v f =>
      have hv : v ≠ tombstoneMarker := h1
      simp only [Op.effect]
      by_cases hk : k1 = k
      · simp [hk, hitResult_live v hv]
      · simp [hk, h]
    | delete k1 f =>
      simp only [Op.effect]
      by_cases hk : k1 = k
      · simp [hk]
      · simp [hk, h]
    | flush => exact h
    | compact => exact h
/-! ## Memtable: the byte counter -/

theorem wrapInt64_small (x : Int) (h0 : 0 ≤ x) (h1 : x < 2 ^ 63) : wrapInt64 x = x := by
  unfold wrapInt64
  omega

theorem memtable_put_size (m m1 : MemTable) (k v : Bytes) (flips : List Bool)
    (h : m.Put k v flips none = .ok (m1, none)) :
    m1.currSize = wrapInt64 (m.currSize + wrapInt64 ((k.length : Int) + (v.length : Int))) ∧
      m1.maxSize = m.maxSize := by
  unfold MemTable.Put WAL.Write at h
  simp only at h
  cases hp : m.list.Put k v flips with
  | error e => rw [hp] at h; simp at h
  | ok s1 =>
    rw [hp] at h
    simp only [Except.ok.injEq, Prod.mk.injEq, and_true] at h
    rw [← h]
    exact ⟨rfl, rfl⟩

theorem putBytes_cons (op : Bytes × Bytes × List Bool) (ops : List (Bytes × Bytes × List Bool)) :
    putBytes (op :: ops) = op.1.length + op.2.1.length + putBytes ops := by
  simp [putBytes]

theorem memPutAll_spec (ops : List (Bytes × Bytes × List Bool)) :
    ∀ (m : MemTable) (L : List Nat), m.list.Inv L → 0 ≤ m.currSize →
      m.currSize + (putBytes ops : Int) < 2 ^ 63 →
      ∃ m1 L1, memPutAll m ops = .ok (m1, none) ∧ m1.list.Inv L1 ∧
        m1.currSize = m.currSize + (putBytes ops : Int) ∧ m1.maxSize = m.maxSize := by
  induction ops with
  | nil =>
    intro m L inv _ _
    exact ⟨m, L, rfl, inv, by simp [putBytes], rfl⟩
  | cons op ops ih =>
    intro m L inv h0 hb
    obtain ⟨k, v, flips⟩ := op
    rw [putBytes_cons] at hb
    simp only at hb
    push_cast at hb
    obtain ⟨m1, L1, e1, i1, _, _⟩ := memtable_put_spec m L inv k v flips
    obtain ⟨hsz, hmax⟩ := memtable_put_size m m1 k v flips e1
    have hkv : wrapInt64 ((k.length : Int) + (v.length : Int)) = (k.length : Int) + v.length :=
      wrapInt64_small _ (by omega) (by omega)
    rw [hkv, wrapInt64_small _ (by omega) (by omega)] at hsz
    obtain ⟨m2, L2, e2, i2, hs2, hm2⟩ := ih m1 L1 i1 (by omega) (by omega)
    refine ⟨m2, L2, ?_, i2, ?_, by rw [hm2, hmax]⟩
    · rw [memPutAll, e1]
      exact e2
    · rw [hs2, hsz, putBytes_cons]
      simp only
      push_cast
      omega

/-! ## Write-ahead log: the record format -/

theorem wal_write_ok (w : WAL) (k v : Bytes) (hk : k.length < 2 ^ 32) (hv : v.length < 2 ^ 32) :
    w.Write k v none = (⟨w.file ++ walRecord k v⟩, none) := by
  unfold WAL.Write walRecord
  simp only [asUint32_small _ hk, asUint32_small _ hv, List.append_assoc]

theorem walRecord_length (k v : Bytes) : (walRecord k v).length = 8 + k.length + v.length := by
  simp [walRecord, putUint32_length]
  omega

theorem walWriteAll_spec (recs : List (Bytes × Bytes))
    (hb : ∀ e ∈ recs, e.1.length < 2 ^ 32 ∧ e.2.length < 2 ^ 32) :
    ∀ w : WAL, walWriteAll w recs
      = (⟨w.file ++ (recs.map (fun e => walRecord e.1 e.2)).flatten⟩, none) := by
  induction recs with
  | nil => intro w; simp [walWriteAll]
  | cons e recs ih =>
    intro w
    obtain ⟨k, v⟩ := e
    have h1 := hb (k, v) (List.mem_cons_self _ _)
    rw [walWriteAll, wal_write_ok w k v h1.1 h1.2]
    simp only
    rw [ih (fun e he => hb e (List.mem_cons_of_mem _ he))]
    simp [List.append_assoc]

/-! ## `Open` on arbitrary bytes -/

theorem leValue_lt (bs : Bytes) : leValue bs < 256 ^ bs.length := by
  induction bs with
  | nil => simp [leValue]
  | cons b bs ih =>
    have hb := b.isLt
    simp only [leValue, List.length_cons, pow_succ]
    omega

theorem binaryRead_pos (file : Bytes) (pos n : Nat) : pos ≤ (binaryRead file pos n).2.1 := by
  unfold binaryRead
  simp only
  split
  · simp
  · split <;> simp

theorem loadIndexLoop_total (file : Bytes) :
    ∀ (fuel pos : Nat) (index : List IndexEntry), 0 < fuel → file.length < fuel + pos →
      ∃ ix, loadIndexLoop file fuel pos index = .ok ix := by
  intro fuel
  induction fuel with
  | zero => intro pos index h; omega
  | succ f ih =>
    intro pos index _ hlen
    rw [loadIndexLoop]
    by_cases h4 : ((file.drop pos).take 4).length = 4
    · have hb : binaryRead file pos 4 = (leValue ((file.drop pos).take 4), pos + 4, none) := by
        simp [binaryRead, h4]
      rw [hb]
      simp only
      by_cases hc : ((pos + 4 : Nat) : Int) ≥ (file.length : Int) - 8
      · rw [if_pos hc]; exact ⟨_, rfl⟩
      · rw [if_neg hc]
        have hp2 := binaryRead_pos file (pos + 4) 8
        rcases hr : binaryRead file (pos + 4) 8 with ⟨offset, pos2, e⟩
        rw [hr] at hp2
        simp only at hp2 ⊢
        rcases hk : fileRead file pos2 (leValue ((file.drop pos).take 4)) with ⟨key, n, e2⟩
        simp only
        push_cast at hc
        exact ih _ _ (by omega) (by omega)
    · by_cases h0 : ((file.drop pos).take 4).length = 0
      · have hb : binaryRead file pos 4 = (0, pos, some IOErr.eof) := by
          simp only [binaryRead, if_neg h4, if_pos h0]
        rw [hb]
        exact ⟨_, rfl⟩
      · have hb : binaryRead file pos 4
            = (0, pos + ((file.drop pos).take 4).length, some IOErr.unexpectedEOF) := by
          simp only [binaryRead, if_neg h4, if_neg h0]
        rw [hb]
        exact ⟨_, rfl⟩

theorem loadIndexLoop_past_end (file : Bytes) (fuel pos : Nat) (index : List IndexEntry)
    (h : file.length ≤ pos) : loadIndexLoop file (fuel + 1) pos index = .ok index := by
  rw [loadIndexLoop]
  have hd : file.drop pos = [] := List.drop_eq_nil_of_le h
  have hb : binaryRead file pos 4 = (0, pos, some IOErr.eof) := by
    simp [binaryRead, hd]
  rw [hb]

theorem footer_read (file : Bytes) (h : 8 ≤ file.length) :
    binaryRead file (file.length - 8) 8
      = (leValue (file.drop (file.length - 8)), file.length - 8 + 8, none) ∧
      leValue (file.drop (file.length - 8)) < 2 ^ 64 := by
  have hl : (file.drop (file.length - 8)).length = 8 := by
    rw [List.length_drop]; omega
  have ht : (file.drop (file.length - 8)).take 8 = file.drop (file.length - 8) :=
    List.take_of_length_le (by omega)
  constructor
  · simp only [binaryRead, ht, hl, if_true]
  · have := leValue_lt (file.drop (file.length - 8))
    rw [hl] at this
    omega

theorem asInt64_neg_iff (v : Nat) (h : v < 2 ^ 64) : asInt64 v < 0 ↔ 2 ^ 63 ≤ v := by
  unfold asInt64
  rw [Nat.mod_eq_of_lt h]
  split <;> omega

theorem open_short (file : Bytes) (h : file.length < 8) : Open file = .ok (.error IOErr.seek) := by
  simp [Open, loadIndex, h]

theorem open_bad_footer (file : Bytes) (h : 8 ≤ file.length)
    (hf : 2 ^ 63 ≤ leValue (file.drop (file.length - 8))) :
    Open file = .ok (.error IOErr.seek) := by
  obtain ⟨hr, hlt⟩ := footer_read file h
  have hseek : fileSeek file (asInt64 (leValue (file.drop (file.length - 8)))) = .ok none := by
    unfold fileSeek
    rw [if_pos ((asInt64_neg_iff _ hlt).mpr hf)]
  unfold Open loadIndex
  rw [if_neg (by omega), hr]
  simp only
  rw [hseek]

theorem open_accepts (file : Bytes) (h : 8 ≤ file.length)
    (hf : leValue (file.drop (file.length - 8)) < 2 ^ 63)
    (hin : leValue (file.drop (file.length - 8)) ≤ file.length) :
    ∃ index, Open file = .ok (.ok ⟨file, index⟩) ∧
      (leValue (file.drop (file.length - 8)) = file.length → index = []) := by
  obtain ⟨hr, hlt⟩ := footer_read file h
  obtain ⟨ix, hix⟩ := loadIndexLoop_total file (file.length + 1)
    (leValue (file.drop (file.length - 8))) [] (by omega) (by omega)
  refine ⟨ix, ?_, ?_⟩
  · unfold Open loadIndex
    rw [if_neg (by omega), hr]
    simp only
    rw [asInt64_small _ hf, fileSeek_in _ _ hin]
    simp only [hix]
  · intro hend
    rw [loadIndexLoop_past_end file _ _ [] (by omega)] at hix
    exact (Except.ok.inj hix).symm

theorem open_env (file : Bytes) (h : 8 ≤ file.length)
    (hf : leValue (file.drop (file.length - 8)) < 2 ^ 63)
    (hout : file.length < leValue (file.drop (file.length - 8))) :
    Open file = .error Fault.env := by
  obtain ⟨hr, hlt⟩ := footer_read file h
  have hseek : fileSeek file (asInt64 (leValue (file.drop (file.length - 8))))
      = .error Fault.env := by
    rw [asInt64_small _ hf]
    unfold fileSeek
    rw [if_neg (by omega), Int.toNat_ofNat, if_neg (by omega)]
  unfold Open loadIndex
  rw [if_neg (by omega), hr]
  simp only
  rw [hseek]

theorem sstLayout_footer (rs : List Record) :
    8 ≤ (sstLayout rs).length ∧ (dataSection rs).length ≤ (sstLayout rs).length ∧
      (sstLayout rs).drop ((sstLayout rs).length - 8) = putUint64 (dataSection rs).length := by
  have hfoot : (putUint64 (dataSection rs).length).length = 8 := rfl
  have hlen : (sstLayout rs).length
      = (dataSection rs ++ indexSection rs 0).length + 8 := by
    unfold sstLayout
    rw [List.length_append, hfoot]
  refine ⟨by omega, ?_, ?_⟩
  · rw [hlen, List.length_append]; omega
  · rw [hlen, Nat.add_sub_cancel]
    unfold sstLayout
    rw [List.drop_left]

theorem Open_layout_some (rs : List Record) (hsz : (dataSection rs).length < 2 ^ 63) :
    ∃ ix, Open (sstLayout rs) = .ok (.ok ⟨sstLayout rs, ix⟩) ∧
      ((∀ r ∈ rs, r.key.length ≤ maxRW) → ix = indexOf rs 0) := by
  obtain ⟨h8, hle, hdrop⟩ := sstLayout_footer rs
  have hval : leValue ((sstLayout rs).drop ((sstLayout rs).length - 8))
      = (dataSection rs).length := by
    rw [hdrop, leValue_putUint64 _ (by omega)]
  obtain ⟨ix, hix, _⟩ := open_accepts (sstLayout rs) h8 (by rw [hval]; exact hsz)
    (by rw [hval]; exact hle)
  refine ⟨ix, hix, ?_⟩
  intro hk
  have h2 := Open_layout rs hk hsz
  rw [hix] at h2
  have h3 : (⟨sstLayout rs, ix⟩ : Reader) = ⟨sstLayout rs, indexOf rs 0⟩ :=
    Except.ok.inj (Except.ok.inj h2)
  exact congrArg Reader.index h3

/-! ## Engine: the records `Compact` writes -/

theorem mem_mergedRecords (m : GoMap) (r : Record) :
    r ∈ mergedRecords m ↔ ∃ k v, mapFind m k = some v ∧ r = ⟨0, k, v⟩ := by
  simp only [mergedRecords, List.mem_map]
  constructor
  · rintro ⟨k, hk, rfl⟩
    have hk2 : k ∈ m.map Prod.fst := (sortStrings_perm _).subset hk
    obtain ⟨v, hv⟩ := (mapFind_isSome_iff m k).mpr hk2
    exact ⟨k, v, hv, by rw [mapGet_of_find m k v hv]⟩
  · rintro ⟨k, v, hv, rfl⟩
    have hk2 : k ∈ m.map Prod.fst := (mapFind_isSome_iff m k).mp ⟨v, hv⟩
    exact ⟨k, (sortStrings_perm _).mem_iff.mpr hk2, by rw [mapGet_of_find m k v hv]⟩

theorem compact_map_find (t1 t2 : List Record) (q : Bytes) :
    mapFind (loadKeys t1 (t1.map (fun r => r.key)) (loadKeys t2 (t2.map (fun r => r.key)) [])) q
      = if (recGet t1 q).2.1 = true then some (recGet t1 q).1
        else if (recGet t2 q).2.1 = true then some (recGet t2 q).1 else none := by
  rw [loadKeys_find, loadKeys_find]
  have m1 := mem_keys_of_found t1 q
  have m2 := mem_keys_of_found t2 q
  by_cases h1 : (recGet t1 q).2.1 = true
  · simp [h1, m1 h1]
  · by_cases h2 : (recGet t2 q).2.1 = true
    · simp [h1, h2, m2 h2]
    · simp [h1, h2, mapFind]

theorem compactRecords_newer (t1 t2 : List Record)
    (hs1 : t1.Pairwise (fun a b => bytesCompare a.key b.key < 0)) (r : Record) (hr : r ∈ t1)
    (ht : r.entryType ≠ 1) :
    (⟨0, r.key, capRead r.value⟩ : Record) ∈ compactRecords t1 t2 := by
  unfold compactRecords
  rw [mem_mergedRecords]
  refine ⟨r.key, capRead r.value, ?_, rfl⟩
  rw [compact_map_find, recGet_of_mem t1 hs1 r hr, if_neg ht]
  simp

theorem compactRecords_older (t1 t2 : List Record)
    (hs2 : t2.Pairwise (fun a b => bytesCompare a.key b.key < 0)) (r : Record) (hr : r ∈ t2)
    (ht : r.entryType ≠ 1) (hno : ∀ r1 ∈ t1, r1.key ≠ r.key) :
    (⟨0, r.key, capRead r.value⟩ : Record) ∈ compactRecords t1 t2 := by
  unfold compactRecords
  rw [mem_mergedRecords]
  refine ⟨r.key, capRead r.value, ?_, rfl⟩
  rw [compact_map_find, recGet_of_not_mem t1 r.key hno, recGet_of_mem t2 hs2 r hr, if_neg ht]
  simp

theorem compactRecords_sorted (t1 t2 : List Record) :
    (compactRecords t1 t2).Pairwise (fun a b => bytesCompare a.key b.key < 0) := by
  have hn : ((loadKeys t1 (t1.map (fun r => r.key))
      (loadKeys t2 (t2.map (fun r => r.key)) [])).map Prod.fst).Nodup :=
    loadKeys_nodup _ _ _ (loadKeys_nodup _ _ _ List.nodup_nil)
  unfold compactRecords mergedRecords
  rw [List.pairwise_map]
  exact sortStrings_strict _ hn

theorem append_two_inj {α : Type} {p q : List α} {a b c d : α}
    (h : p ++ [a, b] = q ++ [c, d]) : p = q ∧ a = c ∧ b = d := by
  have := List.append_inj' h rfl
  obtain ⟨h1, h2⟩ := this
  simp only [List.cons.injEq, and_true] at h2
  exact ⟨h1, h2.1, h2.2⟩

theorem engine_compact_two (l : LSM) (L : List Nat) (pre : List (List Record))
    (t1 t2 : List Record) (wf : l.WF L (pre ++ [t1, t2]))
    (hb : footprint (entriesOf l.memTable.list.heap L) (pre ++ [t1, t2]) < 2 ^ 63) :
    ∃ ix, l.Compact = .ok (⟨l.memTable, l.sstTables.take (l.sstTables.length - 2)
        ++ [some ⟨sstLayout (compactRecords t1 t2), ix⟩], l.maxMemSize⟩, none) ∧
      l.compactFile = .ok (some (sstLayout (compactRecords t1 t2))) ∧
      Open (sstLayout (compactRecords t1 t2))
        = .ok (.ok ⟨sstLayout (compactRecords t1 t2), ix⟩) ∧
      ValidRecords (compactRecords t1 t2) ∧
      l.sstTables = pre.map (fun rs => some (readerOf rs))
        ++ [some (readerOf t1), some (readerOf t2)] ∧
      ((∀ r ∈ t1, r.key.length ≤ maxRW) → (∀ r ∈ t2, r.key.length ≤ maxRW) →
        ix = indexOf (compactRecords t1 t2) 0) := by
  have hv1 : ValidRecords t1 := wf.valid t1 (by simp)
  have hv2 : ValidRecords t2 := wf.valid t2 (by simp)
  have hfp := footprint_ge_last_two (entriesOf l.memTable.list.heap L) pre t1 t2
  obtain ⟨cv, csz⟩ := compactRecords_valid t1 t2 hv1 hv2 (by omega)
  have hsst : l.sstTables = pre.map (fun rs => some (readerOf rs))
      ++ [some (readerOf t1), some (readerOf t2)] := by
    rw [wf.readers]; simp
  have hlen2 : l.sstTables.length = pre.length + 2 := by rw [hsst]; simp
  have hg1 : l.sstTables[l.sstTables.length - 2]? = some (some (readerOf t1)) := by
    rw [hlen2, hsst]
    rw [List.getElem?_append_right (by simp)]
    simp
  have hg2 : l.sstTables[l.sstTables.length - 1]? = some (some (readerOf t2)) := by
    rw [hlen2, hsst]
    rw [List.getElem?_append_right (by simp)]
    simp
  have hw : (writePairs NewWriter
      ((sortStrings ((loadKeys t1 (t1.map (fun r => r.key))
        (loadKeys t2 (t2.map (fun r => r.key)) [])).map Prod.fst)).map
        (fun k => (⟨0, k, mapGet (loadKeys t1 (t1.map (fun r => r.key))
          (loadKeys t2 (t2.map (fun r => r.key)) [])) k⟩ : Record)))).Close
      = sstLayout (compactRecords t1 t2) := by
    rw [writer_layout]; rfl
  obtain ⟨ix, hopen, hexact⟩ := Open_layout_some (compactRecords t1 t2) cv.size
  refine ⟨ix, ?_, ?_, hopen, cv, hsst, ?_⟩
  · unfold LSM.Compact
    rw [if_neg (by omega), hg1, hg2]
    simp only [loadIntoMap_eq t2 hv2, loadIntoMap_eq t1 hv1]
    rw [writeMerged_eq, hw, hopen]
  · unfold LSM.compactFile
    rw [if_neg (by omega), hg1, hg2]
    simp only [loadIntoMap_eq t2 hv2, loadIntoMap_eq t1 hv1]
    rw [writeMerged_eq, hw]
  · intro h1 h2
    exact hexact (compactRecords_keys_small t1 t2 h1 h2)

theorem compactRecords_type (t1 t2 : List Record) (c : Record) (hc : c ∈ compactRecords t1 t2) :
    c.entryType = 0 := by
  unfold compactRecords at hc
  obtain ⟨k, v, _, rfl⟩ := (mem_mergedRecords _ c).mp hc
  rfl

theorem compactRecords_unique (t1 t2 : List Record) (c d : Record)
    (hc : c ∈ compactRecords t1 t2) (hd : d ∈ compactRecords t1 t2) (hk : c.key = d.key) :
    c = d := by
  unfold compactRecords at hc hd
  obtain ⟨k, v, hf, rfl⟩ := (mem_mergedRecords _ c).mp hc
  obtain ⟨k2, v2, hf2, rfl⟩ := (mem_mergedRecords _ d).mp hd
  have hk2 : k = k2 := hk
  subst hk2
  rw [hf] at hf2
  rw [Option.some.inj hf2]

theorem flush_reader_get (E : List (Bytes × Bytes))
    (hv : ValidRecords (E.map liveRecord)) (e : Bytes × Bytes) (he : e ∈ E) :
    (readerOf (E.map liveRecord)).Get e.1 = .ok (capRead e.2, true, none) := by
  have hm : liveRecord e ∈ E.map liveRecord := List.mem_map_of_mem _ he
  have h := recGet_of_mem _ hv.sorted (liveRecord e) hm
  rw [readerOf, reader_get_layout _ hv]
  show Except.ok (recGet (E.map liveRecord) (liveRecord e).key) = _
  rw [h]
  rfl

theorem engine_flush_ok (l : LSM) (L : List Nat) (tables : List (List Record))
    (wf : l.WF L tables) (hsz : entriesSize (entriesOf l.memTable.list.heap L) < 2 ^ 63) :
    ∃ ix, l.flush = .ok (⟨NewMemTable [] l.maxMemSize,
        some ⟨sstLayout ((entriesOf l.memTable.list.heap L).map liveRecord), ix⟩
          :: l.sstTables, l.maxMemSize⟩, none) ∧
      ((∀ e ∈ entriesOf l.memTable.list.heap L, e.1.length ≤ maxRW) →
        ix = indexOf ((entriesOf l.memTable.list.heap L).map liveRecord) 0) := by
  obtain ⟨hit, hlk, hlen⟩ := inv_iter _ L wf.mem
  have hvalid := liveRecords_valid _ (entries_sorted _ L wf.mem) wf.memKeys hsz
  obtain ⟨ix, hopen, hexact⟩ := Open_layout_some _ hvalid.size
  refine ⟨ix, ?_, ?_⟩
  · unfold LSM.flush MemTable.GetIterator
    rw [hit]
    simp only
    rw [flushLoop_spec _ L _ _ hlk hlen]
    simp only [writer_layout, hopen]
  · intro hks
    apply hexact
    intro r hr
    obtain ⟨e, he, rfl⟩ := List.mem_map.mp hr
    exact hks e he

/-! ## The read hierarchy past a type-1 record; the flush threshold of `Put` -/

theorem tablesGet_skip (newer rest : List (List Record)) (k : Bytes)
    (h : ∀ rs ∈ newer, ∀ r ∈ rs, r.key ≠ k) :
    tablesGet (newer ++ rest) k = tablesGet rest k := by
  induction newer with
  | nil => rfl
  | cons rs newer ih =>
    rw [List.cons_append, tablesGet,
      recGet_of_not_mem rs k (h rs (List.mem_cons_self _ _))]
    exact ih (fun rs1 h1 => h rs1 (List.mem_cons_of_mem _ h1))

theorem wrapInt64_range (x : Int) (h0 : -(2 ^ 63) ≤ x) (h1 : x < 2 ^ 63) : wrapInt64 x = x := by
  unfold wrapInt64
  omega

theorem engine_put_cases (l : LSM) (L : List Nat) (tables : List (List Record))
    (wf : l.WF L tables) (k v : Bytes) (flips : List Bool)
    (hk : k.length < 2 ^ 32) (hv : v.length < 2 ^ 32)
    (hb : footprint (entriesOf l.memTable.list.heap L) tables + (9 + k.length + v.length)
      < 2 ^ 63)
    (hc0 : -(2 ^ 63) ≤ l.memTable.currSize + ((k.length : Int) + (v.length : Int)))
    (hc1 : l.memTable.currSize + ((k.length : Int) + (v.length : Int)) < 2 ^ 63) :
    ∃ l1, l.Put k v flips none = .ok (l1, none) ∧
      (l.memTable.currSize + ((k.length : Int) + (v.length : Int)) ≥ l.maxMemSize →
        (∃ rd, l1.sstTables = some rd :: l.sstTables) ∧
          l1.memTable = NewMemTable [] l.maxMemSize) ∧
      (l.memTable.currSize + ((k.length : Int) + (v.length : Int)) < l.maxMemSize →
        l1.sstTables = l.sstTables ∧ l1.memTable.Get k = .ok (v, true) ∧
          l1.memTable.currSize
            = l.memTable.currSize + ((k.length : Int) + (v.length : Int))) := by
  obtain ⟨m1, L1, e1, i1, a1, hmax⟩ := memtable_put_spec l.memTable L wf.mem k v flips
  have hsize := entriesSize_absPut k v (entriesOf l.memTable.list.heap L)
  have hcs : m1.currSize = l.memTable.currSize + ((k.length : Int) + (v.length : Int)) := by
    rw [(memtable_put_size _ _ k v flips e1).1,
      wrapInt64_small ((k.length : Int) + (v.length : Int)) (by omega) (by omega),
      wrapInt64_range _ hc0 hc1]
  have hms : m1.maxSize = l.maxMemSize := by rw [hmax]; exact wf.limit
  have wf1 : LSM.WF { l with memTable := m1 } L1 tables := by
    constructor
    · exact i1
    · intro e he
      show e.1.length < 2 ^ 32 ∧ e.2.length < 2 ^ 32
      have he' : e ∈ entriesOf m1.list.heap L1 := he
      rw [a1] at he'
      rcases mem_absPut k v _ e he' with h | h
      · rw [h]; exact ⟨hk, hv⟩
      · exact wf.memKeys e h
    · exact wf.readers
    · exact wf.valid
    · exact hms
  have hfp : footprint (entriesOf m1.list.heap L1) tables
      ≤ footprint (entriesOf l.memTable.list.heap L) tables + (9 + k.length + v.length) := by
    rw [a1]; unfold footprint; omega
  have hfull : m1.IsFull = true
      ↔ l.memTable.currSize + ((k.length : Int) + (v.length : Int)) ≥ l.maxMemSize := by
    unfold MemTable.IsFull
    rw [decide_eq_true_iff, hcs, hms]
  unfold LSM.Put
  rw [e1]
  simp only
  by_cases hf : m1.IsFull = true
  · rw [if_pos hf]
    have hsz : entriesSize (entriesOf m1.list.heap L1) < 2 ^ 63 := by
      have := entriesSize_le_footprint (entriesOf m1.list.heap L1) tables
      omega
    obtain ⟨ix, f1, _⟩ := engine_flush_ok { l with memTable := m1 } L1 tables wf1 hsz
    refine ⟨_, f1, fun _ => ⟨⟨_, rfl⟩, rfl⟩, ?_⟩
    intro hlt
    have := hfull.mp hf
    omega
  · rw [if_neg hf]
    refine ⟨_, rfl, ?_, fun _ => ⟨rfl, ?_, hcs⟩⟩
    · intro hge
      exact absurd (hfull.mpr hge) hf
    · show m1.list.Get k = _
      rw [skiplist_get_spec _ L1 i1 k, a1, absGet_absPut, if_pos rfl]

/-! ## The chains of a skip list; runs of `Put` and `Get` -/

theorem chainFrom_spec (heap : List Node) (i : Nat) (ps : List Nat) :
    ∀ fuel, Linked heap i ps none → ps.length ≤ fuel →
      chainFrom heap i fuel (headOr ps none) = .ok ps := by
  induction ps with
  | nil => intro fuel _ _; cases fuel <;> rfl
  | cons p ps ih =>
    intro fuel hl hf
    cases fuel with
    | zero => simp at hf
    | succ f =>
      show chainFrom heap i (f + 1) (some p) = _
      rw [chainFrom]
      simp only [hl.1, ih f hl.2 (by simpa using hf)]

theorem levelChain_spec (s : SkipList) (L : List Nat) (inv : s.Inv L) (i : Nat)
    (hi : i < MaxLevel) : s.levelChain i = .ok (levelOf s.heap i L) := by
  have hl := inv.linked i hi
  rw [levelOf_head _ _ _ (by rw [inv.head_height]; exact hi)] at hl
  have hlen : (levelOf s.heap i L).length ≤ s.heap.length := by
    have h1 : (levelOf s.heap i L).length ≤ L.length := List.length_filter_le _ _
    have := inv.size
    omega
  unfold SkipList.levelChain
  rw [inv.head_zero, hl.1]
  exact chainFrom_spec _ _ _ _ hl.2 hlen

theorem levelOf_sublist (heap : List Node) (i j : Nat) (A : List Nat) (h : j ≤ i) :
    (levelOf heap i A).Sublist (levelOf heap j A) := by
  induction A with
  | nil => exact List.Sublist.refl _
  | cons a A ih =>
    simp only [levelOf, List.filter_cons] at ih ⊢
    by_cases hi : i < heightAt heap a
    · have hj : j < heightAt heap a := by omega
      simp only [hi, hj, decide_True, if_true]
      exact ih.cons₂ a
    · by_cases hj : j < heightAt heap a
      · simp only [hi, hj, decide_True, decide_False, if_true]
        exact List.Sublist.cons a ih
      · simp only [hi, hj, decide_False]
        exact ih

theorem inv_all_nodes (s : SkipList) (L : List Nat) (inv : s.Inv L) (p : Nat) :
    p ∈ L ↔ p ≠ s.head ∧ p < s.heap.length := by
  have hnd : L.Nodup := (List.nodup_cons.mp inv.nodup).2
  have h0 : 0 ∉ L := (List.nodup_cons.mp inv.nodup).1
  constructor
  · intro hp
    refine ⟨?_, inv.alloc p hp⟩
    rw [inv.head_zero]
    intro e
    exact h0 (e ▸ hp)
  · rintro ⟨hne, hlt⟩
    rw [inv.head_zero] at hne
    have hsub : L.toFinset ⊆ Finset.Ico 1 s.heap.length := by
      intro q hq
      have hq1 : q ∈ L := List.mem_toFinset.mp hq
      have := inv.alloc q hq1
      have hq0 : q ≠ 0 := fun e => h0 (e ▸ hq1)
      simp only [Finset.mem_Ico]
      omega
    have hcard : (Finset.Ico 1 s.heap.length).card ≤ L.toFinset.card := by
      rw [List.toFinset_card_of_nodup hnd, Nat.card_Ico]
      have := inv.size
      omega
    have heq := Finset.eq_of_subset_of_card_le hsub hcard
    have hp : p ∈ Finset.Ico 1 s.heap.length := by
      simp only [Finset.mem_Ico]
      omega
    rw [← heq] at hp
    exact List.mem_toFinset.mp hp

theorem listRun_spec (ops : List ListOp) :
    ∀ (s : SkipList) (L : List Nat), s.Inv L →
      ∃ s1 L1 outs, listRun s ops = .ok (s1, outs) ∧ s1.Inv L1 := by
  induction ops with
  | nil => intro s L inv; exact ⟨s, L, [], rfl, inv⟩
  | cons op ops ih =>
    intro s L inv
    cases op with
    | put k v flips =>
      obtain ⟨s1, L1, e1, i1, _⟩ := skiplist_put_spec s L inv k v flips
      obtain ⟨s2, L2, outs, e2, i2⟩ := ih s1 L1 i1
      refine ⟨s2, L2, outs, ?_, i2⟩
      rw [listRun, e1]
      exact e2
    | get k =>
      obtain ⟨s2, L2, outs, e2, i2⟩ := ih s L inv
      refine ⟨s2, L2, absGet (entriesOf s.heap L) k :: outs, ?_, i2⟩
      rw [listRun, skiplist_get_spec s L inv k]
      simp only [e2]

/-! ## File names -/

theorem decimalLoop_head :
    ∀ (fuel n : Nat) (acc : Bytes),
      (0 < fuel ∨ ∃ d rest, acc = d :: rest ∧ d.val < 99) →
      ∃ d rest, decimalLoop fuel n acc = d :: rest ∧ d.val < 99 := by
  intro fuel
  induction fuel with
  | zero =>
    intro n acc h
    rcases h with h | h
    · omega
    · exact h
  | succ f ih =>
    intro n acc _
    rw [decimalLoop]
    by_cases hn : n < 10
    · rw [if_pos hn]
      refine ⟨_, _, rfl, ?_⟩
      simp only [toByte, Fin.ofNat]
      omega
    · rw [if_neg hn]
      refine ih _ _ (Or.inr ⟨_, _, rfl, ?_⟩)
      simp only [toByte, Fin.ofNat]
      omega

theorem sprintInt_head (n : Int) : ∃ d rest, sprintInt n = d :: rest ∧ d.val < 99 := by
  unfold sprintInt
  split
  · exact ⟨45, _, rfl, by decide⟩
  · exact decimalLoop_head 20 _ [] (Or.inl (by omega))

theorem flushName_lt_compactedName (a b : Int) :
    bytesCompare (flushName b) (compactedName a) < 0 := by
  obtain ⟨d, rest, hd, hlt⟩ := sprintInt_head b
  have h : (d : Byte) < 99 := by
    rw [Fin.lt_def]
    exact hlt
  unfold flushName compactedName
  rw [hd]
  show bytesCompare (d :: (rest ++ sstSuffix)) (99 :: _) < 0
  rw [bytesCompare, if_pos h]
  decide
/-! ## Keys and values longer than one `Read` transfers -/

theorem capRead_ne_marker (v : Bytes) (h : v ≠ tombstoneMarker) :
    capRead v ≠ tombstoneMarker := by
  by_cases hs : v.length ≤ maxRW
  · rw [capRead_small v hs]; exact h
  · intro heq
    have hl := congrArg List.length heq
    rw [capRead_length] at hl
    have hm : tombstoneMarker.length = 16 := rfl
    have hr : maxRW = 2 ^ 30 := rfl
    omega

theorem bigValue_length : bigValue.length = maxRW + 1 := List.length_replicate _ _

theorem bigValue_sized : bigValue.length < 2 ^ 32 := by
  rw [bigValue_length]
  have hr : maxRW = 2 ^ 30 := rfl
  omega

theorem bigValue_live : bigValue ≠ tombstoneMarker := by
  intro h
  have hl := congrArg List.length h
  rw [bigValue_length] at hl
  have hm : tombstoneMarker.length = 16 := rfl
  have hr : maxRW = 2 ^ 30 := rfl
  omega

theorem capRead_bigValue : capRead bigValue = List.replicate maxRW 1 ++ [0] := by
  unfold capRead
  rw [bigValue_length]
  unfold bigValue
  rw [List.take_replicate, Nat.min_eq_left (Nat.le_succ _), Nat.add_sub_cancel_left]
  rfl

theorem bigValue_cut : List.replicate maxRW 1 ++ [0] ≠ bigValue := by
  intro h
  have h1 : (List.replicate maxRW (1 : Byte) ++ [0])[maxRW]? = bigValue[maxRW]? := by rw [h]
  rw [List.getElem?_append_right (by rw [List.length_replicate]), List.length_replicate,
    Nat.sub_self] at h1
  unfold bigValue at h1
  rw [List.getElem?_replicate, if_pos (Nat.lt_succ_self _)] at h1
  exact absurd (Option.some.inj h1) (by decide)

theorem valid_single (t : Byte) (k v : Bytes) (hk : k.length < 2 ^ 32)
    (hv : v.length < 2 ^ 32) : ValidRecords [⟨t, k, v⟩] := by
  refine ⟨List.pairwise_singleton _ _, ?_, ?_, ?_⟩
  · intro r hr
    rw [List.mem_singleton] at hr
    subst hr
    exact hk
  · intro r hr
    rw [List.mem_singleton] at hr
    subst hr
    exact hv
  · rw [dataSection_length_cons]
    show 9 + k.length + v.length + 0 < 2 ^ 63
    omega

theorem engine_put_state (l : LSM) (L : List Nat) (tables : List (List Record))
    (wf : l.WF L tables) (k v : Bytes) (flips : List Bool)
    (hk : k.length < 2 ^ 32) (hv : v.length < 2 ^ 32)
    (hc0 : -(2 ^ 63) ≤ l.memTable.currSize + ((k.length : Int) + (v.length : Int)))
    (hc1 : l.memTable.currSize + ((k.length : Int) + (v.length : Int)) < 2 ^ 63) :
    ∃ m1 L1, LSM.WF { l with memTable := m1 } L1 tables ∧
      entriesOf m1.list.heap L1 = absPut k v (entriesOf l.memTable.list.heap L) ∧
      m1.currSize = l.memTable.currSize + ((k.length : Int) + (v.length : Int)) ∧
      l.Put k v flips none
        = if l.memTable.currSize + ((k.length : Int) + (v.length : Int)) ≥ l.maxMemSize
          then LSM.flush { l with memTable := m1 }
          else .ok ({ l with memTable := m1 }, none) := by
  obtain ⟨m1, L1, e1, i1, a1, hmax⟩ := memtable_put_spec l.memTable L wf.mem k v flips
  have hcs : m1.currSize = l.memTable.currSize + ((k.length : Int) + (v.length : Int)) := by
    rw [(memtable_put_size _ _ k v flips e1).1,
      wrapInt64_small ((k.length : Int) + (v.length : Int)) (by omega) (by omega),
      wrapInt64_range _ hc0 hc1]
  have hms : m1.maxSize = l.maxMemSize := by rw [hmax]; exact wf.limit
  have wf1 : LSM.WF { l with memTable := m1 } L1 tables := by
    constructor
    · exact i1
    · intro e he
      show e.1.length < 2 ^ 32 ∧ e.2.length < 2 ^ 32
      have he' : e ∈ entriesOf m1.list.heap L1 := he
      rw [a1] at he'
      rcases mem_absPut k v _ e he' with h | h
      · rw [h]; exact ⟨hk, hv⟩
      · exact wf.memKeys e h
    · exact wf.readers
    · exact wf.valid
    · exact hms
  have hfull : m1.IsFull = true
      ↔ l.memTable.currSize + ((k.length : Int) + (v.length : Int)) ≥ l.maxMemSize := by
    unfold MemTable.IsFull
    rw [decide_eq_true_iff, hcs, hms]
  refine ⟨m1, L1, wf1, a1, hcs, ?_⟩
  unfold LSM.Put
  rw [e1]
  simp only
  by_cases hf : m1.IsFull = true
  · rw [if_pos hf, if_pos (hfull.mp hf)]
  · rw [if_neg hf, if_neg (fun h => hf (hfull.mpr h))]

theorem engine_delete_state (l : LSM) (L : List Nat) (tables : List (List Record))
    (wf : l.WF L tables) (k : Bytes) (flips : List Bool) (hk : k.length < 2 ^ 32)
    (hc0 : -(2 ^ 63) ≤ l.memTable.currSize
      + ((k.length : Int) + (tombstoneMarker.length : Int)))
    (hc1 : l.memTable.currSize + ((k.length : Int) + (tombstoneMarker.length : Int))
      < 2 ^ 63) :
    ∃ m1 L1, LSM.WF { l with memTable := m1 } L1 tables ∧
      entriesOf m1.list.heap L1 = absPut k tombstoneMarker (entriesOf l.memTable.list.heap L) ∧
      m1.currSize
        = l.memTable.currSize + ((k.length : Int) + (tombstoneMarker.length : Int)) ∧
      l.Delete k flips none = .ok ({ l with memTable := m1 }, none) := by
  obtain ⟨m1, L1, e1, i1, a1, hmax⟩ :=
    memtable_put_spec l.memTable L wf.mem k tombstoneMarker flips
  have hm : tombstoneMarker.length < 2 ^ 32 := by decide
  have hcs : m1.currSize
      = l.memTable.currSize + ((k.length : Int) + (tombstoneMarker.length : Int)) := by
    rw [(memtable_put_size _ _ k tombstoneMarker flips e1).1,
      wrapInt64_small ((k.length : Int) + (tombstoneMarker.length : Int)) (by omega) (by omega),
      wrapInt64_range _ hc0 hc1]
  refine ⟨m1, L1, ?_, a1, hcs, ?_⟩
  · constructor
    · exact i1
    · intro e he
      show e.1.length < 2 ^ 32 ∧ e.2.length < 2 ^ 32
      have he' : e ∈ entriesOf m1.list.heap L1 := he
      rw [a1] at he'
      rcases mem_absPut k tombstoneMarker _ e he' with h | h
      · rw [h]; exact ⟨hk, hm⟩
      · exact wf.memKeys e h
    · exact wf.readers
    · exact wf.valid
    · show m1.maxSize = l.maxMemSize
      rw [hmax]; exact wf.limit
  · unfold LSM.Delete
    rw [e1]

/-- What `Get` returns for a key of the memtable once the memtable is flushed:
the value as one `Read` returns it. -/
theorem flush_then_get (l : LSM) (L : List Nat) (tables : List (List Record))
    (wf : l.WF L tables) (hks : ∀ e ∈ entriesOf l.memTable.list.heap L, e.1.length ≤ maxRW)
    (hsz : entriesSize (entriesOf l.memTable.list.heap L) < 2 ^ 63)
    (k v : Bytes) (hget : absGet (entriesOf l.memTable.list.heap L) k = (v, true))
    (hlive : v ≠ tombstoneMarker) :
    ∃ l1, l.flush = .ok (l1, none) ∧ l1.Get k = .ok (capRead v, true, none) := by
  obtain ⟨f1, wf1⟩ := engine_flush_spec l L tables wf hks hsz
  refine ⟨_, f1, ?_⟩
  rw [engine_get_spec _ [] _ wf1 k]
  simp only [viewGet, absGet, tablesGet, recGet_live, hget]
  rw [hitResult_live _ (capRead_ne_marker v hlive)]

theorem entriesSize_single (k v : Bytes) :
    entriesSize [(k, v)] = 9 + k.length + v.length := by
  simp [entriesSize]

theorem absGet_single (k v : Bytes) : absGet [(k, v)] k = (v, true) := by
  simp [absGet]

theorem absPut_nil (k v : Bytes) : absPut k v [] = [(k, v)] := rfl

theorem absPut_same (k v w : Bytes) : absPut k v [(k, w)] = [(k, v)] := by
  simp [absPut, bytesCompare_irrefl]

theorem run_cons (l l1 : LSM) (op : Op) (rest : List Op) (h : l.step op = .ok (l1, none)) :
    l.run (op :: rest) = l1.run rest := by
  simp only [LSM.run, h]

theorem run_nil (l : LSM) : l.run [] = .ok (l, none) := rfl

theorem step_put (l : LSM) (k v : Bytes) (f : List Bool) :
    l.step (Op.put k v f) = l.Put k v f none := rfl

theorem step_delete (l : LSM) (k : Bytes) (f : List Bool) :
    l.step (Op.delete k f) = l.Delete k f none := rfl

theorem step_flush (l : LSM) : l.step Op.flush = l.flush := rfl

/-- A fresh engine and one key: what `Get` returns after a `Put` that stays in
the memtable, after a flush of it, and after a second `Put` that flushes. -/
theorem fresh_put_get (limit : Int) (k v : Bytes) (f1 f2 : List Bool)
    (hk : k.length ≤ maxRW) (hv : v.length < 2 ^ 32) (hlive : v ≠ tombstoneMarker) :
    ((k.length : Int) + (v.length : Int) ≥ limit →
      ∃ l1, LSM.Put ⟨NewMemTable [] limit, [], limit⟩ k v f1 none = .ok (l1, none) ∧
        l1.Get k = .ok (capRead v, true, none)) ∧
    ((k.length : Int) + (v.length : Int) < limit →
      ∃ l1, LSM.Put ⟨NewMemTable [] limit, [], limit⟩ k v f1 none = .ok (l1, none) ∧
        l1.Get k = .ok (v, true, none) ∧
        (∃ l2, l1.flush = .ok (l2, none) ∧ l2.Get k = .ok (capRead v, true, none)) ∧
        (2 * ((k.length : Int) + (v.length : Int)) ≥ limit →
          ∃ l3, l1.Put k v f2 none = .ok (l3, none) ∧
            l3.Get k = .ok (capRead v, true, none))) := by
  have hm : maxRW = 2 ^ 30 := rfl
  have hk32 : k.length < 2 ^ 32 := by omega
  have wf0 : LSM.WF ⟨NewMemTable [] limit, [], limit⟩ [] [] :=
    NewMemTable_wf [] limit [] [] rfl (by intro rs h; cases h)
  have hcur : (NewMemTable [] limit).currSize = 0 := rfl
  obtain ⟨m1, L1, wf1, a1, c1, hput⟩ := engine_put_state ⟨NewMemTable [] limit, [], limit⟩
    [] [] wf0 k v f1 hk32 hv
    (by show -(2 ^ 63) ≤ (NewMemTable [] limit).currSize + _; rw [hcur]; omega)
    (by show (NewMemTable [] limit).currSize + _ < 2 ^ 63; rw [hcur]; omega)
  have hc1 : m1.currSize = (k.length : Int) + (v.length : Int) := by
    rw [c1]
    show (NewMemTable [] limit).currSize + _ = _
    rw [hcur, Int.zero_add]
  have hcond : (LSM.memTable ⟨NewMemTable [] limit, [], limit⟩).currSize
      + ((k.length : Int) + (v.length : Int)) = (k.length : Int) + (v.length : Int) := by
    show (NewMemTable [] limit).currSize + _ = _
    rw [hcur, Int.zero_add]
  rw [hcond] at hput
  have hE : entriesOf m1.list.heap L1 = [(k, v)] := a1
  have h1 : ∀ e ∈ entriesOf m1.list.heap L1, e.1.length ≤ maxRW := by
    intro e he
    rw [hE, List.mem_singleton] at he
    rw [he]; exact hk
  have h2 : entriesSize (entriesOf m1.list.heap L1) < 2 ^ 63 := by
    rw [hE, entriesSize_single]; omega
  have h3 : absGet (entriesOf m1.list.heap L1) k = (v, true) := by
    rw [hE, absGet_single]
  obtain ⟨l2, fl, gl⟩ := flush_then_get _ L1 [] wf1 h1 h2 k v h3 hlive
  have g1 : LSM.Get { (⟨NewMemTable [] limit, [], limit⟩ : LSM) with memTable := m1 } k
      = .ok (v, true, none) := by
    rw [engine_get_spec _ L1 [] wf1 k]
    show Except.ok (viewGet (entriesOf m1.list.heap L1) [] k) = _
    rw [hE, ← absPut_nil, viewGet_absPut, if_pos rfl, hitResult_live _ hlive]
  refine ⟨?_, ?_⟩
  · intro hge
    have hge' : (k.length : Int) + (v.length : Int)
        ≥ (LSM.maxMemSize ⟨NewMemTable [] limit, [], limit⟩) := hge
    rw [if_pos hge'] at hput
    exact ⟨l2, hput.trans fl, gl⟩
  · intro hlt
    have hlt' : ¬ ((k.length : Int) + (v.length : Int)
        ≥ (LSM.maxMemSize ⟨NewMemTable [] limit, [], limit⟩)) := by
      show ¬ ((k.length : Int) + (v.length : Int) ≥ limit)
      omega
    rw [if_neg hlt'] at hput
    refine ⟨_, hput, g1, ⟨l2, fl, gl⟩, ?_⟩
    intro h2x
    obtain ⟨m2, L2, wf2, a2, _, hput2⟩ := engine_put_state
      { (⟨NewMemTable [] limit, [], limit⟩ : LSM) with memTable := m1 }
      L1 [] wf1 k v f2 hk32 hv
      (by show -(2 ^ 63) ≤ m1.currSize + _; rw [hc1]; omega)
      (by show m1.currSize + _ < 2 ^ 63; rw [hc1]; omega)
    have hfull : m1.currSize + ((k.length : Int) + (v.length : Int)) ≥ limit := by
      rw [hc1]; omega
    rw [if_pos hfull] at hput2
    have hE2 : entriesOf m2.list.heap L2 = [(k, v)] := by
      rw [a2]
      show absPut k v (entriesOf m1.list.heap L1) = _
      rw [hE, absPut_same]
    obtain ⟨l3, f3, g3⟩ := flush_then_get _ L2 [] wf2
      (by intro e he
          have he' : e ∈ entriesOf m2.list.heap L2 := he
          rw [hE2, List.mem_singleton] at he'
          rw [he']; exact hk)
      (by show entriesSize (entriesOf m2.list.heap L2) < 2 ^ 63
          rw [hE2, entriesSize_single]; omega)
      k v (by show absGet (entriesOf m2.list.heap L2) k = (v, true)
              rw [hE2, absGet_single]) hlive
    exact ⟨l3, hput2.trans f3, g3⟩

theorem bigValue_sum : (([107] : Bytes).length : Int) + (bigValue.length : Int) = 2 ^ 30 + 2 := by
  have hm : maxRW = 2 ^ 30 := rfl
  have hk1 : ([107] : Bytes).length = 1 := rfl
  rw [hk1, bigValue_length, hm]
  norm_num

theorem key_small : ([107] : Bytes).length ≤ maxRW := by
  have hm : maxRW = 2 ^ 30 := rfl
  have hk1 : ([107] : Bytes).length = 1 := rfl
  rw [hk1, hm]; omega

/-! ## The index loop on a file whose index holds a key longer than one `Read` -/

theorem drop_shift (pre T : Bytes) (p : Nat) : (pre ++ T).drop (pre.length + p) = T.drop p := by
  rw [← List.drop_drop, List.drop_left]

theorem fileRead_shift (pre T : Bytes) (p n : Nat) :
    fileRead (pre ++ T) (pre.length + p) n = fileRead T p n := by
  unfold fileRead
  rw [drop_shift, List.length_append]
  by_cases h0 : n = 0
  · rw [if_pos h0, if_pos h0]
  · rw [if_neg h0, if_neg h0]
    by_cases h1 : T.length ≤ p
    · rw [if_pos h1, if_pos (by omega)]
    · rw [if_neg h1, if_neg (by omega)]

theorem binaryRead_shift (pre T : Bytes) (p n : Nat) :
    binaryRead (pre ++ T) (pre.length + p) n
      = ((binaryRead T p n).1, pre.length + (binaryRead T p n).2.1, (binaryRead T p n).2.2) := by
  unfold binaryRead
  rw [drop_shift]
  simp only
  by_cases h0 : ((T.drop p).take n).length = n
  · rw [if_pos h0, if_pos h0, Nat.add_assoc]
  · rw [if_neg h0, if_neg h0]
    by_cases h1 : ((T.drop p).take n).length = 0
    · rw [if_pos h1, if_pos h1]
    · rw [if_neg h1, if_neg h1, Nat.add_assoc]

theorem loadIndexLoop_shift (pre T : Bytes) :
    ∀ (fuel p : Nat) (acc : List IndexEntry),
      loadIndexLoop (pre ++ T) fuel (pre.length + p) acc = loadIndexLoop T fuel p acc := by
  intro fuel
  induction fuel with
  | zero => intro p acc; rfl
  | succ f ih =>
    intro p acc
    have hstep : ∀ (keyLen c : Nat),
        (if ((pre.length + c : Nat) : Int) ≥ ((pre ++ T).length : Int) - 8 then Except.ok acc
          else loadIndexLoop (pre ++ T) f
            ((binaryRead (pre ++ T) (pre.length + c) 8).2.1 +
              (fileRead (pre ++ T) (binaryRead (pre ++ T) (pre.length + c) 8).2.1 keyLen).2.1)
            (acc ++ [⟨(fileRead (pre ++ T) (binaryRead (pre ++ T) (pre.length + c) 8).2.1
                keyLen).1, asInt64 (binaryRead (pre ++ T) (pre.length + c) 8).1⟩]))
        = (if (c : Int) ≥ (T.length : Int) - 8 then Except.ok acc
          else loadIndexLoop T f
            ((binaryRead T c 8).2.1 + (fileRead T (binaryRead T c 8).2.1 keyLen).2.1)
            (acc ++ [⟨(fileRead T (binaryRead T c 8).2.1 keyLen).1,
              asInt64 (binaryRead T c 8).1⟩])) := by
      intro keyLen c
      by_cases hc : (c : Int) ≥ (T.length : Int) - 8
      · rw [if_pos hc, if_pos (by rw [List.length_append]; push_cast; omega)]
      · rw [if_neg hc, if_neg (by rw [List.length_append]; push_cast; omega)]
        rw [binaryRead_shift]
        simp only
        rw [fileRead_shift, Nat.add_assoc, ih]
    rw [loadIndexLoop, loadIndexLoop, binaryRead_shift]
    rcases h1 : binaryRead T p 4 with ⟨keyLen, c, e⟩
    cases e with
    | some err =>
      cases err <;> simp only
      · exact hstep keyLen c
      · exact hstep keyLen c
    | none =>
      simp only
      exact hstep keyLen c

theorem loadIndexLoop_acc (file : Bytes) :
    ∀ (fuel pos : Nat) (a r : List IndexEntry), loadIndexLoop file fuel pos a = .ok r →
      ∀ b, loadIndexLoop file fuel pos (b ++ a) = .ok (b ++ r) := by
  intro fuel
  induction fuel with
  | zero => intro pos a r h; rw [loadIndexLoop] at h; cases h
  | succ f ih =>
    intro pos a r h b
    rw [loadIndexLoop] at h ⊢
    rcases h1 : binaryRead file pos 4 with ⟨keyLen, c, e⟩
    rw [h1] at h
    have hstep : (if (c : Int) ≥ (file.length : Int) - 8 then Except.ok a
          else loadIndexLoop file f
            ((binaryRead file c 8).2.1 + (fileRead file (binaryRead file c 8).2.1 keyLen).2.1)
            (a ++ [⟨(fileRead file (binaryRead file c 8).2.1 keyLen).1,
              asInt64 (binaryRead file c 8).1⟩])) = .ok r →
        (if (c : Int) ≥ (file.length : Int) - 8 then Except.ok (b ++ a)
          else loadIndexLoop file f
            ((binaryRead file c 8).2.1 + (fileRead file (binaryRead file c 8).2.1 keyLen).2.1)
            (b ++ a ++ [⟨(fileRead file (binaryRead file c 8).2.1 keyLen).1,
              asInt64 (binaryRead file c 8).1⟩])) = .ok (b ++ r) := by
      intro h
      by_cases hc : (c : Int) ≥ (file.length : Int) - 8
      · rw [if_pos hc] at h ⊢
        rw [Except.ok.inj h]
      · rw [if_neg hc] at h ⊢
        rw [List.append_assoc]
        exact ih _ _ _ h b
    cases e with
    | some err =>
      cases err <;> simp only at h ⊢
      · rw [Except.ok.inj h]
      · rw [Except.ok.inj h]
      · exact hstep h
      · exact hstep h
    | none =>
      simp only at h ⊢
      exact hstep h

theorem loadIndexLoop_fuel (file : Bytes) :
    ∀ (fuel pos : Nat) (a r : List IndexEntry), loadIndexLoop file fuel pos a = .ok r →
      ∀ fuel1, fuel ≤ fuel1 → loadIndexLoop file fuel1 pos a = .ok r := by
  intro fuel
  induction fuel with
  | zero => intro pos a r h; rw [loadIndexLoop] at h; cases h
  | succ f ih =>
    intro pos a r h fuel1 hle
    obtain ⟨g, rfl⟩ : ∃ g, fuel1 = g + 1 := ⟨fuel1 - 1, by omega⟩
    rw [loadIndexLoop] at h ⊢
    rcases h1 : binaryRead file pos 4 with ⟨keyLen, c, e⟩
    rw [h1] at h
    have hstep : (if (c : Int) ≥ (file.length : Int) - 8 then Except.ok a
          else loadIndexLoop file f
            ((binaryRead file c 8).2.1 + (fileRead file (binaryRead file c 8).2.1 keyLen).2.1)
            (a ++ [⟨(fileRead file (binaryRead file c 8).2.1 keyLen).1,
              asInt64 (binaryRead file c 8).1⟩])) = .ok r →
        (if (c : Int) ≥ (file.length : Int) - 8 then Except.ok a
          else loadIndexLoop file g
            ((binaryRead file c 8).2.1 + (fileRead file (binaryRead file c 8).2.1 keyLen).2.1)
            (a ++ [⟨(fileRead file (binaryRead file c 8).2.1 keyLen).1,
              asInt64 (binaryRead file c 8).1⟩])) = .ok r := by
      intro h
      by_cases hc : (c : Int) ≥ (file.length : Int) - 8
      · rw [if_pos hc] at h ⊢
        exact h
      · rw [if_neg hc] at h ⊢
        exact ih _ _ _ h g (by omega)
    cases e with
    | some err =>
      cases err <;> simp only at h ⊢
      · exact h
      · exact h
      · exact hstep h
      · exact hstep h
    | none =>
      simp only at h ⊢
      exact hstep h

theorem loadIndexLoop_first (pre X tail : Bytes) (off fuel : Nat) (acc : List IndexEntry)
    (hkl : X.length < 2 ^ 32) (hoff : off < 2 ^ 64) (hX : 0 < X.length) :
    loadIndexLoop (pre ++ (putUint32 X.length ++ (putUint64 off ++ (X ++ tail)))) (fuel + 1)
        pre.length acc
      = loadIndexLoop (X.drop maxRW ++ tail) fuel 0 (acc ++ [⟨capRead X, asInt64 off⟩]) := by
  have hfile2 : pre ++ (putUint32 X.length ++ (putUint64 off ++ (X ++ tail)))
      = (pre ++ putUint32 X.length) ++ (putUint64 off ++ (X ++ tail)) := by
    simp only [List.append_assoc]
  have hfile3 : pre ++ (putUint32 X.length ++ (putUint64 off ++ (X ++ tail)))
      = (pre ++ putUint32 X.length ++ putUint64 off) ++ (X ++ tail) := by
    simp only [List.append_assoc]
  have hfile4 : pre ++ (putUint32 X.length ++ (putUint64 off ++ (X ++ tail)))
      = (pre ++ putUint32 X.length ++ putUint64 off ++ X.take maxRW)
          ++ (X.drop maxRW ++ tail) := by
    simp only [List.append_assoc]
    rw [← List.append_assoc (X.take maxRW), List.take_append_drop]
  have hr1 : binaryRead (pre ++ (putUint32 X.length ++ (putUint64 off ++ (X ++ tail))))
      pre.length 4 = (X.length, pre.length + 4, none) := by
    have := binaryRead_at pre (putUint32 X.length) (putUint64 off ++ (X ++ tail))
    rw [putUint32_length, leValue_putUint32 _ hkl] at this
    exact this
  have hr2 : binaryRead (pre ++ (putUint32 X.length ++ (putUint64 off ++ (X ++ tail))))
      (pre.length + 4) 8 = (off, pre.length + 4 + 8, none) := by
    have := binaryRead_at (pre ++ putUint32 X.length) (putUint64 off) (X ++ tail)
    rw [← hfile2, putUint64_length, leValue_putUint64 _ hoff, List.length_append,
      putUint32_length] at this
    exact this
  have hr3 : fileRead (pre ++ (putUint32 X.length ++ (putUint64 off ++ (X ++ tail))))
      (pre.length + 4 + 8) X.length = (capRead X, min X.length maxRW, none) := by
    have := fileRead_cap (pre ++ putUint32 X.length ++ putUint64 off) X tail
    rw [← hfile3, List.length_append, List.length_append, putUint32_length,
      putUint64_length] at this
    exact this
  have hlen : (pre ++ (putUint32 X.length ++ (putUint64 off ++ (X ++ tail)))).length
      = pre.length + 4 + 8 + X.length + tail.length := by
    simp only [List.length_append, putUint32_length, putUint64_length]
    omega
  have hpl : (pre ++ putUint32 X.length ++ putUint64 off ++ X.take maxRW).length + 0
      = pre.length + 4 + 8 + min X.length maxRW := by
    simp only [List.length_append, putUint32_length, putUint64_length, List.length_take]
    omega
  rw [loadIndexLoop, hr1]
  simp only
  rw [if_neg (by rw [hlen]; push_cast; omega), hr2]
  simp only
  rw [hr3]
  simp only
  rw [← hpl, hfile4, loadIndexLoop_shift]

theorem Open_of_loop (rs : List Record) (hsz : (dataSection rs).length < 2 ^ 63)
    (ix : List IndexEntry)
    (hloop : loadIndexLoop (sstLayout rs) ((sstLayout rs).length + 1) (dataSection rs).length []
      = .ok ix) :
    Open (sstLayout rs) = .ok (.ok ⟨sstLayout rs, ix⟩) := by
  obtain ⟨h8, hle, hdrop⟩ := sstLayout_footer rs
  obtain ⟨hr, _⟩ := footer_read (sstLayout rs) h8
  have hval : leValue ((sstLayout rs).drop ((sstLayout rs).length - 8))
      = (dataSection rs).length := by
    rw [hdrop, leValue_putUint64 _ (by omega)]
  unfold Open loadIndex
  rw [if_neg (by omega), hr]
  simp only
  rw [hval, asInt64_small _ hsz, fileSeek_in _ _ hle]
  simp only [hloop]

theorem Open_first_long (r : Record) (rs : List Record) (hk : r.key.length < 2 ^ 32)
    (hk0 : 0 < r.key.length) (hsz : (dataSection (r :: rs)).length < 2 ^ 63)
    (fuel : Nat) (hfuel : fuel ≤ (sstLayout (r :: rs)).length) (ix : List IndexEntry)
    (htail : loadIndexLoop (r.key.drop maxRW
        ++ (indexSection rs (0 + (9 + r.key.length + r.value.length))
          ++ putUint64 (dataSection (r :: rs)).length)) fuel 0 [] = .ok ix) :
    Open (sstLayout (r :: rs))
      = .ok (.ok ⟨sstLayout (r :: rs), ⟨capRead r.key, 0⟩ :: ix⟩) := by
  apply Open_of_loop _ hsz
  have hfile : sstLayout (r :: rs)
      = dataSection (r :: rs) ++ (putUint32 r.key.length ++ (putUint64 0 ++ (r.key
          ++ (indexSection rs (0 + (9 + r.key.length + r.value.length))
            ++ putUint64 (dataSection (r :: rs)).length)))) := by
    simp only [sstLayout, indexSection, asUint32_small _ hk, List.append_assoc]
  have h1 := loadIndexLoop_first (dataSection (r :: rs)) r.key
    (indexSection rs (0 + (9 + r.key.length + r.value.length))
      ++ putUint64 (dataSection (r :: rs)).length) 0 (sstLayout (r :: rs)).length []
    hk (by decide) hk0
  rw [← hfile] at h1
  rw [h1, asInt64_small 0 (by decide)]
  have h2 := loadIndexLoop_fuel _ _ _ _ _ htail (sstLayout (r :: rs)).length hfuel
  have h3 := loadIndexLoop_acc _ _ _ _ _ h2 ([] ++ [(⟨capRead r.key, ((0 : Nat) : Int)⟩ : IndexEntry)])
  rw [List.append_nil] at h3
  rw [h3]
  rfl

theorem engine_flush_open (l : LSM) (L : List Nat) (inv : l.memTable.list.Inv L)
    (E : List (Bytes × Bytes)) (hE : entriesOf l.memTable.list.heap L = E)
    (ix : List IndexEntry)
    (hopen : Open (sstLayout (E.map liveRecord))
      = .ok (.ok ⟨sstLayout (E.map liveRecord), ix⟩)) :
    l.flush = .ok (⟨NewMemTable [] l.maxMemSize,
        some ⟨sstLayout (E.map liveRecord), ix⟩ :: l.sstTables, l.maxMemSize⟩, none) := by
  obtain ⟨hit, hlk, hlen⟩ := inv_iter _ L inv
  unfold LSM.flush MemTable.GetIterator
  rw [hit]
  simp only
  rw [flushLoop_spec _ L _ _ hlk hlen, hE]
  simp only [writer_layout, hopen]

theorem bytesCompare_cons_lt (a b : Byte) (as bs : Bytes) (h : a < b) :
    bytesCompare (a :: as) (b :: bs) < 0 := by
  rw [bytesCompare, if_pos h]
  decide

theorem absPut_front (k v k1 v1 : Bytes) (rest : List (Bytes × Bytes))
    (h : bytesCompare k k1 < 0) :
    absPut k v ((k1, v1) :: rest) = (k, v) :: (k1, v1) :: rest := by
  have h1 : ¬ bytesCompare k1 k < 0 := bytesCompare_asymm h
  have h2 : k1 ≠ k := by
    intro e
    rw [e] at h
    exact bytesCompare_irrefl k h
  rw [absPut, if_neg h1, if_neg h2]

theorem search_two_miss (e0 e1 : IndexEntry) (key : Bytes)
    (h0 : bytesCompare e0.key key < 0) (h1 : bytesCompare e1.key key < 0) :
    search [e0, e1] key 2 0 1 = .ok none := by
  have n0 : bytesCompare e0.key key ≠ 0 := by omega
  have n1 : bytesCompare e1.key key ≠ 0 := by omega
  simp [search, h0, h1, n0, n1]

theorem search_three_mid (e0 e1 e2 : IndexEntry) (key : Bytes) (h : e1.key = key) :
    search [e0, e1, e2] key 3 0 2 = .ok (some e1) := by
  simp [search, h, bytesCompare_self]

theorem readEntry_offset (r : Reader) (e1 e2 : IndexEntry) (h : e1.offset = e2.offset) :
    r.readEntry e1 = r.readEntry e2 := by
  unfold Reader.readEntry
  rw [h]

theorem bigKey_length : bigKey.length = maxRW + 1 := List.length_replicate _ _

theorem capRead_bigKey : capRead bigKey = bigKey := by
  unfold capRead
  rw [bigKey_length]
  unfold bigKey
  have h1 : List.replicate 1 (0 : Byte) = [0] := rfl
  rw [List.take_replicate, Nat.min_eq_left (Nat.le_succ _), Nat.add_sub_cancel_left, h1,
    ← List.replicate_succ']

theorem bigKey_drop : bigKey.drop maxRW = [0] := by
  unfold bigKey
  rw [List.drop_replicate, Nat.add_sub_cancel_left]
  rfl

theorem bigKey_lt (b : Byte) (bs : Bytes) (h : 0 < b) : bytesCompare bigKey (b :: bs) < 0 := by
  unfold bigKey
  rw [List.replicate_succ]
  exact bytesCompare_cons_lt 0 b _ bs h
theorem trapKey_length : trapKey.length = maxRW + 13 := by
  unfold trapKey
  rw [List.length_append, List.length_replicate]
  rfl

theorem trapKey_drop : trapKey.drop maxRW = [1, 0, 0, 0, 0, 0, 0, 0, 0, 0, 0, 0, 107] := by
  unfold trapKey
  exact List.drop_left' (List.length_replicate _ _)

theorem capRead_trapKey : capRead trapKey = List.replicate maxRW 0 ++ List.replicate 13 0 := by
  unfold capRead
  rw [trapKey_length, Nat.add_sub_cancel_left]
  unfold trapKey
  rw [List.take_left' (List.length_replicate _ _)]

theorem trapKey_lt : bytesCompare trapKey [107] < 0 := by
  have hm : maxRW = (maxRW - 1) + 1 := by
    have : maxRW = 2 ^ 30 := rfl
    omega
  unfold trapKey
  rw [hm, List.replicate_succ]
  exact bytesCompare_cons_lt 0 107 _ [] (by decide)

theorem get_three_mid (file : Bytes) (e0 e1 e2 : IndexEntry) (key : Bytes) (h : e1.key = key) :
    (⟨file, [e0, e1, e2]⟩ : Reader).Get key = (⟨file, [e0, e1, e2]⟩ : Reader).readEntry e1 := by
  unfold Reader.Get
  have : search [e0, e1, e2] key ([e0, e1, e2] : List IndexEntry).length 0
      ((([e0, e1, e2] : List IndexEntry).length : Int) - 1) = .ok (some e1) :=
    search_three_mid e0 e1 e2 key h
  simp only [this]

theorem get_two_miss (file : Bytes) (e0 e1 : IndexEntry) (key : Bytes)
    (h0 : bytesCompare e0.key key < 0) (h1 : bytesCompare e1.key key < 0) :
    (⟨file, [e0, e1]⟩ : Reader).Get key = .ok ([], false, none) := by
  unfold Reader.Get
  have : search [e0, e1] key ([e0, e1] : List IndexEntry).length 0
      ((([e0, e1] : List IndexEntry).length : Int) - 1) = .ok none :=
    search_two_miss e0 e1 key h0 h1
  simp only [this]

theorem trap_tail :
    loadIndexLoop (([1, 0, 0, 0, 0, 0, 0, 0, 0, 0, 0, 0, 107] : Bytes)
        ++ (indexSection [⟨1, [107], [120]⟩] (2 ^ 30 + 26) ++ putUint64 (2 ^ 30 + 37))) 4 0 []
      = .ok [⟨[107], 0⟩, ⟨[107], 2 ^ 30 + 26⟩] := by
  decide

/-- An SST whose first key holds, past its first `maxRW` bytes, the bytes of an
index entry for `"k"`: the index loop reads that key short and then takes the
rest of it for an index entry. -/
theorem forged_index_entry (K : Bytes) (hkl : K.length = maxRW + 13)
    (hdrop : K.drop maxRW = [1, 0, 0, 0, 0, 0, 0, 0, 0, 0, 0, 0, 107]) :
    ∃ rd, Open (writePairs NewWriter
        [⟨0, K, [108, 105, 118, 101]⟩, ⟨1, [107], [120]⟩]).Close = .ok (.ok rd) ∧
      rd.index = [⟨capRead K, 0⟩, ⟨[107], 0⟩, ⟨[107], 2 ^ 30 + 26⟩] ∧
      rd.Get [107] = .ok ([108, 105, 118, 101], true, none) := by
  have hm : maxRW = 2 ^ 30 := rfl
  have hk : K.length < 2 ^ 32 := by rw [hkl, hm]; omega
  have hv4 : ([108, 105, 118, 101] : Bytes).length = 4 := rfl
  have hd : (dataSection [⟨0, K, [108, 105, 118, 101]⟩, ⟨1, [107], [120]⟩]).length
      = 2 ^ 30 + 37 := by
    rw [dataSection_length_cons, dataSection_length_cons]
    dsimp only
    rw [hkl, hv4, hm]
    rfl
  have e1 : 0 + (9 + (maxRW + 13) + 4) = 2 ^ 30 + 26 := by rw [hm]; norm_num
  have htail : loadIndexLoop ((⟨0, K, [108, 105, 118, 101]⟩ : Record).key.drop maxRW
        ++ (indexSection [⟨1, [107], [120]⟩]
            (0 + (9 + (⟨0, K, [108, 105, 118, 101]⟩ : Record).key.length
              + (⟨0, K, [108, 105, 118, 101]⟩ : Record).value.length))
          ++ putUint64 (dataSection [⟨0, K, [108, 105, 118, 101]⟩,
              ⟨1, [107], [120]⟩]).length)) 4 0 []
      = .ok [⟨[107], 0⟩, ⟨[107], 2 ^ 30 + 26⟩] := by
    dsimp only
    rw [hdrop, hkl, hd, hv4, e1]
    exact trap_tail
  have h8 := (sstLayout_footer [⟨0, K, [108, 105, 118, 101]⟩, ⟨1, [107], [120]⟩]).1
  have hopen := Open_first_long ⟨0, K, [108, 105, 118, 101]⟩ [⟨1, [107], [120]⟩]
    hk (by show 0 < K.length; rw [hkl]; omega) (by rw [hd]; decide) 4 (by omega) _ htail
  refine ⟨_, by rw [writer_layout]; exact hopen, rfl, ?_⟩
  rw [get_three_mid _ _ _ _ [107] rfl]
  rw [readEntry_offset _ ⟨[107], 0⟩
    ⟨(⟨0, K, [108, 105, 118, 101]⟩ : Record).key, ((([] : Bytes).length : Nat) : Int)⟩ rfl]
  rw [readEntry_record (sstLayout [⟨0, K, [108, 105, 118, 101]⟩, ⟨1, [107], [120]⟩]) []
    (dataSection [⟨1, [107], [120]⟩]
      ++ (indexSection [⟨0, K, [108, 105, 118, 101]⟩, ⟨1, [107], [120]⟩] 0
        ++ putUint64 (dataSection [⟨0, K, [108, 105, 118, 101]⟩,
            ⟨1, [107], [120]⟩]).length)) _ ⟨0, K, [108, 105, 118, 101]⟩
    (by simp only [sstLayout, dataSection, List.nil_append, List.append_assoc])
    hk (by show ([108, 105, 118, 101] : Bytes).length < 2 ^ 32; decide)]
  rw [if_neg (by show ¬ ((0 : Byte) = 1); decide),
    capRead_small _ (by show ([108, 105, 118, 101] : Bytes).length ≤ maxRW; decide)]


set_option maxRecDepth 8000 in
theorem long_key_tail :
    loadIndexLoop (([0] : Bytes)
        ++ (indexSection [⟨0, [107], tombstoneMarker⟩] (2 ^ 30 + 11) ++ putUint64 (2 ^ 30 + 37)))
        2 0 []
      = .ok [⟨[0, 107, 37, 0, 0, 64, 0, 0, 0, 0] ++ List.replicate 246 0, 274877909760⟩] := by
  decide

/-- An SST whose first key is one byte longer than one `Read` transfers: the
index loop reads the key short and parses the rest of the index out of step;
the entry of the second key, `"k"`, is lost. -/
theorem misparsed_index (K : Bytes) (hkl : K.length = maxRW + 1) (hdrop : K.drop maxRW = [0]) :
    Open (sstLayout [⟨0, K, [120]⟩, ⟨0, [107], tombstoneMarker⟩])
      = .ok (.ok ⟨sstLayout [⟨0, K, [120]⟩, ⟨0, [107], tombstoneMarker⟩],
          [⟨capRead K, 0⟩,
           ⟨[0, 107, 37, 0, 0, 64, 0, 0, 0, 0] ++ List.replicate 246 0, 274877909760⟩]⟩) := by
  have hm : maxRW = 2 ^ 30 := rfl
  have hk : K.length < 2 ^ 32 := by rw [hkl, hm]; omega
  have hv1 : ([120] : Bytes).length = 1 := rfl
  have hd : (dataSection [⟨0, K, [120]⟩, ⟨0, [107], tombstoneMarker⟩]).length
      = 2 ^ 30 + 37 := by
    rw [dataSection_length_cons, dataSection_length_cons]
    dsimp only
    rw [hkl, hv1, hm]
    rfl
  have e1 : 0 + (9 + (maxRW + 1) + 1) = 2 ^ 30 + 11 := by rw [hm]; norm_num
  have htail : loadIndexLoop ((⟨0, K, [120]⟩ : Record).key.drop maxRW
        ++ (indexSection [⟨0, [107], tombstoneMarker⟩]
            (0 + (9 + (⟨0, K, [120]⟩ : Record).key.length
              + (⟨0, K, [120]⟩ : Record).value.length))
          ++ putUint64 (dataSection [⟨0, K, [120]⟩, ⟨0, [107], tombstoneMarker⟩]).length))
        2 0 []
      = .ok [⟨[0, 107, 37, 0, 0, 64, 0, 0, 0, 0] ++ List.replicate 246 0, 274877909760⟩] := by
    dsimp only
    rw [hdrop, hkl, hd, hv1, e1]
    exact long_key_tail
  have h8 := (sstLayout_footer [⟨0, K, [120]⟩, ⟨0, [107], tombstoneMarker⟩]).1
  exact Open_first_long ⟨0, K, [120]⟩ [⟨0, [107], tombstoneMarker⟩]
    hk (by show 0 < K.length; rw [hkl]; omega) (by rw [hd]; decide) 2 (by omega) _ htail

/-- The tombstone of `"k"` is lost when it is flushed together with a key one
byte longer than one `Read` transfers: `Get("k")` returns the older value. -/
theorem delete_lost_after_long_key (K : Bytes) (hkl : K.length = maxRW + 1)
    (hdrop : K.drop maxRW = [0]) (hlt : bytesCompare K [107] < 0)
    (hcap : bytesCompare (capRead K) [107] < 0) :
    ∃ l l0 l1 l2, LSM.New [] [] (2 ^ 31) = .ok (.ok l) ∧
      l.run [Op.put [107] [118, 49] [], Op.flush] = .ok (l0, none) ∧
      l0.Delete [107] [] none = .ok (l1, none) ∧
      l1.Get [107] = .ok ([], false, none) ∧
      l1.run [Op.put K [120] [], Op.flush] = .ok (l2, none) ∧
      (∃ rd, l2.sstTables[0]? = some (some rd) ∧
        rd.index = [⟨capRead K, 0⟩,
          ⟨[0, 107, 37, 0, 0, 64, 0, 0, 0, 0] ++ List.replicate 246 0, 274877909760⟩]) ∧
      l2.Get [107] = .ok ([118, 49], true, none) := by
  have hm : maxRW = 2 ^ 30 := rfl
  have hk32 : K.length < 2 ^ 32 := by rw [hkl, hm]; omega
  have hv1 : ([120] : Bytes).length = 1 := rfl
  -- Put("k", "v1")
  have wf0 : LSM.WF ⟨NewMemTable [] (2 ^ 31), [], 2 ^ 31⟩ [] [] :=
    NewMemTable_wf [] (2 ^ 31) [] [] rfl (by intro rs h; cases h)
  obtain ⟨m1, L1, wf1, a1, _, hputA⟩ := engine_put_state ⟨NewMemTable [] (2 ^ 31), [], 2 ^ 31⟩
    [] [] wf0 [107] [118, 49] [] (by decide) (by decide) (by decide) (by decide)
  rw [if_neg (by decide)] at hputA
  have hE1 : entriesOf m1.list.heap L1 = [([107], [118, 49])] := a1
  -- flush
  have hopen1 : Open (sstLayout ([(([107] : Bytes), ([118, 49] : Bytes))].map liveRecord))
      = .ok (.ok ⟨sstLayout ([(([107] : Bytes), ([118, 49] : Bytes))].map liveRecord),
          indexOf [⟨0, [107], [118, 49]⟩] 0⟩) := by decide
  have fB := engine_flush_open
    { (⟨NewMemTable [] (2 ^ 31), [], 2 ^ 31⟩ : LSM) with memTable := m1 } L1 wf1.mem _ hE1 _ hopen1
  have fB1 : LSM.flush { (⟨NewMemTable [] (2 ^ 31), [], 2 ^ 31⟩ : LSM) with memTable := m1 }
      = .ok (⟨NewMemTable [] (2 ^ 31), [some (readerOf [⟨0, [107], [118, 49]⟩])], 2 ^ 31⟩,
          none) := fB
  have wfB : LSM.WF ⟨NewMemTable [] (2 ^ 31), [some (readerOf [⟨0, [107], [118, 49]⟩])],
      2 ^ 31⟩ [] [[⟨0, [107], [118, 49]⟩]] :=
    NewMemTable_wf [] (2 ^ 31) _ [[⟨0, [107], [118, 49]⟩]] rfl (by
      intro rs hrs
      rw [List.mem_singleton] at hrs
      rw [hrs]
      exact valid_single 0 [107] [118, 49] (by decide) (by decide))
  -- Delete("k")
  obtain ⟨m2, L2, wf2, a2, c2, hdel⟩ := engine_delete_state
    ⟨NewMemTable [] (2 ^ 31), [some (readerOf [⟨0, [107], [118, 49]⟩])], 2 ^ 31⟩ [] _ wfB
    [107] [] (by decide) (by decide) (by decide)
  have hE2 : entriesOf m2.list.heap L2 = [([107], tombstoneMarker)] := a2
  have hc2 : m2.currSize = 17 := c2
  have gC : LSM.Get { (⟨NewMemTable [] (2 ^ 31), [some (readerOf [⟨0, [107], [118, 49]⟩])],
      2 ^ 31⟩ : LSM) with memTable := m2 } [107] = .ok ([], false, none) := by
    rw [engine_get_spec _ L2 _ wf2 [107]]
    show Except.ok (viewGet (entriesOf m2.list.heap L2) _ [107]) = _
    rw [hE2, ← absPut_nil, viewGet_absPut, if_pos rfl]
    rfl
  -- Put(K, "x")
  have hsum : m2.currSize + ((K.length : Int) + (([120] : Bytes).length : Int))
      = 2 ^ 30 + 19 := by
    rw [hc2, hkl, hv1, hm]
    norm_num
  obtain ⟨m3, L3, wf3, a3, _, hputD⟩ := engine_put_state
    { (⟨NewMemTable [] (2 ^ 31), [some (readerOf [⟨0, [107], [118, 49]⟩])], 2 ^ 31⟩ : LSM)
      with memTable := m2 } L2 _ wf2 K [120] [] hk32 (by decide)
    (by show -(2 ^ 63) ≤ m2.currSize + _; rw [hsum]; decide)
    (by show m2.currSize + _ < 2 ^ 63; rw [hsum]; decide)
  have hnot : ¬ (m2.currSize + ((K.length : Int) + (([120] : Bytes).length : Int))
      ≥ (2 ^ 31 : Int)) := by rw [hsum]; decide
  rw [if_neg hnot] at hputD
  have hE3 : entriesOf m3.list.heap L3 = [(K, [120]), ([107], tombstoneMarker)] := by
    rw [a3]
    show absPut K [120] (entriesOf m2.list.heap L2) = _
    rw [hE2, absPut_front _ _ _ _ _ hlt]
  -- flush
  have fE := engine_flush_open
    { ({ (⟨NewMemTable [] (2 ^ 31), [some (readerOf [⟨0, [107], [118, 49]⟩])], 2 ^ 31⟩ : LSM)
      with memTable := m2 } : LSM) with memTable := m3 } L3 wf3.mem _ hE3 _
    (misparsed_index K hkl hdrop)
  have fE1 : LSM.flush
      { ({ (⟨NewMemTable [] (2 ^ 31), [some (readerOf [⟨0, [107], [118, 49]⟩])], 2 ^ 31⟩ : LSM)
        with memTable := m2 } : LSM) with memTable := m3 }
      = .ok (⟨NewMemTable [] (2 ^ 31),
          [some ⟨sstLayout [⟨0, K, [120]⟩, ⟨0, [107], tombstoneMarker⟩],
            [⟨capRead K, 0⟩,
             ⟨[0, 107, 37, 0, 0, 64, 0, 0, 0, 0] ++ List.replicate 246 0, 274877909760⟩]⟩,
           some (readerOf [⟨0, [107], [118, 49]⟩])], 2 ^ 31⟩, none) := fE
  have hrd2 := get_two_miss (sstLayout [⟨0, K, [120]⟩, ⟨0, [107], tombstoneMarker⟩])
    ⟨capRead K, 0⟩
    ⟨[0, 107, 37, 0, 0, 64, 0, 0, 0, 0] ++ List.replicate 246 0, 274877909760⟩ [107]
    hcap (by decide)
  have hrd1 : (readerOf [⟨0, [107], [118, 49]⟩]).Get [107] = .ok ([118, 49], true, none) := by
    decide
  refine ⟨_, _, _, ⟨NewMemTable [] (2 ^ 31),
      [some ⟨sstLayout [⟨0, K, [120]⟩, ⟨0, [107], tombstoneMarker⟩],
        [⟨capRead K, 0⟩,
         ⟨[0, 107, 37, 0, 0, 64, 0, 0, 0, 0] ++ List.replicate 246 0, 274877909760⟩]⟩,
       some (readerOf [⟨0, [107], [118, 49]⟩])], 2 ^ 31⟩,
    (New_valid [] (2 ^ 31)).1, ?_, hdel, gC, ?_, ⟨_, rfl, rfl⟩, ?_⟩
  · rw [run_cons _ _ _ _ (by rw [step_put]; exact hputA),
      run_cons _ _ _ _ (by rw [step_flush]; exact fB1), run_nil]
  · rw [run_cons _ _ _ _ (by rw [step_put]; exact hputD),
      run_cons _ _ _ _ (by rw [step_flush]; exact fE1), run_nil]
  · unfold LSM.Get
    have hmem : (NewMemTable [] (2 ^ 31)).Get [107] = .ok ([], false) := by decide
    simp only [hmem, getFromSSTs, hrd2, hrd1]
    decide


/-! ## The claims -/

/-- C1 (as amended). Engine read-your-writes: for every well-formed engine
state, every key `k` and every value `v` other than the tombstone sentinel
(keys and values of at most 2^30 bytes, which is what one `Read` call
transfers, in the state and in the calls; the data held within the signed
64-bit file offsets), `Put(k, v)` returns success when the log device works,
also when it triggers a flush, and after any successful `Put(k, v)` and any
further sequence of `Put`/`Delete` to other keys, flushes and `Compact`s, that
sequence runs to its end and `Get(k)` returns `(v, true, nil)`. -/
theorem C1_read_your_writes (l : LSM) (b : Nat) (k v : Bytes) (flips : List Bool)
    (ops : List Op) (hval : l.Fits b) (hk : k.length ≤ maxRW) (hv : v.length ≤ maxRW)
    (hlive : v ≠ tombstoneMarker) (hs : ∀ op ∈ ops, op.small)
    (hother : ∀ op ∈ ops, op.key ≠ some k)
    (hb : b + (9 + k.length + v.length) + opsCost ops < 2 ^ 63) :
    (∃ l1, l.Put k v flips none = .ok (l1, none)) ∧
      ∀ fault l1, l.Put k v flips fault = .ok (l1, none) →
        ∃ l2, l1.run ops = .ok (l2, none) ∧ l2.Get k = .ok (v, true, none) := by
  obtain ⟨l1, e1, v1, g1⟩ := engine_step_spec l b hval (Op.put k v flips) ⟨hk, hv⟩
    (by simp only [Op.cost]; omega)
  refine ⟨⟨l1, e1⟩, ?_⟩
  intro fault l1' h
  have hf := engine_put_no_fault l k v flips fault l1' h
  subst hf
  have e1' : l.Put k v flips none = .ok (l1, none) := e1
  rw [e1'] at h
  have hl : l1 = l1' := by
    have := Except.ok.inj h
    exact (Prod.mk.inj this).1
  subst hl
  obtain ⟨l2, e2, _, g2⟩ := engine_run_spec ops l1 (b + (Op.put k v flips).cost) v1 hs
    (by simp only [Op.cost]; omega)
  refine ⟨l2, e2, ?_⟩
  obtain ⟨r0, h0, h1⟩ := g1 k
  obtain ⟨r1, h2, h3⟩ := g2 k
  rw [h3, effect_other_key ops k hother]
  rw [h1] at h2
  rw [← Except.ok.inj h2]
  simp [Op.effect, hitResult_live v hlive]

/-- C1, witness: on a fresh engine with limit 16, `Put("k", "value")` followed
by a put to another key (which flushes), a delete of another key, a flush and a
compaction. -/
theorem C1_read_your_writes_witness :
    ∃ l1 l2, LSM.Put ⟨NewMemTable [] 16, [], 16⟩ [107] [118, 97, 108, 117, 101] [true] none
        = .ok (l1, none) ∧
      l1.run [Op.put [97] [1, 2, 3, 4, 5, 6, 7, 8, 9, 10, 11, 12] [], Op.delete [98] [true],
        Op.flush, Op.compact] = .ok (l2, none) ∧
      l2.Get [107] = .ok ([118, 97, 108, 117, 101], true, none) := by
  obtain ⟨⟨l1, e1⟩, h⟩ := C1_read_your_writes ⟨NewMemTable [] 16, [], 16⟩ 0 [107]
    [118, 97, 108, 117, 101] [true]
    [Op.put [97] [1, 2, 3, 4, 5, 6, 7, 8, 9, 10, 11, 12] [], Op.delete [98] [true],
      Op.flush, Op.compact]
    (New_fits [] 16) (by decide) (by decide) (by decide) (by decide) (by decide) (by decide)
  obtain ⟨l2, e2, g⟩ := h none l1 e1
  exact ⟨l1, l2, e1, e2, g⟩

/-- C1, counterexample: on a fresh engine `Put("k", "TOMBSTONE_MARKER")` returns
success and `Get("k")` then returns `(nil, false, nil)`, not the value put. -/
theorem C1_counterexample :
    ∃ l0 l1, LSM.New [] [] 1024 = .ok (.ok l0) ∧
      l0.Put [107] tombstoneMarker [] none = .ok (l1, none) ∧
      l1.Get [107] = .ok ([], false, none) ∧
      l1.Get [107] ≠ .ok (tombstoneMarker, true, none) := by
  refine ⟨_, _, rfl, rfl, ?_, ?_⟩ <;> decide

/-- C2. A `Delete` is undone by a later flush: on a fresh engine with limit
2^31, after `Put("k", "v1"); flush; Delete("k")`, `Get("k")` returns
`found = false`; after a further `Put(a, "x")` with `a` of 2^30 + 1 zero bytes
(a key other than `"k"`, below 2^32 bytes) and `flush`, the reader of the new
SST holds an index of two entries, the one of `a` and one parsed out of step,
none for `"k"`, and `Get("k")` returns `("v1", true)`. -/
theorem C2_delete_lost_after_long_key :
    bigKey.length < 2 ^ 32 ∧
      ∃ l l0 l1 l2, LSM.New [] [] (2 ^ 31) = .ok (.ok l) ∧
        l.run [Op.put [107] [118, 49] [], Op.flush] = .ok (l0, none) ∧
        l0.Delete [107] [] none = .ok (l1, none) ∧
        l1.Get [107] = .ok ([], false, none) ∧
        l1.run [Op.put bigKey [120] [], Op.flush] = .ok (l2, none) ∧
        (∃ rd, l2.sstTables[0]? = some (some rd) ∧
          rd.index = [⟨bigKey, 0⟩,
            ⟨[0, 107, 37, 0, 0, 64, 0, 0, 0, 0] ++ List.replicate 246 0, 274877909760⟩]) ∧
        l2.Get [107] = .ok ([118, 49], true, none) := by
  have hm : maxRW = 2 ^ 30 := rfl
  have hk : bigKey.length < 2 ^ 32 := by rw [bigKey_length, hm]; omega
  have h := delete_lost_after_long_key bigKey bigKey_length bigKey_drop
    (bigKey_lt 107 [] (by decide)) (by rw [capRead_bigKey]; exact bigKey_lt 107 [] (by decide))
  rw [capRead_bigKey] at h
  exact ⟨hk, h⟩

/-- C3. A value longer than one `Read` transfers comes back cut from an
SSTable: on a fresh engine with memtable limit 1, `Put("k", v)` with `v` of
2^30 + 1 bytes `0x01` succeeds and flushes, and `Get("k")` then returns the
first 2^30 bytes of `v` followed by one zero byte, not the value of the last
`Put`, which is what a plain map returns. -/
theorem C3_auto_flush_cuts_value :
    ∃ l0 l, LSM.New [] [] 1 = .ok (.ok l0) ∧
      l0.run [Op.put [107] bigValue []] = .ok (l, none) ∧
      l.Get [107] = .ok (List.replicate maxRW 1 ++ [0], true, none) ∧
      refGet [Op.put [107] bigValue []] [107] = (bigValue, true, none) ∧
      List.replicate maxRW 1 ++ [0] ≠ bigValue := by
  obtain ⟨l1, hput, g1⟩ := (fresh_put_get 1 [107] bigValue [] [] key_small bigValue_sized
    bigValue_live).1 (by rw [bigValue_sum]; decide)
  rw [capRead_bigValue] at g1
  refine ⟨_, l1, (New_valid [] 1).1, ?_, g1, ?_, bigValue_cut⟩
  · rw [run_cons _ l1 _ _ (by rw [step_put]; exact hput), run_nil]
  · simp only [refGet, lastWrite, List.foldl, if_true]

/-- C4. Read hierarchy of engine `Get`: for every engine state and key `k`, a
value found in the memtable decides the result; otherwise the SST readers are
consulted in vector order and the first one that reports `k` as found decides
it; `Get` returns `(nil, false)` when neither the memtable nor any reader
reports `k` as found. The value that decides is returned with `found = true`,
unless it is the tombstone sentinel, which reads as `(nil, false)`. -/
theorem C4_read_hierarchy (l : LSM) (k : Bytes) :
    (∀ v, l.memTable.Get k = .ok (v, true) → l.Get k = .ok (hitResult v)) ∧
    (∀ v0, l.memTable.Get k = .ok (v0, false) →
      (∀ older newer r v, l.sstTables = newer ++ some r :: older →
        (∀ x ∈ newer, ∃ rd v1, x = some rd ∧ rd.Get k = .ok (v1, false, none)) →
        r.Get k = .ok (v, true, none) → l.Get k = .ok (hitResult v)) ∧
      ((∀ x ∈ l.sstTables, ∃ rd v1, x = some rd ∧ rd.Get k = .ok (v1, false, none)) →
        l.Get k = .ok ([], false, none))) := by
  have hskip : ∀ (newer rest : List (Option Reader)),
      (∀ x ∈ newer, ∃ rd v1, x = some rd ∧ rd.Get k = .ok (v1, false, none)) →
      getFromSSTs (newer ++ rest) k = getFromSSTs rest k := by
    intro newer rest h
    induction newer with
    | nil => rfl
    | cons x newer ih =>
      obtain ⟨rd, v1, hx, hg⟩ := h x (List.mem_cons_self _ _)
      subst hx
      show getFromSSTs (some rd :: (newer ++ rest)) k = _
      rw [getFromSSTs, hg]
      exact ih (fun y hy => h y (List.mem_cons_of_mem _ hy))
  refine ⟨?_, ?_⟩
  · intro v hv
    unfold LSM.Get
    rw [hv]
    simp only [hitResult]
    split <;> rfl
  · intro v0 hv0
    refine ⟨?_, ?_⟩
    · intro older newer r v hsplit hnewer hr
      unfold LSM.Get
      rw [hv0]
      simp only
      rw [hsplit, hskip newer _ hnewer, getFromSSTs, hr]
      simp only [hitResult]
      split <;> rfl
    · intro hall
      unfold LSM.Get
      rw [hv0]
      simp only
      have := hskip l.sstTables [] hall
      rw [List.append_nil] at this
      rw [this]
      rfl

/-- C4, witness: with "a" -> "2" in the memtable and "a" -> "1" in an SSTable
below it, `Get("a")` returns the memtable's value. -/
theorem C4_read_hierarchy_witness : demoEngine.Get [97] = .ok ([50], true, none) :=
  (C4_read_hierarchy demoEngine [97]).1 [50] (by decide)

/-- C5. A value longer than one `Read` transfers does not survive the round
trip: the single live record `"k" -> v` with `v` of 2^30 + 1 bytes `0x01`
(lengths below 2^32), written with `WritePair` and `Close`, is opened without
an error, and `Reader.Get("k")` returns the first 2^30 bytes of `v` followed by
one zero byte, with `found = true` and no error. -/
theorem C5_round_trip_cuts_value :
    ∃ rd, Open (writePairs NewWriter [⟨0, [107], bigValue⟩]).Close = .ok (.ok rd) ∧
      rd.Get [107] = .ok (List.replicate maxRW 1 ++ [0], true, none) ∧
      bigValue.length < 2 ^ 32 ∧ List.replicate maxRW 1 ++ [0] ≠ bigValue := by
  have hm : maxRW = 2 ^ 30 := rfl
  have hk1 : ([107] : Bytes).length = 1 := rfl
  have hvalid : ValidRecords [⟨0, [107], bigValue⟩] :=
    valid_single 0 [107] bigValue (by decide) bigValue_sized
  refine ⟨readerOf [⟨0, [107], bigValue⟩], ?_, ?_, bigValue_sized, bigValue_cut⟩
  · rw [writer_layout, Open_layout _ (by
      intro r hr
      rw [List.mem_singleton] at hr
      rw [hr]
      show ([107] : Bytes).length ≤ maxRW
      rw [hk1, hm]; omega) hvalid.size]
    rfl
  · rw [readerOf, reader_get_layout _ hvalid]
    have h := recGet_of_mem [⟨0, [107], bigValue⟩] hvalid.sorted ⟨0, [107], bigValue⟩
      (List.mem_singleton.mpr rfl)
    rw [if_neg (by decide)] at h
    rw [capRead_bigValue] at h
    exact congrArg Except.ok h

/-- C6. A record written with entry type 1 is read as a live value: the SST
with the live record `a -> "live"`, `a` being 2^30 zero bytes followed by the
thirteen bytes of an index entry for `"k"` with offset 0, and the record of
`"k"` written with entry type 1 (keys strictly ascending, below 2^32 bytes) is
opened without an error; its index holds a second entry for `"k"`, with offset
0, in front of the real one, and `Reader.Get("k")` returns `("live", true)` with
no error. -/
theorem C6_type1_read_as_live :
    bytesCompare trapKey [107] < 0 ∧ trapKey.length < 2 ^ 32 ∧
      ∃ rd, Open (writePairs NewWriter
          [⟨0, trapKey, [108, 105, 118, 101]⟩, ⟨1, [107], [120]⟩]).Close = .ok (.ok rd) ∧
        rd.index = [⟨List.replicate maxRW 0 ++ List.replicate 13 0, 0⟩, ⟨[107], 0⟩,
          ⟨[107], 2 ^ 30 + 26⟩] ∧
        rd.Get [107] = .ok ([108, 105, 118, 101], true, none) := by
  have hm : maxRW = 2 ^ 30 := rfl
  have hk : trapKey.length < 2 ^ 32 := by rw [trapKey_length, hm]; omega
  obtain ⟨rd, h1, h2, h3⟩ := forged_index_entry trapKey trapKey_length trapKey_drop
  rw [capRead_trapKey] at h2
  exact ⟨trapKey_lt, hk, rd, h1, h2, h3⟩

/-- C7. SST file layout: for every sequence of `WritePair(k_i, v_i, t_i)` calls
followed by `Close`, the file bytes are exactly the records
`[t_i][len(k_i) u32 LE][len(v_i) u32 LE][k_i][v_i]` in call order, then one
index entry `[len(k_i) u32 LE][offset_i u64 LE][k_i]` per record in the same
order, `offset_i` being the sum of `9 + len(k_j) + len(v_j)` over the records
before it, then the 8-byte little-endian footer holding the length of the data
section; nothing follows the footer. -/
theorem C7_sst_file_layout (rs : List Record) :
    (writePairs NewWriter rs).Close
      = dataSection rs ++ indexSection rs 0 ++ putUint64 (dataSection rs).length ∧
    (putUint64 (dataSection rs).length).length = 8 ∧
    (dataSection rs).length = (rs.map (fun r => 9 + r.key.length + r.value.length)).sum := by
  refine ⟨writer_layout rs, rfl, ?_⟩
  induction rs with
  | nil => rfl
  | cons r rs ih => rw [dataSection_length_cons, ih]; simp

/-- C8. The skip list is a map: every sequence of `SkipList.Put` calls on a new
list, with any outcomes of the random level choices, runs to its end; then
`Get(k)` returns `(v, true)` where `v` is the value of the most recent `Put` to
`k`, and `(nil, false)` for a key that was never put; and one more `Put(k, v)`
makes `Get(k)` return `(v, true)` and leaves `Get(q)` as it was for every other
key `q`. -/
theorem C8_skiplist_is_map (ops : List (Bytes × Bytes × List Bool)) :
    ∃ s, putAll NewSkipList ops = .ok s ∧
      (∀ q, s.Get q = .ok (lastPut ops q)) ∧
      (∀ k v flips, ∃ s1, s.Put k v flips = .ok s1 ∧
        ∀ q, s1.Get q = if k = q then .ok (v, true) else s.Get q) := by
  obtain ⟨s, L, e, inv, a⟩ := putAll_spec ops NewSkipList [] NewSkipList_inv
  refine ⟨s, e, ?_, ?_⟩
  · intro q
    rw [skiplist_get_spec s L inv q, a, absGet_foldl]
    rfl
  · intro k v flips
    obtain ⟨s1, L1, e1, inv1, a1⟩ := skiplist_put_spec s L inv k v flips
    refine ⟨s1, e1, ?_⟩
    intro q
    rw [skiplist_get_spec s1 L1 inv1 q, a1, absGet_absPut, skiplist_get_spec s L inv q]
    split <;> rfl

/-- C9. Skip list ordering: for every sequence of `Put`s on a new list, in any
order, with repeated keys, and with any outcomes of the random level choices,
walking the level-0 chain from `head.next[0]` (the cursor that
`MemTable.GetIterator` returns) via `Next` ends and yields keys in strictly
ascending byte-lexicographic order, each once, and the keys yielded are exactly
the keys that were put. -/
theorem C9_skiplist_ordering (ops : List (Bytes × Bytes × List Bool)) :
    ∃ s it es, putAll NewSkipList ops = .ok s ∧
      (∀ w mx c, (MemTable.mk s w mx c).GetIterator = .ok it) ∧
      walk s.heap s.heap.length it = .ok es ∧
      es.Pairwise (fun a b => bytesCompare a.1 b.1 < 0) ∧
      (es.map Prod.fst).Nodup ∧
      ∀ k, k ∈ es.map Prod.fst ↔ k ∈ ops.map (fun op => op.1) := by
  obtain ⟨s, L, e, inv, a⟩ := putAll_spec ops NewSkipList [] NewSkipList_inv
  obtain ⟨hit, hlk, hlen⟩ := inv_iter s L inv
  have hsorted := entries_sorted s L inv
  refine ⟨s, headOr L none, entriesOf s.heap L, e, fun _ _ _ => hit,
    walk_spec s.heap L _ hlk hlen, hsorted, ?_, ?_⟩
  · have h1 : ((entriesOf s.heap L).map Prod.fst).Pairwise (fun a b => bytesCompare a b < 0) := by
      rw [List.pairwise_map]; exact hsorted
    refine h1.imp ?_
    intro a b hab heq
    rw [heq] at hab
    exact bytesCompare_irrefl b hab
  · intro k
    rw [a, mem_keys_foldl]
    simp [entriesOf]

/-- C10. Flush postcondition: for every well-formed engine state (its data
within the signed 64-bit file offsets) `flush` succeeds; afterwards the new
memtable holds no key and has byte counter 0, the reader vector is the old
vector with exactly one new reader prepended at position 0, and the file of
that reader holds exactly the `(key, value)` entries of the retired memtable
(what its iteration yields and what its `Get` answers from), one record per
key, in strictly ascending key order. The index that the new reader loads from
that file is the one the file holds when no key has more than 2^30 bytes. -/
theorem C10_flush_postcondition (l : LSM) (b : Nat) (hval : l.Valid b) (hb : b < 2 ^ 63) :
    ∃ l1 rd E, l.flush = .ok (l1, none) ∧
      (∀ q, l1.memTable.Get q = .ok ([], false)) ∧
      l1.memTable.GetIterator = .ok none ∧
      l1.memTable.currSize = 0 ∧
      l1.sstTables = some rd :: l.sstTables ∧
      (∃ it, l.memTable.GetIterator = .ok it ∧
        walk l.memTable.list.heap l.memTable.list.heap.length it = .ok E) ∧
      (∀ q, l.memTable.Get q = .ok (absGet E q)) ∧
      E.Pairwise (fun a b => bytesCompare a.1 b.1 < 0) ∧
      rd.file = dataSection (E.map (fun e => ⟨0, e.1, e.2⟩))
        ++ indexSection (E.map (fun e => ⟨0, e.1, e.2⟩)) 0
        ++ putUint64 (dataSection (E.map (fun e => ⟨0, e.1, e.2⟩))).length ∧
      ((∀ e ∈ E, e.1.length ≤ maxRW) →
        rd.index = indexOf (E.map (fun e => ⟨0, e.1, e.2⟩)) 0) := by
  obtain ⟨L, tables, wf, hfp⟩ := hval
  have hsz : entriesSize (entriesOf l.memTable.list.heap L) < 2 ^ 63 := by
    have := entriesSize_le_footprint (entriesOf l.memTable.list.heap L) tables
    omega
  obtain ⟨ix, f1, hix⟩ := engine_flush_ok l L tables wf hsz
  obtain ⟨hit, hlk, hlen⟩ := inv_iter _ L wf.mem
  refine ⟨_, _, entriesOf l.memTable.list.heap L, f1, ?_, rfl, rfl, rfl,
    ⟨_, hit, walk_spec _ L _ hlk hlen⟩, ?_, entries_sorted _ L wf.mem, rfl, hix⟩
  · intro q
    show NewSkipList.Get q = _
    rw [skiplist_get_spec NewSkipList [] NewSkipList_inv q]
    rfl
  · intro q
    exact skiplist_get_spec _ L wf.mem q

/-- C10, witness: the flush of an engine that holds "b" -> "2" and "a" -> "1"
in its memtable and one SSTable below it. -/
theorem C10_flush_postcondition_witness :
    ∃ l0 l1 rd, LSM.run ⟨NewMemTable [] 1024, [], 1024⟩
        [Op.put [122] [48] [], Op.flush, Op.put [98] [50] [true], Op.put [97] [49] []]
        = .ok (l0, none) ∧
      l0.flush = .ok (l1, none) ∧ l1.sstTables = some rd :: l0.sstTables ∧
      l1.memTable.currSize = 0 := by
  obtain ⟨l0, e0, v0, _⟩ := engine_run_spec
    [Op.put [122] [48] [], Op.flush, Op.put [98] [50] [true], Op.put [97] [49] []]
    ⟨NewMemTable [] 1024, [], 1024⟩ 0 (New_fits [] 1024) (by decide) (by decide)
  obtain ⟨l1, rd, E, h1, _, _, h4, h5, _⟩ :=
    C10_flush_postcondition l0 _ (fits_valid v0) (by decide)
  exact ⟨l0, l1, rd, e0, h1, h5, h4⟩

/-- C11. A flush changes what `Get` returns for a value longer than one `Read`
transfers: on a fresh engine with limit 2^31, after `Put("k", v)` with `v` of
2^30 + 1 bytes `0x01` (which stays in the memtable) `Get("k")` returns
`(v, true)`; `flush` succeeds, and `Get("k")` then returns the first 2^30 bytes
of `v` followed by one zero byte. -/
theorem C11_flush_cuts_value :
    ∃ l l0 l1, LSM.New [] [] (2 ^ 31) = .ok (.ok l) ∧
      l.Put [107] bigValue [] none = .ok (l0, none) ∧
      l0.Get [107] = .ok (bigValue, true, none) ∧
      l0.flush = .ok (l1, none) ∧
      l1.Get [107] = .ok (List.replicate maxRW 1 ++ [0], true, none) ∧
      List.replicate maxRW 1 ++ [0] ≠ bigValue := by
  obtain ⟨l0, hput, g0, ⟨l1, f1, g1⟩, _⟩ := (fresh_put_get (2 ^ 31) [107] bigValue [] []
    key_small bigValue_sized bigValue_live).2 (by rw [bigValue_sum]; decide)
  rw [capRead_bigValue] at g1
  exact ⟨_, l0, l1, (New_valid [] (2 ^ 31)).1, hput, g0, f1, g1, bigValue_cut⟩

/-- C13. `Compact` changes what `Get` returns when a reader fails: an engine
opened on two SST files, the newer one of 21 bytes whose index entry sends
`"k"` to offset 21, the end of the file, the older one holding `"k" -> "old"`.
`Get("k")` returns `(nil, false)` with the error `EOF` of the newer reader;
`Compact` succeeds and leaves one reader, and `Get("k")` then returns
`("old", true)`: `loadIntoMap` drops the error of the newer reader and takes
the key from the older one. -/
theorem C13_compact_changes_get :
    ∃ l l1, LSM.New []
        [[1, 0, 0, 0] ++ [21, 0, 0, 0, 0, 0, 0, 0] ++ [107] ++ [0, 0, 0, 0, 0, 0, 0, 0],
         (writePairs NewWriter [⟨0, [107], [111, 108, 100]⟩]).Close] 1024 = .ok (.ok l) ∧
      l.sstTables.length = 2 ∧
      l.Get [107] = .ok ([], false, some IOErr.eof) ∧
      l.Compact = .ok (l1, none) ∧
      l1.sstTables.length = 1 ∧
      l1.Get [107] = .ok ([111, 108, 100], true, none) := by
  refine ⟨_, _, rfl, ?_, ?_, rfl, ?_, ?_⟩ <;> decide

/-- C14. `Compact` on an engine with zero or one SST reader is a no-op: it
returns nil with the memtable and the reader vector as they were, and it
creates no file (it returns before `NewWriter`, and it removes none). -/
theorem C14_compact_noop (l : LSM) (h : l.sstTables.length < 2) :
    l.Compact = .ok (l, none) ∧ l.compactFile = .ok none := by
  constructor
  · unfold LSM.Compact
    rw [if_pos h]
  · unfold LSM.compactFile
    rw [if_pos h]

/-- C14, witness: an engine with one SST reader and a value in its memtable. -/
theorem C14_compact_noop_witness :
    demoEngine.Compact = .ok (demoEngine, none) ∧ demoEngine.compactFile = .ok none :=
  C14_compact_noop demoEngine (by decide)

/-- C15. `Put(k, v); Put(k, v)` and a single `Put(k, v)` read differently for a
value longer than one `Read` transfers: on a fresh engine with limit 2^31 and
`v` of 2^30 + 1 bytes `0x01`, the single `Put("k", v)` leaves `v` in the
memtable and `Get("k")` returns `(v, true)`; the second of two `Put("k", v)`
fills the memtable and flushes, and `Get("k")` returns the first 2^30 bytes of
`v` followed by one zero byte. -/
theorem C15_double_put_differs :
    ∃ l l2 l1, LSM.New [] [] (2 ^ 31) = .ok (.ok l) ∧
      l.run [Op.put [107] bigValue [], Op.put [107] bigValue []] = .ok (l2, none) ∧
      l.run [Op.put [107] bigValue []] = .ok (l1, none) ∧
      l1.Get [107] = .ok (bigValue, true, none) ∧
      l2.Get [107] = .ok (List.replicate maxRW 1 ++ [0], true, none) ∧
      l2.Get [107] ≠ l1.Get [107] := by
  obtain ⟨l1, hput, g1, _, h2⟩ := (fresh_put_get (2 ^ 31) [107] bigValue [] []
    key_small bigValue_sized bigValue_live).2 (by rw [bigValue_sum]; decide)
  obtain ⟨l2, hput2, g2⟩ := h2 (by rw [bigValue_sum]; decide)
  rw [capRead_bigValue] at g2
  refine ⟨_, l2, l1, (New_valid [] (2 ^ 31)).1, ?_, ?_, g1, g2, ?_⟩
  · rw [run_cons _ l1 _ _ (by rw [step_put]; exact hput),
      run_cons _ l2 _ _ (by rw [step_put]; exact hput2), run_nil]
  · rw [run_cons _ l1 _ _ (by rw [step_put]; exact hput), run_nil]
  · rw [g1, g2]
    intro h
    exact bigValue_cut (Prod.mk.inj (Except.ok.inj h)).1

/-- C16. Memtable size accounting: for every sequence of `MemTable.Put` calls on
a fresh memtable with limit `L` whose log writes succeed (the bytes put staying
within the signed 64-bit range of the counter), every call succeeds, the byte
counter equals the sum of `len(key) + len(value)` over all those puts, a
repeated key counted again, and `IsFull()` returns true if and only if that sum
is `>= L`. -/
theorem C16_memtable_size (walFile : Bytes) (limit : Int)
    (ops : List (Bytes × Bytes × List Bool)) (hb : putBytes ops < 2 ^ 63) :
    ∃ m, memPutAll (NewMemTable walFile limit) ops = .ok (m, none) ∧
      m.currSize = (putBytes ops : Int) ∧
      (m.IsFull = true ↔ (putBytes ops : Int) ≥ limit) := by
  obtain ⟨m, L, e, _, hs, hm⟩ := memPutAll_spec ops (NewMemTable walFile limit) []
    NewSkipList_inv (le_refl 0) (by
      show (0 : Int) + (putBytes ops : Int) < 2 ^ 63
      have : ((putBytes ops : Nat) : Int) < ((2 ^ 63 : Nat) : Int) := Int.ofNat_lt.mpr hb
      push_cast at this
      omega)
  have hs0 : m.currSize = (putBytes ops : Int) := by
    rw [hs]
    show (0 : Int) + _ = _
    omega
  refine ⟨m, e, hs0, ?_⟩
  unfold MemTable.IsFull
  rw [decide_eq_true_iff, hs0, hm]
  rfl

/-- C16, witness: the puts of the memtable test with a repeated key: 5 + 3,
then 5 + 5, against limit 18. -/
theorem C16_memtable_size_witness :
    ∃ m, memPutAll (NewMemTable [] 18)
        [([97, 112, 112, 108, 101], [114, 101, 100], []),
         ([97, 112, 112, 108, 101], [103, 114, 101, 101, 110], [true])] = .ok (m, none) ∧
      m.currSize = 18 ∧ (m.IsFull = true ↔ (18 : Int) ≥ 18) :=
  C16_memtable_size [] 18
    [([97, 112, 112, 108, 101], [114, 101, 100], []),
     ([97, 112, 112, 108, 101], [103, 114, 101, 101, 110], [true])] (by decide)

/-- C17. Durability-first atomicity of `MemTable.Put`: whenever the WAL write
reports an error, `Put` returns that error, the skip list is the same (so `Get`
of every key is unchanged) and the byte counter is unchanged; only the log file
holds what was written before the failing step. -/
theorem C17_put_wal_error (m : MemTable) (key value : Bytes) (flips : List Bool)
    (fault : Option WalFault) (w : WAL) (e : IOErr)
    (h : m.wal.Write key value fault = (w, some e)) :
    m.Put key value flips fault = .ok (⟨m.list, w, m.maxSize, m.currSize⟩, some e) ∧
      (∀ q, MemTable.Get ⟨m.list, w, m.maxSize, m.currSize⟩ q = m.Get q) := by
  constructor
  · unfold MemTable.Put
    rw [h]
  · intro q
    rfl

/-- C17, witness: the device fails at the `Sync` of a put to a memtable that
holds one entry. -/
theorem C17_put_wal_error_witness :
    demoEngine.memTable.Put [98] [50] [true] (some WalFault.sync)
        = .ok (⟨demoEngine.memTable.list,
            ⟨demoEngine.memTable.wal.file ++ [1, 0, 0, 0, 1, 0, 0, 0, 98, 50]⟩,
            demoEngine.memTable.maxSize, demoEngine.memTable.currSize⟩, some IOErr.device) ∧
      (∀ q, MemTable.Get ⟨demoEngine.memTable.list,
            ⟨demoEngine.memTable.wal.file ++ [1, 0, 0, 0, 1, 0, 0, 0, 98, 50]⟩,
            demoEngine.memTable.maxSize, demoEngine.memTable.currSize⟩ q
          = demoEngine.memTable.Get q) :=
  C17_put_wal_error demoEngine.memTable [98] [50] [true] (some WalFault.sync)
    ⟨demoEngine.memTable.wal.file ++ [1, 0, 0, 0, 1, 0, 0, 0, 98, 50]⟩ IOErr.device (by decide)

/-- C18. WAL record format: for every key and value with lengths below 2^32, a
successful `WAL.Write(key, value)` appends to the log exactly the bytes
`[len(key) u32 LE][len(value) u32 LE][key][value]`, that is
`8 + len(key) + len(value)` bytes whose two length fields decode to the two
lengths, after the earlier bytes of the log, which stay as they were; and `n`
such writes to a fresh log succeed and leave the concatenation of the `n`
records in call order. -/
theorem C18_wal_record_format (w : WAL) (key value : Bytes) (recs : List (Bytes × Bytes))
    (hk : key.length < 2 ^ 32) (hv : value.length < 2 ^ 32)
    (hr : ∀ e ∈ recs, e.1.length < 2 ^ 32 ∧ e.2.length < 2 ^ 32) :
    w.Write key value none
        = (⟨w.file ++ (putUint32 key.length ++ putUint32 value.length ++ key ++ value)⟩, none) ∧
      (∀ fault w1, w.Write key value fault = (w1, none) →
        w1.file = w.file ++ (putUint32 key.length ++ putUint32 value.length ++ key ++ value)) ∧
      (putUint32 key.length ++ putUint32 value.length ++ key ++ value).length
        = 8 + key.length + value.length ∧
      leValue (putUint32 key.length) = key.length ∧
      leValue (putUint32 value.length) = value.length ∧
      walWriteAll WAL.New recs
        = (⟨(recs.map (fun e => putUint32 e.1.length ++ putUint32 e.2.length ++ e.1 ++ e.2)).flatten⟩,
          none) := by
  refine ⟨wal_write_ok w key value hk hv, ?_, walRecord_length key value,
    leValue_putUint32 _ hk, leValue_putUint32 _ hv, ?_⟩
  · intro fault w1 h
    cases fault with
    | none =>
      rw [wal_write_ok w key value hk hv] at h
      rw [← (Prod.mk.inj h).1]
      rfl
    | some f => cases f <;> simp [WAL.Write] at h
  · have := walWriteAll_spec recs hr WAL.New
    simpa [WAL.New, walRecord] using this

/-- C18, witness: two writes to a fresh log, "k1" -> "v1"
and "key2" -> "". -/
theorem C18_wal_record_format_witness :
    walWriteAll WAL.New [([107, 49], [118, 49]), ([107, 101, 121, 50], [])]
      = (⟨[2, 0, 0, 0, 2, 0, 0, 0, 107, 49, 118, 49, 4, 0, 0, 0, 0, 0, 0, 0, 107, 101, 121, 50]⟩,
        none) :=
  (C18_wal_record_format WAL.New [107, 49] [118, 49]
    [([107, 49], [118, 49]), ([107, 101, 121, 50], [])] (by decide) (by decide)
    (by decide)).2.2.2.2.2

/-- C12. `Compact` lets the older SST win over a type-1 record of the newer
one: an engine opened on two SST files, the newer one `B` holding the records
`"k"` and `"z"` written with entry type 1 (the first with the value `"x"`), the
older one `A` holding `"k" -> "old"`. `Compact` writes the single record
`"k" -> "old"`: the value for `"k"` is the one of `A` although `B` has `"k"`,
and the output has one key where `A` and `B` have two. -/
theorem C12_compact_drops_type1 :
    ∃ l l1, LSM.New []
        [(writePairs NewWriter [⟨1, [107], [120]⟩, ⟨1, [122], []⟩]).Close,
         (writePairs NewWriter [⟨0, [107], [111, 108, 100]⟩]).Close] 1024 = .ok (.ok l) ∧
      l.sstTables.length = 2 ∧
      l.compactFile = .ok (some (writePairs NewWriter [⟨0, [107], [111, 108, 100]⟩]).Close) ∧
      l.Compact = .ok (l1, none) ∧
      l1.sstTables
        = [some ⟨(writePairs NewWriter [⟨0, [107], [111, 108, 100]⟩]).Close,
            [⟨[107], 0⟩]⟩] ∧
      l1.Get [107] = .ok ([111, 108, 100], true, none) := by
  refine ⟨_, _, rfl, ?_, ?_, rfl, ?_, ?_⟩ <;> decide

/-- C19, counterexample: on a fresh engine `Delete("k")` then `flush` writes the
entry `"k" -> TOMBSTONE_MARKER` as a record whose entry type byte is 0; the file
differs from the one that holds this record with entry type 1, and the reader
finds the key with the sentinel as its value. -/
theorem C19_counterexample :
    ∃ l0 l1 l2 rd, LSM.New [] [] 1024 = .ok (.ok l0) ∧
      l0.Delete [107] [] none = .ok (l1, none) ∧
      l1.memTable.Get [107] = .ok (tombstoneMarker, true) ∧
      l1.flush = .ok (l2, none) ∧ l2.sstTables = [some rd] ∧
      rd.file = (writePairs NewWriter [⟨0, [107], tombstoneMarker⟩]).Close ∧
      rd.file.head? = some 0 ∧
      rd.file ≠ (writePairs NewWriter [⟨1, [107], tombstoneMarker⟩]).Close ∧
      rd.Get [107] = .ok (tombstoneMarker, true, none) := by
  refine ⟨_, _, _, _, rfl, rfl, ?_, rfl, rfl, ?_, ?_, ?_, ?_⟩ <;> decide

/-- C19 (amended). Flush writes every memtable entry with entry type 0: for
every well-formed engine state (its data within the signed 64-bit file offsets)
the loop of `flush` over the entries `E` that the iteration of the memtable
yields makes one `WritePair(key, value, 0)` call per entry, in that order,
whether or not the value equals the tombstone sentinel; `flush` succeeds and
the file of the new reader is the one these calls and `Close` produce. When
the keys and values of `E` have at most 2^30 bytes, which is what one `Read`
call transfers, that reader finds every flushed key with the entry's value,
the sentinel of a deleted key included (the sentinel is what marks the
tombstone on disk). -/
theorem C19_flush_entry_types (l : LSM) (b : Nat) (hval : l.Valid b) (hb : b < 2 ^ 63) :
    ∃ it E l1 rd, l.memTable.GetIterator = .ok it ∧
      walk l.memTable.list.heap l.memTable.list.heap.length it = .ok E ∧
      flushLoop l.memTable.list.heap l.memTable.list.heap.length it NewWriter
        = .ok (writePairs NewWriter (E.map (fun e => ⟨0, e.1, e.2⟩))) ∧
      l.flush = .ok (l1, none) ∧ l1.sstTables = some rd :: l.sstTables ∧
      rd.file = (writePairs NewWriter (E.map (fun e => ⟨0, e.1, e.2⟩))).Close ∧
      ((∀ e ∈ E, e.1.length ≤ maxRW ∧ e.2.length ≤ maxRW) →
        ∀ e ∈ E, rd.Get e.1 = .ok (e.2, true, none)) := by
  obtain ⟨L, tables, wf, hfp⟩ := hval
  have hsz : entriesSize (entriesOf l.memTable.list.heap L) < 2 ^ 63 := by
    have := entriesSize_le_footprint (entriesOf l.memTable.list.heap L) tables
    omega
  obtain ⟨ix, f1, hix⟩ := engine_flush_ok l L tables wf hsz
  obtain ⟨hit, hlk, hlen⟩ := inv_iter _ L wf.mem
  have hvalid := liveRecords_valid _ (entries_sorted _ L wf.mem) wf.memKeys hsz
  refine ⟨_, entriesOf l.memTable.list.heap L, _, _, hit, walk_spec _ L _ hlk hlen,
    flushLoop_spec _ L _ _ hlk hlen, f1, rfl, ?_, ?_⟩
  · exact (writer_layout _).symm
  · intro hsmall e he
    rw [hix (fun e he => (hsmall e he).1)]
    have h := flush_reader_get _ hvalid e he
    rw [capRead_small _ (hsmall e he).2] at h
    exact h

/-- C19, witness: the flush of a memtable that holds `"a" -> "1"` and the
tombstone of `"k"`. -/
theorem C19_flush_entry_types_witness :
    ∃ l0 it E l1 rd, LSM.run ⟨NewMemTable [] 1024, [], 1024⟩
        [Op.put [97] [49] [], Op.delete [107] [true]] = .ok (l0, none) ∧
      l0.memTable.GetIterator = .ok it ∧
      walk l0.memTable.list.heap l0.memTable.list.heap.length it = .ok E ∧
      flushLoop l0.memTable.list.heap l0.memTable.list.heap.length it NewWriter
        = .ok (writePairs NewWriter (E.map (fun e => ⟨0, e.1, e.2⟩))) ∧
      l0.flush = .ok (l1, none) ∧ l1.sstTables = some rd :: l0.sstTables ∧
      rd.file = (writePairs NewWriter (E.map (fun e => ⟨0, e.1, e.2⟩))).Close := by
  obtain ⟨l0, e0, v0, _⟩ := engine_run_spec [Op.put [97] [49] [], Op.delete [107] [true]]
    ⟨NewMemTable [] 1024, [], 1024⟩ 0 (New_fits [] 1024) (by decide) (by decide)
  obtain ⟨it, E, l1, rd, h1, h2, h3, h4, h5, h6, _⟩ :=
    C19_flush_entry_types l0 _ (fits_valid v0) (by decide)
  exact ⟨l0, it, E, l1, rd, e0, h1, h2, h3, h4, h5, h6⟩

/-- C20, counterexample: `Put("k", "v"); flush; Delete("k"); flush; Compact()` on
a fresh engine. The winning version of `"k"` is the tombstone, and `Compact`
writes it as the record `"k" -> TOMBSTONE_MARKER` with entry type 0: the file
differs from the one that holds this record with entry type 1. -/
theorem C20_counterexample :
    ∃ l l1 rd, LSM.run ⟨NewMemTable [] 1024, [], 1024⟩
        [Op.put [107] [118] [], Op.flush, Op.delete [107] [], Op.flush] = .ok (l, none) ∧
      l.sstTables.length = 2 ∧
      l.compactFile = .ok (some (writePairs NewWriter [⟨0, [107], tombstoneMarker⟩]).Close) ∧
      l.Compact = .ok (l1, none) ∧ l1.sstTables = [some rd] ∧
      rd.file = (writePairs NewWriter [⟨0, [107], tombstoneMarker⟩]).Close ∧
      rd.file.head? = some 0 ∧
      rd.file ≠ (writePairs NewWriter [⟨1, [107], tombstoneMarker⟩]).Close := by
  refine ⟨_, _, _, rfl, ?_, ?_, rfl, rfl, ?_, ?_, ?_⟩ <;> decide

/-- C20 (amended). Compaction preserves tombstones as sentinel values: when
`Compact` merges the two oldest SSTs `A` (older) and `B` (newer) (the engine's
data within the signed 64-bit file offsets, the keys of its SSTs of at most
2^30 bytes, which is what one `Read` call transfers), every record it writes
has entry type 0; for every key whose winning version (the record of `B`, or
the record of `A` when `B` has no record of that key) has an entry type other
than 1 and carries the tombstone sentinel, the compacted output contains
exactly one record for that key, written with entry type 0 and the sentinel as
its value, and the new reader returns the sentinel for that key. -/
theorem C20_compact_keeps_sentinel (l : LSM) (L : List Nat) (pre : List (List Record))
    (A B : List Record) (r : Record) (wf : l.WF L (pre ++ [B, A]))
    (hks : ∀ rs ∈ pre ++ [B, A], ∀ x ∈ rs, x.key.length ≤ maxRW)
    (hb : footprint (entriesOf l.memTable.list.heap L) (pre ++ [B, A]) < 2 ^ 63)
    (hwin : r ∈ B ∨ (r ∈ A ∧ ∀ rb ∈ B, rb.key ≠ r.key))
    (ht : r.entryType ≠ 1) (hv : r.value = tombstoneMarker) :
    ∃ l1 C rd, l.Compact = .ok (l1, none) ∧
      l.compactFile = .ok (some (writePairs NewWriter C).Close) ∧
      l1.sstTables = l.sstTables.take (l.sstTables.length - 2) ++ [some rd] ∧
      rd.file = (writePairs NewWriter C).Close ∧
      (∀ c ∈ C, c.entryType = 0) ∧
      (⟨0, r.key, tombstoneMarker⟩ : Record) ∈ C ∧
      (∀ c ∈ C, c.key = r.key → c = ⟨0, r.key, tombstoneMarker⟩) ∧
      rd.Get r.key = .ok (tombstoneMarker, true, none) := by
  obtain ⟨ix, h1, h2, _, hvC, _, hix⟩ := engine_compact_two l L pre B A wf hb
  have hexact : ix = indexOf (compactRecords B A) 0 :=
    hix (hks B (by simp)) (hks A (by simp))
  subst hexact
  have vB : ValidRecords B := wf.valid B (by simp)
  have vA : ValidRecords A := wf.valid A (by simp)
  have hcap : capRead tombstoneMarker = tombstoneMarker := capRead_small _ (by decide)
  have hmem : (⟨0, r.key, tombstoneMarker⟩ : Record) ∈ compactRecords B A := by
    rw [← hcap, ← hv]
    rcases hwin with hr | ⟨hr, hno⟩
    · exact compactRecords_newer B A vB.sorted r hr ht
    · exact compactRecords_older B A vA.sorted r hr ht hno
  refine ⟨_, compactRecords B A, ⟨sstLayout (compactRecords B A),
    indexOf (compactRecords B A) 0⟩, h1, ?_, rfl, ?_, compactRecords_type B A, hmem, ?_, ?_⟩
  · rw [writer_layout]; exact h2
  · rw [writer_layout]
  · intro c hc hk
    exact compactRecords_unique B A c _ hc hmem hk
  · have h := recGet_of_mem _ hvC.sorted _ hmem
    rw [reader_get_layout _ hvC]
    show Except.ok (recGet (compactRecords B A) (⟨0, r.key, tombstoneMarker⟩ : Record).key) = _
    rw [h, hcap]
    rfl

/-- C20, witness: `B` holds the tombstone of `"k"` as a sentinel value and `A`
holds `"k" -> "v"`. -/
theorem C20_compact_keeps_sentinel_witness :
    ∃ l1 C rd,
      LSM.Compact ⟨NewMemTable [] 1024,
        [some (readerOf [⟨0, [107], tombstoneMarker⟩]),
         some (readerOf [⟨0, [107], [118]⟩])], 1024⟩ = .ok (l1, none) ∧
      l1.sstTables = [some rd] ∧
      rd.file = (writePairs NewWriter C).Close ∧
      (∀ c ∈ C, c.entryType = 0) ∧
      (⟨0, [107], tombstoneMarker⟩ : Record) ∈ C ∧
      rd.Get [107] = .ok (tombstoneMarker, true, none) := by
  obtain ⟨l1, C, rd, h1, _, h3, h4, h5, h6, _, h8⟩ := C20_compact_keeps_sentinel
    ⟨NewMemTable [] 1024,
      [some (readerOf [⟨0, [107], tombstoneMarker⟩]),
       some (readerOf [⟨0, [107], [118]⟩])], 1024⟩ [] []
    [⟨0, [107], [118]⟩] [⟨0, [107], tombstoneMarker⟩] ⟨0, [107], tombstoneMarker⟩
    (NewMemTable_wf [] 1024 _ [[⟨0, [107], tombstoneMarker⟩], [⟨0, [107], [118]⟩]] rfl (by
        intro rs hrs
        simp only [List.mem_cons, List.mem_singleton, List.not_mem_nil, or_false] at hrs
        rcases hrs with rfl | rfl <;> exact ⟨by decide, by decide, by decide, by decide⟩))
    (by decide) (by decide) (Or.inl (by decide)) (by decide) rfl
  exact ⟨l1, C, rd, h1, h3, h4, h5, h6, h8⟩

/-- C21. What `LSM.Get` does with a type-1 record: in every well-formed engine
state in which the key `k` is absent from the memtable, no reader newer than
the one of `B` has a record of `k`, `B` holds a record of `k` written with
entry type 1, and the next older reader, of `A`, holds a live record of `k`
(entry type other than 1, value other than the sentinel), the reader of `B`
answers `(nil, false, nil)` and `LSM.Get(k)` goes on to the reader of `A` and
returns that record's value with `found = true` (the value as one `Read`
returns it, which is the whole value when it has at most 2^30 bytes): the
type-1 record is not definitive. -/
theorem C21_type1_not_definitive (l : LSM) (L : List Nat) (newer older : List (List Record))
    (B A : List Record) (k : Bytes) (rb ra : Record)
    (wf : l.WF L (newer ++ B :: A :: older))
    (hmem : l.memTable.Get k = .ok ([], false))
    (hnew : ∀ rs ∈ newer, ∀ r ∈ rs, r.key ≠ k)
    (hb : rb ∈ B) (hbk : rb.key = k) (hbt : rb.entryType = 1)
    (ha : ra ∈ A) (hak : ra.key = k) (hat : ra.entryType ≠ 1)
    (hav : ra.value ≠ tombstoneMarker) :
    l.sstTables[newer.length]? = some (some (readerOf B)) ∧
      (readerOf B).Get k = .ok ([], false, none) ∧
      l.Get k = .ok (capRead ra.value, true, none) := by
  have vB : ValidRecords B := wf.valid B (by simp)
  have vA : ValidRecords A := wf.valid A (by simp)
  have gB : recGet B k = ([], false, none) := by
    rw [← hbk, recGet_of_mem B vB.sorted rb hb, if_pos hbt]
  have gA : recGet A k = (capRead ra.value, true, none) := by
    rw [← hak, recGet_of_mem A vA.sorted ra ha, if_neg hat]
  refine ⟨?_, ?_, ?_⟩
  · rw [wf.readers, List.map_append, List.getElem?_append_right (by simp)]
    simp
  · rw [readerOf, reader_get_layout B vB, gB]
  · have hm : absGet (entriesOf l.memTable.list.heap L) k = ([], false) := by
      have h := skiplist_get_spec _ L wf.mem k
      unfold MemTable.Get at hmem
      rw [h] at hmem
      exact Except.ok.inj hmem
    rw [engine_get_spec l L _ wf k, viewGet, hm]
    simp only
    rw [tablesGet_skip newer _ k hnew, tablesGet, gB]
    simp only
    rw [tablesGet, gA]
    simp only
    rw [hitResult_live _ (capRead_ne_marker _ hav)]

/-- C21, witness: the engine that `New` returns on a directory with two SST
files, the newer one holding `"k"` written with entry type 1 (value `"x"`), the
older one holding `"k" -> "old"`: `Get("k")` returns `("old", true)`. -/
theorem C21_type1_not_definitive_witness :
    ∃ l, LSM.New []
        [(writePairs NewWriter [⟨1, [107], [120]⟩]).Close,
         (writePairs NewWriter [⟨0, [107], [111, 108, 100]⟩]).Close] 1024 = .ok (.ok l) ∧
      l.sstTables[0]? = some (some (readerOf [⟨1, [107], [120]⟩])) ∧
      (readerOf [⟨1, [107], [120]⟩]).Get [107] = .ok ([], false, none) ∧
      l.Get [107] = .ok ([111, 108, 100], true, none) :=
  ⟨⟨NewMemTable [] 1024, [some (readerOf [⟨1, [107], [120]⟩]),
      some (readerOf [⟨0, [107], [111, 108, 100]⟩])], 1024⟩, by decide,
    C21_type1_not_definitive
      ⟨NewMemTable [] 1024, [some (readerOf [⟨1, [107], [120]⟩]),
        some (readerOf [⟨0, [107], [111, 108, 100]⟩])], 1024⟩ [] [] []
      [⟨1, [107], [120]⟩] [⟨0, [107], [111, 108, 100]⟩] [107] ⟨1, [107], [120]⟩
      ⟨0, [107], [111, 108, 100]⟩
      (NewMemTable_wf [] 1024 _ [[⟨1, [107], [120]⟩], [⟨0, [107], [111, 108, 100]⟩]] rfl (by
        intro rs hrs
        simp only [List.mem_cons, List.mem_singleton, List.not_mem_nil, or_false] at hrs
        rcases hrs with rfl | rfl <;> exact ⟨by decide, by decide, by decide, by decide⟩))
      (by decide) (by intro rs hrs; cases hrs) (by decide) rfl rfl (by decide) rfl
      (by decide) (by decide)⟩

/-- C24. `Put` flushes exactly when the memtable becomes full: for every
well-formed engine with memtable counter `c` and limit `L` (keys and values
within the 32-bit length fields, the data within the signed 64-bit file
offsets, `c + len(k) + len(v)` within the range of the counter), `Put(k, v)`
succeeds when the log device works, and after every successful `Put(k, v)`: if
`c + len(k) + len(v) >= L` the reader vector is the old one with exactly one
more reader in front and the memtable is empty (no key, counter 0); otherwise
the reader vector is unchanged, the memtable holds `k` with the value `v` and
its counter is `c + len(k) + len(v)`. -/
theorem C24_put_flush_threshold (l : LSM) (b : Nat) (k v : Bytes) (flips : List Bool)
    (hval : l.Valid b) (hk : k.length < 2 ^ 32) (hv : v.length < 2 ^ 32)
    (hb : b + (9 + k.length + v.length) < 2 ^ 63)
    (hc0 : -(2 ^ 63) ≤ l.memTable.currSize + ((k.length : Int) + (v.length : Int)))
    (hc1 : l.memTable.currSize + ((k.length : Int) + (v.length : Int)) < 2 ^ 63) :
    (∃ l1, l.Put k v flips none = .ok (l1, none)) ∧
      ∀ fault l1, l.Put k v flips fault = .ok (l1, none) →
        (l.memTable.currSize + ((k.length : Int) + (v.length : Int)) ≥ l.maxMemSize →
          l1.sstTables.length = l.sstTables.length + 1 ∧
          (∃ rd, l1.sstTables = some rd :: l.sstTables) ∧
          (∀ q, l1.memTable.Get q = .ok ([], false)) ∧
          l1.memTable.GetIterator = .ok none ∧ l1.memTable.currSize = 0) ∧
        (l.memTable.currSize + ((k.length : Int) + (v.length : Int)) < l.maxMemSize →
          l1.sstTables = l.sstTables ∧ l1.memTable.Get k = .ok (v, true) ∧
          l1.memTable.currSize
            = l.memTable.currSize + ((k.length : Int) + (v.length : Int))) := by
  obtain ⟨L, tables, wf, hfp⟩ := hval
  obtain ⟨l1, e1, hfull, hnot⟩ := engine_put_cases l L tables wf k v flips hk hv (by omega)
    hc0 hc1
  refine ⟨⟨l1, e1⟩, ?_⟩
  intro fault l2 h
  have hf := engine_put_no_fault l k v flips fault l2 h
  subst hf
  rw [e1] at h
  have h12 : l1 = l2 := (Prod.mk.inj (Except.ok.inj h)).1
  subst h12
  refine ⟨?_, hnot⟩
  intro hge
  obtain ⟨⟨rd, hrd⟩, hm⟩ := hfull hge
  refine ⟨by rw [hrd]; rfl, ⟨rd, hrd⟩, ?_, by rw [hm]; rfl, by rw [hm]; rfl⟩
  intro q
  rw [hm]
  show NewSkipList.Get q = _
  rw [skiplist_get_spec NewSkipList [] NewSkipList_inv q]
  rfl

/-- C24, witness: a fresh engine with limit 10 and a `Put` of 1 + 9 bytes:
0 + 10 >= 10, so the `Put` flushes. -/
theorem C24_put_flush_threshold_witness :
    ∃ l1, LSM.Put ⟨NewMemTable [] 10, [], 10⟩ [107] [1, 2, 3, 4, 5, 6, 7, 8, 9] [true] none
        = .ok (l1, none) ∧
      l1.sstTables.length = 1 ∧ l1.memTable.currSize = 0 := by
  obtain ⟨⟨l1, e1⟩, h⟩ := C24_put_flush_threshold ⟨NewMemTable [] 10, [], 10⟩ 0 [107]
    [1, 2, 3, 4, 5, 6, 7, 8, 9] [true] (New_valid [] 10).2 (by decide) (by decide) (by decide)
    (by decide) (by decide)
  obtain ⟨h1, _, _, _, h5⟩ := (h none l1 e1).1 (by decide)
  exact ⟨l1, e1, h1, h5⟩

/-- C25. The effect of `Compact` on the reader vector: for every well-formed
engine with `n >= 2` SST readers (its data within the signed 64-bit file
offsets), `Compact` succeeds; afterwards the vector has exactly `n - 1`
readers, its first `n - 2` readers are the same readers in the same order as
before, its last reader is the reader that `Open` returns on the compacted
file, and the memtable and the limit are unchanged. -/
theorem C25_compact_vector (l : LSM) (b : Nat) (hval : l.Valid b) (hb : b < 2 ^ 63)
    (h2 : 2 ≤ l.sstTables.length) :
    ∃ l1 file rd, l.Compact = .ok (l1, none) ∧
      l.compactFile = .ok (some file) ∧ Open file = .ok (.ok rd) ∧
      l1.sstTables.length = l.sstTables.length - 1 ∧
      (∀ i, i < l.sstTables.length - 2 → l1.sstTables[i]? = l.sstTables[i]?) ∧
      l1.sstTables[l.sstTables.length - 2]? = some (some rd) ∧
      l1.sstTables = l.sstTables.take (l.sstTables.length - 2) ++ [some rd] ∧
      l1.memTable = l.memTable ∧ l1.maxMemSize = l.maxMemSize := by
  obtain ⟨L, tables, wf, hfp⟩ := hval
  have hlen : tables.length = l.sstTables.length := by rw [wf.readers]; simp
  obtain ⟨pre, t1, t2, rfl⟩ := last_two tables (by omega)
  obtain ⟨ix, h1, hf, ho, _, _, _⟩ := engine_compact_two l L pre t1 t2 wf (by omega)
  have hlt : (l.sstTables.take (l.sstTables.length - 2)).length = l.sstTables.length - 2 := by
    rw [List.length_take]; omega
  refine ⟨_, _, _, h1, hf, ho, ?_, ?_, ?_, rfl, rfl, rfl⟩
  · show (l.sstTables.take (l.sstTables.length - 2) ++ [_]).length = _
    rw [List.length_append, hlt]
    simp
    omega
  · intro i hi
    show (l.sstTables.take (l.sstTables.length - 2) ++ [_])[i]? = _
    rw [List.getElem?_append_left (by omega), List.getElem?_take_of_lt hi]
  · show (l.sstTables.take (l.sstTables.length - 2) ++ [_])[l.sstTables.length - 2]? = _
    rw [List.getElem?_append_right (by omega), hlt]
    simp

/-- C25, witness: the compaction test, `Put("a","1"); flush; Put("b","2"); flush;
Compact()`: two readers before, one after. -/
theorem C25_compact_vector_witness :
    ∃ l1 file rd, demoTwo.Compact = .ok (l1, none) ∧
      demoTwo.compactFile = .ok (some file) ∧ Open file = .ok (.ok rd) ∧
      l1.sstTables = [some rd] ∧ l1.memTable = demoTwo.memTable := by
  have hrun : LSM.run ⟨NewMemTable [] 100, [], 100⟩
      [Op.put [97] [49] [], Op.flush, Op.put [98] [50] [], Op.flush]
      = .ok (demoTwo, none) := by decide
  obtain ⟨l0, e0, v0, _⟩ := engine_run_spec
    [Op.put [97] [49] [], Op.flush, Op.put [98] [50] [], Op.flush]
    ⟨NewMemTable [] 100, [], 100⟩ 0 (New_fits [] 100) (by decide) (by decide)
  rw [hrun] at e0
  have h0 : demoTwo = l0 := (Prod.mk.inj (Except.ok.inj e0)).1
  rw [← h0] at v0
  obtain ⟨l1, file, rd, a1, a2, a3, _, _, _, a7, a8, _⟩ :=
    C25_compact_vector demoTwo _ (fits_valid v0) (by decide) (by decide)
  refine ⟨l1, file, rd, a1, a2, a3, ?_, a8⟩
  rw [a7]
  have : demoTwo.sstTables.take (demoTwo.sstTables.length - 2) = [] := by decide
  rw [this]
  rfl

/-- C22, counterexample: `Open` returns a reader, not an error, on a 12-byte
file whose footer gives the index offset 8, inside the footer itself (the
index is empty), and on a 21-byte file whose only index entry declares a key
of 100 bytes where one byte is left before the footer (the key is read through
the footer and padded with zeros). -/
theorem C22_counterexample :
    Open [0, 0, 0, 0, 8, 0, 0, 0, 0, 0, 0, 0]
        = .ok (.ok ⟨[0, 0, 0, 0, 8, 0, 0, 0, 0, 0, 0, 0], []⟩) ∧
      Open ([100, 0, 0, 0] ++ [0, 0, 0, 0, 0, 0, 0, 0] ++ [97] ++ [0, 0, 0, 0, 0, 0, 0, 0])
        = .ok (.ok ⟨[100, 0, 0, 0] ++ [0, 0, 0, 0, 0, 0, 0, 0] ++ [97] ++ [0, 0, 0, 0, 0, 0, 0, 0],
            [⟨[97, 0, 0, 0, 0, 0, 0, 0, 0] ++ List.replicate 91 0, 0⟩]⟩) := by
  constructor <;> decide

/-- C22 (amended). What `sstable.Open` rejects: for every file, `Open` returns
an error when the file is shorter than the 8-byte footer or when the index
offset in its footer is 2^63 or more (negative as the `int64` it seeks to);
when the index offset in the footer lies within the file or at its end, `Open`
returns a reader on that file, whatever the bytes from that offset on are, with
an empty index when the offset is the length of the file. (For an offset past
the end of the file the outcome is that of the file system's seek and is not
stated.) -/
theorem C22_open_rejects (file : Bytes) :
    ((file.length < 8 ∨ 2 ^ 63 ≤ leValue (file.drop (file.length - 8))) →
      Open file = .ok (.error IOErr.seek)) ∧
    (8 ≤ file.length → leValue (file.drop (file.length - 8)) < 2 ^ 63 →
      leValue (file.drop (file.length - 8)) ≤ file.length →
      ∃ index, Open file = .ok (.ok ⟨file, index⟩)) ∧
    (8 ≤ file.length → leValue (file.drop (file.length - 8)) < 2 ^ 63 →
      leValue (file.drop (file.length - 8)) = file.length →
      Open file = .ok (.ok ⟨file, []⟩)) := by
  refine ⟨?_, ?_, ?_⟩
  · intro h
    by_cases h8 : file.length < 8
    · exact open_short file h8
    · rcases h with h | h
      · exact absurd h h8
      · exact open_bad_footer file (by omega) h
  · intro h8 hf hin
    obtain ⟨ix, h, _⟩ := open_accepts file h8 hf hin
    exact ⟨ix, h⟩
  · intro h8 hf hp
    obtain ⟨ix, h, he⟩ := open_accepts file h8 hf (by omega)
    rw [h, he hp]

/-- C22, witness: a 7-byte file is rejected; a 9-byte file whose footer gives
the index offset 2^63 is rejected; the 21-byte file whose index entry declares
a key of 100 bytes is opened; an 8-byte file whose footer gives the index
offset 8 is opened with an empty index. -/
theorem C22_open_rejects_witness :
    Open [1, 2, 3, 4, 5, 6, 7] = .ok (.error IOErr.seek) ∧
      Open [9, 0, 0, 0, 0, 0, 0, 0, 128] = .ok (.error IOErr.seek) ∧
      (∃ index, Open [100, 0, 0, 0, 0, 0, 0, 0, 0, 0, 0, 0, 97, 0, 0, 0, 0, 0, 0, 0, 0]
        = .ok (.ok ⟨[100, 0, 0, 0, 0, 0, 0, 0, 0, 0, 0, 0, 97, 0, 0, 0, 0, 0, 0, 0, 0], index⟩)) ∧
      Open [8, 0, 0, 0, 0, 0, 0, 0] = .ok (.ok ⟨[8, 0, 0, 0, 0, 0, 0, 0], []⟩) :=
  ⟨(C22_open_rejects [1, 2, 3, 4, 5, 6, 7]).1 (Or.inl (by decide)),
    (C22_open_rejects [9, 0, 0, 0, 0, 0, 0, 0, 128]).1 (Or.inr (by decide)),
    (C22_open_rejects [100, 0, 0, 0, 0, 0, 0, 0, 0, 0, 0, 0, 97, 0, 0, 0, 0, 0, 0, 0, 0]).2.1
      (by decide) (by decide) (by decide),
    (C22_open_rejects [8, 0, 0, 0, 0, 0, 0, 0]).2.2 (by decide) (by decide) (by decide)⟩

/-- C26. Skip list structural invariant: starting from `NewSkipList`, after
every sequence of `Put`s (for every outcome of the coin flips of `randomLevel`)
the puts have returned and, at every level `i` below `MaxLevel`, the forward
chain from the head ends and is strictly key-ascending; every node reachable
on the level-`i` chain is also on the level-`j` chain for every `j < i`, in
the same order; and the level-0 chain contains every node other than the head
exactly once. -/
theorem C26_skiplist_invariant (ops : List (Bytes × Bytes × List Bool)) :
    ∃ (s : SkipList) (chains : Nat → List Nat), putAll NewSkipList ops = .ok s ∧
      (∀ i, i < MaxLevel →
        s.levelChain i = .ok (chains i) ∧
        (chains i).Pairwise
          (fun p q => bytesCompare (keyAt s.heap p) (keyAt s.heap q) < 0) ∧
        ∀ j, j < i → (chains i).Sublist (chains j)) ∧
      (chains 0).Nodup ∧
      (∀ p, p ∈ chains 0 ↔ p ≠ s.head ∧ p < s.heap.length) := by
  obtain ⟨s, L, e, inv, _⟩ := putAll_spec ops NewSkipList [] NewSkipList_inv
  have hz : levelOf s.heap 0 L = L := levelOf_zero _ _ inv.height_pos
  refine ⟨s, fun i => levelOf s.heap i L, e, ?_, ?_, ?_⟩
  · intro i hi
    refine ⟨levelChain_spec s L inv i hi, ?_, ?_⟩
    · exact inv.sorted.sublist (List.filter_sublist _)
    · intro j hj
      exact levelOf_sublist s.heap i j L (by omega)
  · show (levelOf s.heap 0 L).Nodup
    rw [hz]
    exact (List.nodup_cons.mp inv.nodup).2
  · intro p
    show p ∈ levelOf s.heap 0 L ↔ _
    rw [hz]
    exact inv_all_nodes s L inv p

/-- C28. Skip list index safety: for every sequence of `Put` and `Get` calls on
a list created by `NewSkipList`, with every outcome of the coin flips, no call
panics (no access to the update vector, to `head.next[i]` or to a node's
`next[i]` is out of range, no nil node is dereferenced) and every loop ends, so
the run returns; the level field of the list is then at most `MaxLevel - 1`,
the head has `MaxLevel` pointers, and `randomLevel` returns at most
`MaxLevel - 1` whatever the coin flips. -/
theorem C28_skiplist_index_safety (ops : List ListOp) :
    (∃ s outs, listRun NewSkipList ops = .ok (s, outs) ∧ s.level ≤ MaxLevel - 1 ∧
      heightAt s.heap s.head = MaxLevel) ∧
    ∀ flips, randomLevel flips 0 ≤ MaxLevel - 1 := by
  obtain ⟨s, L, outs, e, inv⟩ := listRun_spec ops NewSkipList [] NewSkipList_inv
  refine ⟨⟨s, outs, e, ?_, ?_⟩, fun flips => randomLevel_le flips 0 (by simp [MaxLevel])⟩
  · have := inv.level_lt
    omega
  · rw [inv.head_zero]
    exact inv.head_height

/-- C23. A restart after a compaction: on a fresh engine with limit 1024,
`Put("k", "1"); flush; Put("x", "y"); flush; Compact(); Put("k", "2"); flush`
with the clock at seven successive nanoseconds leaves an empty memtable and
`Get("k") = ("2", true)`. The directory then holds the three flushed files and
`compacted_<nanos>.sst`; `New` on it opens the compacted file first, as the
newest one, and `Get("k")` on the engine it returns is `("1", true)`: the value
read before the engine was closed is not the one read after the restart. -/
theorem C23_restart_after_compaction :
    ∃ s s2, Store.run ⟨⟨NewMemTable [] 1024, [], 1024⟩, []⟩
        [StoreOp.put [107] [49] [] 1700000000000000001, StoreOp.flush 1700000000000000002,
         StoreOp.put [120] [121] [] 1700000000000000003, StoreOp.flush 1700000000000000004,
         StoreOp.compact 1700000000000000005,
         StoreOp.put [107] [50] [] 1700000000000000006, StoreOp.flush 1700000000000000007]
        = .ok (s, none) ∧
      s.lsm.memTable.GetIterator = .ok none ∧
      s.lsm.Get [107] = .ok ([50], true, none) ∧
      sstNames s.Close = [compactedName 1700000000000000005, flushName 1700000000000000007,
        flushName 1700000000000000004, flushName 1700000000000000002] ∧
      Store.New [] s.Close 1024 = .ok (.ok s2) ∧
      s2.lsm.Get [107] = .ok ([49], true, none) := by
  refine ⟨_, _, rfl, ?_, ?_, ?_, rfl, ?_⟩ <;> decide

/-- C27, counterexample: the compaction output name `compacted_<nanos>.sst`
does not compare less than the flush output name `<nanos>.sst` of a later
nanosecond, it compares greater; and `loadSSTables` on a directory with these
two files opens the compacted file first. -/
theorem C27_counterexample :
    ¬ bytesCompare (compactedName 1700000000000000005) (flushName 1700000000000000007) < 0 ∧
      bytesCompare (compactedName 1700000000000000005) (flushName 1700000000000000007) = 1 ∧
      sstNames [(flushName 1700000000000000007, []), (compactedName 1700000000000000005, [])]
        = [compactedName 1700000000000000005, flushName 1700000000000000007] := by
  refine ⟨?_, ?_, ?_⟩ <;> decide

/-- C27 (amended). Naming order of compaction outputs: under the
byte-lexicographic string order that `loadSSTables` sorts by (`bytes.Compare`
on the names, the directory being the same), for all clock readings `a` and
`b` the compaction output name `compacted_<a>.sst` compares greater than the
flush output name `<b>.sst`: the letter `c` is above every digit and the minus
sign. -/
theorem C27_compacted_name_order (a b : Int) :
    bytesCompare (compactedName a) (flushName b) > 0 ∧
      bytesCompare (flushName b) (compactedName a) < 0 := by
  have hlt := flushName_lt_compactedName a b
  have := bytesCompare_flip (flushName b) (compactedName a)
  exact ⟨by omega, hlt⟩

end Lsm
